import Mathlib

/-!
# JSON Reference (`reference.go`)

A shallow embedding of the `jsonreference` package: the `Ref` value, its
constructor `New` / `Ref.parse`, the predicates `HasOnlyFragment`, `IsRoot`,
`IsCanonical`, the renderer `String` and the resolution `Inherits`.

The package delegates URL parsing, normalisation, resolution and serialisation
as well as JSON Pointer parsing to other packages (`net/url`,
`internal.NormalizeURL`, `jsonpointer`).  Those are collected in the record
`Lib`; every general theorem below is stated for an arbitrary `Lib`.
-/

namespace JsonReference

/-- Go's `error` values that occur: the error types of `net/url` and the text
errors made by `errors.New` and `fmt.Errorf`. -/
inductive Error where
  /-- The error `errors.New(text)`. -/
  | errorString (text : String)
  /-- The error `url.EscapeError(s)`. -/
  | EscapeError (s : String)
  /-- The error `url.InvalidHostError(s)`. -/
  | InvalidHostError (s : String)
  /-- The error `fmt.Errorf("invalid port %q after host", colonPort)`. -/
  | invalidPort (colonPort : String)
  /-- The error `&url.Error{Op, URL, Err}`. -/
  | urlError (Op : String) (URL : String) (Err : Error)
deriving DecidableEq, Repr

/-- The type `url.Userinfo` of `net/url`. -/
structure Userinfo where
  username : String
  password : String
  passwordSet : Bool
deriving DecidableEq, Repr

/-- The type `url.URL` of `net/url`, field for field. -/
structure URL where
  Scheme : String
  Opaque : String
  User : Option Userinfo
  Host : String
  Path : String
  RawPath : String
  OmitHost : Bool
  ForceQuery : Bool
  RawQuery : String
  Fragment : String
  RawFragment : String
deriving DecidableEq, Repr

/-- The type `jsonpointer.Pointer`: the list of reference tokens. -/
structure Pointer where
  referenceTokens : List String
deriving DecidableEq, Repr

/-- The functions of other packages that `reference.go` calls. -/
structure Lib where
  /-- The function `url.Parse`. -/
  urlParse : String → Except Error URL
  /-- The function `internal.NormalizeURL`; it updates the URL in place. -/
  normalizeURL : URL → URL
  /-- The method `(*url.URL).ResolveReference`, receiver first. -/
  resolveReference : URL → URL → URL
  /-- The method `(*url.URL).String`. -/
  urlString : URL → String
  /-- The function `jsonpointer.New`; Go returns the pointer and the error together. -/
  pointerNew : String → Pointer × Option Error
  /-- The method `(*jsonpointer.Pointer).String`. -/
  pointerString : Pointer → String

/-- The function `strings.HasPrefix`. -/
def stringsHasPrefix (s pre : String) : Bool :=
  pre.data.isPrefixOf s.data

/-- The constant `fragmentRune`. -/
def fragmentRune : String := "#"

/-- The type `Ref` of `reference.go`; `ReferenceURL` is a pointer that may be nil. -/
structure Ref where
  ReferenceURL : Option URL
  ReferencePointer : Pointer
  HasFullURL : Bool
  HasURLPathOnly : Bool
  HasFragmentOnly : Bool
  HasFileScheme : Bool
  HasFullFilePath : Bool
deriving DecidableEq, Repr

/-- The zero value of `Ref` (`var r Ref`, `Ref{}`). -/
def Ref.zero : Ref :=
  { ReferenceURL := none
    ReferencePointer := { referenceTokens := [] }
    HasFullURL := false
    HasURLPathOnly := false
    HasFragmentOnly := false
    HasFileScheme := false
    HasFullFilePath := false }

/-- The method `HasOnlyFragment`. -/
def Ref.HasOnlyFragment (r : Ref) : Bool :=
  match r.ReferenceURL with
  | none => false
  | some u =>
    if u.Host ≠ "" then false
    else if u.Path ≠ "" then false
    else true

/-- The method `GetURL`. -/
def Ref.GetURL (r : Ref) : Option URL :=
  r.ReferenceURL

/-- The method `GetPointer`. -/
def Ref.GetPointer (r : Ref) : Pointer :=
  r.ReferencePointer

/-- The method `IsCanonical`. -/
def Ref.IsCanonical (r : Ref) : Bool :=
  (r.HasFileScheme && r.HasFullFilePath) || (!r.HasFileScheme && r.HasFullURL)

/-- The method `IsRoot`. -/
def Ref.IsRoot (r : Ref) : Bool :=
  match r.ReferenceURL with
  | none => false
  | some u => !r.IsCanonical && !r.HasURLPathOnly && decide (u.Fragment = "")

/-- The method `parse`: the receiver is updated in place and the error returned;
here the updated receiver is returned next to the error. -/
def Ref.parse (L : Lib) (r : Ref) (jsonReferenceString : String) : Ref × Option Error :=
  match L.urlParse jsonReferenceString with
  | .error err => (r, some err)
  | .ok parsed =>
    let refURL := L.normalizeURL parsed
    let r1 := { r with ReferenceURL := some refURL }
    let r2 :=
      if refURL.Scheme ≠ "" ∧ refURL.Host ≠ "" then
        { r1 with HasFullURL := true }
      else if refURL.Path ≠ "" then
        { r1 with HasURLPathOnly := true }
      else if refURL.RawQuery = "" ∧ refURL.Fragment ≠ "" then
        { r1 with HasFragmentOnly := true }
      else r1
    let r3 := { r2 with HasFileScheme := decide (refURL.Scheme = "file") }
    let r4 := { r3 with HasFullFilePath := stringsHasPrefix refURL.Path "/" }
    let r5 := { r4 with ReferencePointer := (L.pointerNew refURL.Fragment).1 }
    (r5, none)

/-- The function `New`. -/
def New (L : Lib) (jsonReferenceString : String) : Ref × Option Error :=
  Ref.parse L Ref.zero jsonReferenceString

/-- The function `MustCreateRef`; a panic is the `error` case, carrying the
panic value. -/
def MustCreateRef (L : Lib) (ref : String) : Except Error Ref :=
  match New L ref with
  | (_, some err) => .error err
  | (r, none) => .ok r

/-- The method `Inherits`: Go returns a `*Ref` that may be nil, and an error. -/
def Ref.Inherits (L : Lib) (r : Ref) (child : Ref) : Option Ref × Option Error :=
  let childURL := child.GetURL
  let parentURL := r.GetURL
  match childURL with
  | none => (none, some (Error.errorString "child url is nil"))
  | some cu =>
    match parentURL with
    | none => (some child, none)
    | some pu =>
      match New L (L.urlString (L.resolveReference pu cu)) with
      | (_, some err) => (none, some err)
      | (ref, none) => (some ref, none)

/-- The method `String`. -/
def Ref.String (L : Lib) (r : Ref) : String :=
  match r.ReferenceURL with
  | some u => L.urlString u
  | none =>
    if r.HasOnlyFragment then
      fragmentRune ++ L.pointerString r.ReferencePointer
    else
      L.pointerString r.ReferencePointer

/-! ## A sample `Lib`: the behaviour of `net/url`, `internal` and `jsonpointer`

The general theorems hold for every `Lib`.  To evaluate `New` and `Inherits` on
concrete strings, the functions behind `Lib` are written out here after the Go
standard library (`net/url`, Go 1.22), the package `jsonpointer` and the package
`internal` of this repository; none of them is among the sources of
`reference.go`.

Go strings are byte strings.  Below a `Char` stands for the byte with its code,
so the functions follow the Go code on strings of characters with code below 256.
-/

namespace Strings

/-- The function `strings.Cut` for a one-byte separator: the text before the
first separator, the text after it, and whether it was found. -/
def Cut (sep : Char) : List Char → List Char × List Char × Bool
  | [] => ([], [], false)
  | c :: cs =>
    if c = sep then ([], cs, true)
    else
      match Cut sep cs with
      | (before, after, found) => (c :: before, after, found)

/-- The split of a text at the last occurrence of a byte (`strings.LastIndex`):
`none` when it does not occur (index `-1`), else the text before and after it. -/
def cutLast (sep : Char) (s : List Char) : Option (List Char × List Char) :=
  match Cut sep s.reverse with
  | (_, _, false) => none
  | (after, before, true) => some (before.reverse, after.reverse)

/-- The function `strings.Split` for a one-byte separator. -/
def Split (sep : Char) : List Char → List (List Char)
  | [] => [[]]
  | c :: cs =>
    if c = sep then [] :: Split sep cs
    else
      match Split sep cs with
      | [] => [[c]]
      | seg :: segs => (c :: seg) :: segs

/-- The function `strings.Join` for a one-byte separator. -/
def Join (sep : Char) : List (List Char) → List Char
  | [] => []
  | [a] => a
  | a :: b :: rest => a ++ sep :: Join sep (b :: rest)

/-- The function `strings.Contains` for a one-byte pattern. -/
def Contains (s : List Char) (c : Char) : Bool :=
  s.contains c

/-- The function `strings.Count` for a one-byte pattern. -/
def Count (s : List Char) (c : Char) : Nat :=
  s.count c

/-- The function `strings.HasPrefix`. -/
def HasPrefix (s pre : List Char) : Bool :=
  pre.isPrefixOf s

/-- The function `strings.HasSuffix`. -/
def HasSuffix (s suf : List Char) : Bool :=
  suf.reverse.isPrefixOf s.reverse

/-- The function `strings.ToLower` on ASCII text. -/
def ToLower (s : List Char) : List Char :=
  s.map Char.toLower

end Strings

namespace NetURL

open Strings

/-- The type `encoding` of `net/url`. -/
inductive encoding where
  | encodePath
  | encodePathSegment
  | encodeHost
  | encodeZone
  | encodeUserPassword
  | encodeQueryComponent
  | encodeFragment
deriving DecidableEq, Repr

open encoding

/-- The function `ishex`. -/
def ishex (c : Char) : Bool :=
  ('0' ≤ c ∧ c ≤ '9') || ('a' ≤ c ∧ c ≤ 'f') || ('A' ≤ c ∧ c ≤ 'F')

/-- The function `unhex`. -/
def unhex (c : Char) : Nat :=
  if '0' ≤ c ∧ c ≤ '9' then c.toNat - '0'.toNat
  else if 'a' ≤ c ∧ c ≤ 'f' then c.toNat - 'a'.toNat + 10
  else if 'A' ≤ c ∧ c ≤ 'F' then c.toNat - 'A'.toNat + 10
  else 0

/-- The table `upperhex`, indexed by a value below 16. -/
def upperhex (n : Nat) : Char :=
  "0123456789ABCDEF".data.getD n '0'

/-- The function `shouldEscape`. -/
def shouldEscape (c : Char) (mode : encoding) : Bool :=
  if ('a' ≤ c ∧ c ≤ 'z') ∨ ('A' ≤ c ∧ c ≤ 'Z') ∨ ('0' ≤ c ∧ c ≤ '9') then false
  else if (mode = encodeHost ∨ mode = encodeZone) ∧
      c ∈ ['!', '$', '&', Char.ofNat 39, '(', ')', '*', '+', ',', ';', '=', ':', '[', ']', '<', '>', '"'] then
    false
  else if c ∈ ['-', '_', '.', '~'] then false
  else if c ∈ ['$', '&', '+', ',', '/', ':', ';', '=', '?', '@'] then
    match mode with
    | encodePath => c = '?'
    | encodePathSegment => c = '/' || c = ';' || c = ',' || c = '?'
    | encodeUserPassword => c = '@' || c = '/' || c = '?' || c = ':'
    | encodeQueryComponent => true
    | encodeFragment => false
    | _ => true
  else if mode = encodeFragment ∧ c ∈ ['!', '(', ')', '*'] then false
  else true

/-- The first loop of `unescape`: `none` when every escape is well formed for
the mode, else the error that `unescape` returns. -/
def unescapeCheck (mode : encoding) : List Char → Option Error
  | [] => none
  | c :: rest =>
    if c = '%' then
      match rest with
      | a :: b :: rest2 =>
        if !ishex a || !ishex b then
          some (Error.EscapeError (String.mk [c, a, b]))
        else if mode = encodeHost ∧ unhex a < 8 ∧ [c, a, b] ≠ ['%', '2', '5'] then
          some (Error.EscapeError (String.mk [c, a, b]))
        else if mode = encodeZone ∧ [c, a, b] ≠ ['%', '2', '5'] ∧
            Char.ofNat (unhex a * 16 + unhex b) ≠ ' ' ∧
            shouldEscape (Char.ofNat (unhex a * 16 + unhex b)) encodeHost then
          some (Error.EscapeError (String.mk [c, a, b]))
        else unescapeCheck mode rest2
      | _ => some (Error.EscapeError (String.mk ((c :: rest).take 3)))
    else if c = '+' then unescapeCheck mode rest
    else if (mode = encodeHost ∨ mode = encodeZone) ∧ c.toNat < 128 ∧ shouldEscape c encodeHost then
      some (Error.InvalidHostError (String.mk [c]))
    else unescapeCheck mode rest

/-- The second loop of `unescape`, run on text that passed the first. -/
def unescapeDecode (mode : encoding) : List Char → List Char
  | [] => []
  | c :: rest =>
    if c = '%' then
      match rest with
      | a :: b :: rest2 => Char.ofNat (unhex a * 16 + unhex b) :: unescapeDecode mode rest2
      | _ => []
    else if c = '+' then
      (if mode = encodeQueryComponent then ' ' else '+') :: unescapeDecode mode rest
    else c :: unescapeDecode mode rest

/-- The function `unescape`. -/
def unescape (s : List Char) (mode : encoding) : Except Error (List Char) :=
  match unescapeCheck mode s with
  | some err => .error err
  | none => .ok (unescapeDecode mode s)

/-- The function `escape`. -/
def escape (s : List Char) (mode : encoding) : List Char :=
  match s with
  | [] => []
  | c :: rest =>
    if c = ' ' ∧ mode = encodeQueryComponent then '+' :: escape rest mode
    else if shouldEscape c mode then
      '%' :: upperhex (c.toNat / 16 % 16) :: upperhex (c.toNat % 16) :: escape rest mode
    else c :: escape rest mode

/-- The function `getScheme`: the scheme and the rest, or an error. -/
def getSchemeAux (rawURL : List Char) : Nat → List Char → Except Error (List Char × List Char)
  | _, [] => .ok ([], rawURL)
  | i, c :: cs =>
    if ('a' ≤ c ∧ c ≤ 'z') ∨ ('A' ≤ c ∧ c ≤ 'Z') then getSchemeAux rawURL (i + 1) cs
    else if ('0' ≤ c ∧ c ≤ '9') ∨ c = '+' ∨ c = '-' ∨ c = '.' then
      if i = 0 then .ok ([], rawURL) else getSchemeAux rawURL (i + 1) cs
    else if c = ':' then
      if i = 0 then .error (Error.errorString "missing protocol scheme")
      else .ok (rawURL.take i, cs)
    else .ok ([], rawURL)

/-- The function `getScheme`. -/
def getScheme (rawURL : List Char) : Except Error (List Char × List Char) :=
  getSchemeAux rawURL 0 rawURL

/-- The function `stringContainsCTLByte`. -/
def stringContainsCTLByte (s : List Char) : Bool :=
  s.any (fun b => b.toNat < 32 || b.toNat = 127)

/-- The function `validOptionalPort`. -/
def validOptionalPort (port : List Char) : Bool :=
  match port with
  | [] => true
  | c :: rest => if c ≠ ':' then false else rest.all (fun b => '0' ≤ b ∧ b ≤ '9')

/-- The function `validUserinfo`. -/
def validUserinfo (s : List Char) : Bool :=
  s.all (fun r =>
    ('A' ≤ r ∧ r ≤ 'Z') || ('a' ≤ r ∧ r ≤ 'z') || ('0' ≤ r ∧ r ≤ '9') ||
    decide (r ∈ ['-', '.', '_', ':', '~', '!', '$', '&', Char.ofNat 39,
      '(', ')', '*', '+', ',', ';', '=', '%', '@']))

/-- The function `validEncoded`. -/
def validEncoded (s : List Char) (mode : encoding) : Bool :=
  s.all (fun c =>
    if c ∈ ['!', '$', '&', Char.ofNat 39, '(', ')', '*', '+', ',', ';', '=', ':', '@'] then true
    else if c ∈ ['[', ']'] then true
    else if c = '%' then true
    else !shouldEscape c mode)

/-- The index of the first `%25` in a text (`strings.Index(s, "%25")`), as the
text before it and the text from it on. -/
def cutZone : List Char → Option (List Char × List Char)
  | [] => none
  | c :: rest =>
    if HasPrefix (c :: rest) ['%', '2', '5'] then some ([], c :: rest)
    else
      match cutZone rest with
      | none => none
      | some (a, b) => some (c :: a, b)

/-- The function `parseHost`. -/
def parseHost (host : List Char) : Except Error (List Char) :=
  if HasPrefix host ['['] then
    match cutLast ']' host with
    | none => .error (Error.errorString "missing ']' in host")
    | some (before, colonPort) =>
      if !validOptionalPort colonPort then
        .error (Error.invalidPort (String.mk colonPort))
      else
        match cutZone before with
        | some (h1, zoneText) =>
          match unescape h1 encodeHost with
          | .error e => .error e
          | .ok host1 =>
            match unescape zoneText encodeZone with
            | .error e => .error e
            | .ok host2 =>
              match unescape (']' :: colonPort) encodeHost with
              | .error e => .error e
              | .ok host3 => .ok (host1 ++ host2 ++ host3)
        | none => unescape host encodeHost
  else
    match cutLast ':' host with
    | some (_, port) =>
      if !validOptionalPort (':' :: port) then
        .error (Error.invalidPort (String.mk (':' :: port)))
      else unescape host encodeHost
    | none => unescape host encodeHost

/-- The function `parseAuthority`. -/
def parseAuthority (authority : List Char) : Except Error (Option Userinfo × List Char) :=
  match cutLast '@' authority with
  | none =>
    match parseHost authority with
    | .error e => .error e
    | .ok host => .ok (none, host)
  | some (userinfo, hostText) =>
    match parseHost hostText with
    | .error e => .error e
    | .ok host =>
      if !validUserinfo userinfo then
        .error (Error.errorString "net/url: invalid userinfo")
      else if !Contains userinfo ':' then
        match unescape userinfo encodeUserPassword with
        | .error e => .error e
        | .ok u => .ok (some ⟨String.mk u, "", false⟩, host)
      else
        match unescape (Cut ':' userinfo).1 encodeUserPassword with
        | .error e => .error e
        | .ok username =>
          match unescape (Cut ':' userinfo).2.1 encodeUserPassword with
          | .error e => .error e
          | .ok password => .ok (some ⟨String.mk username, String.mk password, true⟩, host)

/-- The zero value of `url.URL` (`new(URL)`). -/
def zeroURL : URL :=
  { Scheme := "", Opaque := "", User := none, Host := "", Path := "", RawPath := "",
    OmitHost := false, ForceQuery := false, RawQuery := "", Fragment := "", RawFragment := "" }

/-- The method `setPath`. -/
def setPath (u : URL) (p : List Char) : Except Error URL :=
  match unescape p encodePath with
  | .error e => .error e
  | .ok path =>
    if p = escape path encodePath then
      .ok { u with Path := String.mk path, RawPath := "" }
    else
      .ok { u with Path := String.mk path, RawPath := String.mk p }

/-- The method `setFragment`. -/
def setFragment (u : URL) (f : List Char) : Except Error URL :=
  match unescape f encodeFragment with
  | .error e => .error e
  | .ok frag =>
    if f = escape frag encodeFragment then
      .ok { u with Fragment := String.mk frag, RawFragment := "" }
    else
      .ok { u with Fragment := String.mk frag, RawFragment := String.mk f }

/-- Whether `unescape` succeeds on a text with a given result (`err == nil && p == want`). -/
def unescapesTo (s : List Char) (mode : encoding) (want : List Char) : Bool :=
  match unescape s mode with
  | .ok p => p = want
  | .error _ => false

/-- The method `EscapedPath`. -/
def EscapedPath (u : URL) : List Char :=
  if u.RawPath ≠ "" ∧ validEncoded u.RawPath.data encodePath ∧
      unescapesTo u.RawPath.data encodePath u.Path.data then
    u.RawPath.data
  else if u.Path = "*" then ['*']
  else escape u.Path.data encodePath

/-- The method `EscapedFragment`. -/
def EscapedFragment (u : URL) : List Char :=
  if u.RawFragment ≠ "" ∧ validEncoded u.RawFragment.data encodeFragment ∧
      unescapesTo u.RawFragment.data encodeFragment u.Fragment.data then
    u.RawFragment.data
  else escape u.Fragment.data encodeFragment

/-- The function `parse` with `viaRequest` false. -/
def parse (rawURL : List Char) : Except Error URL :=
  if stringContainsCTLByte rawURL then
    .error (Error.errorString "net/url: invalid control character in URL")
  else if rawURL = ['*'] then
    .ok { zeroURL with Path := "*" }
  else
    match getScheme rawURL with
    | .error e => .error e
    | .ok (scheme, rest0) =>
      let url1 := { zeroURL with Scheme := String.mk (ToLower scheme) }
      let force := HasSuffix rest0 ['?'] && Count rest0 '?' = 1
      let url2 :=
        if force then { url1 with ForceQuery := true }
        else { url1 with RawQuery := String.mk (Cut '?' rest0).2.1 }
      let rest := if force then rest0.dropLast else (Cut '?' rest0).1
      if !HasPrefix rest ['/'] ∧ url2.Scheme ≠ "" then
        .ok { url2 with Opaque := String.mk rest }
      else if !HasPrefix rest ['/'] ∧ Contains (Cut '/' rest).1 ':' then
        .error (Error.errorString "first path segment in URL cannot contain colon")
      else if (url2.Scheme ≠ "" ∨ !HasPrefix rest ['/', '/', '/']) ∧ HasPrefix rest ['/', '/'] then
        let authority := (Cut '/' (rest.drop 2)).1
        let rest2 := if (Cut '/' (rest.drop 2)).2.2 then '/' :: (Cut '/' (rest.drop 2)).2.1 else []
        match parseAuthority authority with
        | .error e => .error e
        | .ok (user, host) => setPath { url2 with User := user, Host := String.mk host } rest2
      else if url2.Scheme ≠ "" ∧ HasPrefix rest ['/'] then
        setPath { url2 with OmitHost := true } rest
      else setPath url2 rest

/-- The function `url.Parse`. -/
def Parse (rawURL : String) : Except Error URL :=
  match parse (Cut '#' rawURL.data).1 with
  | .error err => .error (Error.urlError "parse" (String.mk (Cut '#' rawURL.data).1) err)
  | .ok url =>
    if (Cut '#' rawURL.data).2.1 = [] then .ok url
    else
      match setFragment url (Cut '#' rawURL.data).2.1 with
      | .error err => .error (Error.urlError "parse" rawURL err)
      | .ok url2 => .ok url2

/-- The method `(*Userinfo).String` on a non-nil receiver. -/
def Userinfo.String (u : Userinfo) : List Char :=
  if u.passwordSet then
    escape u.username.data encodeUserPassword ++ ':' :: escape u.password.data encodeUserPassword
  else escape u.username.data encodeUserPassword

/-- The method `(*URL).String`; `buf` is threaded through the writes. -/
def URL.String (u : URL) : String :=
  let buf0 : List Char := if u.Scheme ≠ "" then u.Scheme.data ++ [':'] else []
  let buf3 : List Char :=
    if u.Opaque ≠ "" then buf0 ++ u.Opaque.data
    else
      let buf1 : List Char :=
        if u.Scheme ≠ "" ∨ u.Host ≠ "" ∨ u.User ≠ none then
          if u.OmitHost ∧ u.Host = "" ∧ u.User = none then buf0
          else
            let b1 := if u.Host ≠ "" ∨ u.Path ≠ "" ∨ u.User ≠ none then buf0 ++ ['/', '/'] else buf0
            let b2 :=
              match u.User with
              | some ui => b1 ++ Userinfo.String ui ++ ['@']
              | none => b1
            if u.Host ≠ "" then b2 ++ escape u.Host.data encodeHost else b2
        else buf0
      let path := EscapedPath u
      let buf2 : List Char :=
        if path ≠ [] ∧ !HasPrefix path ['/'] ∧ u.Host ≠ "" then buf1 ++ ['/'] else buf1
      let buf2b : List Char :=
        if buf2 = [] ∧ Contains (Cut '/' path).1 ':' then buf2 ++ ['.', '/'] else buf2
      buf2b ++ path
  let buf4 : List Char :=
    if u.ForceQuery ∨ u.RawQuery ≠ "" then buf3 ++ '?' :: u.RawQuery.data else buf3
  let buf5 : List Char :=
    if u.Fragment ≠ "" then buf4 ++ '#' :: EscapedFragment u else buf4
  String.mk buf5

/-- One turn of the loop of `resolvePath`: `dst` (after its leading `/`) and
`first`, updated for the element `elem`. -/
def resolveStep (st : List Char × Bool) (elem : List Char) : List Char × Bool :=
  if elem = ['.'] then (st.1, false)
  else if elem = ['.', '.'] then
    match cutLast '/' st.1 with
    | none => ([], true)
    | some (before, _) => (before, st.2)
  else
    ((if st.2 then st.1 ++ elem else st.1 ++ '/' :: elem), false)

/-- The function `resolvePath`. -/
def resolvePath (base ref : List Char) : List Char :=
  let full : List Char :=
    if ref = [] then base
    else if !HasPrefix ref ['/'] then
      (match cutLast '/' base with
        | none => []
        | some (before, _) => before ++ ['/']) ++ ref
    else ref
  if full = [] then []
  else
    let segs := Split '/' full
    let st := segs.foldl resolveStep ([], true)
    let last := segs.getLastD []
    let dst : List Char := '/' :: st.1
    let dst2 : List Char := if last = ['.'] ∨ last = ['.', '.'] then dst ++ ['/'] else dst
    match dst2 with
    | a :: b :: rest => if b = '/' then b :: rest else a :: b :: rest
    | r => r

/-- The method `(*URL).ResolveReference`; `setPath` cannot fail on the escaped
path, so its error is dropped as in the Go code. -/
def ResolveReference (u ref : URL) : URL :=
  let url0 : URL := if ref.Scheme = "" then { ref with Scheme := u.Scheme } else ref
  if ref.Scheme ≠ "" ∨ ref.Host ≠ "" ∨ ref.User ≠ none then
    match setPath url0 (resolvePath (EscapedPath ref) []) with
    | .ok url => url
    | .error _ => url0
  else if ref.Opaque ≠ "" then
    { url0 with User := none, Host := "", Path := "" }
  else
    let url1 : URL :=
      if ref.Path = "" ∧ !ref.ForceQuery ∧ ref.RawQuery = "" then
        if ref.Fragment = "" then
          { url0 with RawQuery := u.RawQuery, Fragment := u.Fragment, RawFragment := u.RawFragment }
        else { url0 with RawQuery := u.RawQuery }
      else url0
    if ref.Path = "" ∧ u.Opaque ≠ "" then
      { url1 with Opaque := u.Opaque, User := none, Host := "", Path := "" }
    else
      let url2 : URL := { url1 with Host := u.Host, User := u.User }
      match setPath url2 (resolvePath (EscapedPath u) (EscapedPath ref)) with
      | .ok url => url
      | .error _ => url2

end NetURL

namespace JsonPointer

open Strings

/-- The constant `emptyPointer`. -/
def emptyPointer : String := ""

/-- The constant `pointerSeparator`, as a byte. -/
def pointerSeparator : Char := '/'

/-- The constant `invalidStart`. -/
def invalidStart : String := "JSON pointer must be empty or start with a \"/"

/-- Modelled from the spec: the method `(*Pointer).parse` of the package
`jsonpointer`, which is not among the sources: the receiver after the call and the
error.  The empty string gives the empty pointer, a text beginning with `/` is
split into its tokens, any other text is an error (spec sections 4.1 and 6). -/
def parse (p : Pointer) (jsonPointerString : String) : Pointer × Option Error :=
  if jsonPointerString ≠ emptyPointer then
    if !HasPrefix jsonPointerString.data [pointerSeparator] then
      (p, some (Error.errorString invalidStart))
    else
      ({ referenceTokens := p.referenceTokens ++
          ((Split pointerSeparator jsonPointerString.data).drop 1).map String.mk }, none)
  else (p, none)

/-- Modelled from the spec: the function `jsonpointer.New`, which is not among the
sources; on an error it returns the empty pointer next to the error. -/
def New (jsonPointerString : String) : Pointer × Option Error :=
  parse { referenceTokens := [] } jsonPointerString

/-- Modelled from the spec: the method `(*Pointer).String` of the package
`jsonpointer`, which is not among the sources: every token behind a `/`. -/
def String (p : Pointer) : String :=
  if p.referenceTokens.length = 0 then emptyPointer
  else String.mk (pointerSeparator :: Join pointerSeparator (p.referenceTokens.map String.data))

end JsonPointer

namespace Internal

open Strings

/-- Modelled from the spec: `lowercaseScheme` of the package `internal`, which is not
among the sources; the spec names the normaliser as a collaborator that
canonicalises the URL (section 6). -/
def lowercaseScheme (u : URL) : URL :=
  if u.Scheme.length > 0 then { u with Scheme := String.mk (ToLower u.Scheme.data) } else u

/-- Modelled from the spec: `lowercaseHost` of the package `internal`, which is not
among the sources. -/
def lowercaseHost (u : URL) : URL :=
  if u.Host.length > 0 then { u with Host := String.mk (ToLower u.Host.data) } else u

/-- Modelled from the spec: the replacement of the match of `(:\d+)/?$` in a host,
from `removeDefaultPort` of the package `internal`, which is not among the sources. -/
def replacePort (scheme : List Char) (host : List Char) : List Char :=
  match cutLast ':' host with
  | none => host
  | some (before, after) =>
    let digits := after.takeWhile (fun b => '0' ≤ b ∧ b ≤ '9')
    let tail := after.dropWhile (fun b => '0' ≤ b ∧ b ≤ '9')
    if digits ≠ [] ∧ (tail = [] ∨ tail = ['/']) then
      if (scheme = "http".data ∧ ':' :: after = ":80".data) ∨
          (scheme = "https".data ∧ ':' :: after = ":443".data) then before
      else host
    else host

/-- Modelled from the spec: `removeDefaultPort` of the package `internal`, which is
not among the sources. -/
def removeDefaultPort (u : URL) : URL :=
  if u.Host.length > 0 then
    { u with Host := String.mk (replacePort (ToLower u.Scheme.data) u.Host.data) }
  else u

/-- Modelled from the spec: the replacement of every match of `/{2,}` by `/`, from
`removeDuplicateSlashes` of the package `internal`, which is not among the sources. -/
def collapseSlashes : List Char → List Char
  | [] => []
  | c :: rest =>
    if c = '/' ∧ HasPrefix rest ['/'] then collapseSlashes rest
    else c :: collapseSlashes rest

/-- Modelled from the spec: `removeDuplicateSlashes` of the package `internal`, which
is not among the sources. -/
def removeDuplicateSlashes (u : URL) : URL :=
  if u.Path.length > 0 then { u with Path := String.mk (collapseSlashes u.Path.data) } else u

/-- Modelled from the spec: `internal.NormalizeURL`, which is not among the sources.
The spec leaves its rules open (section 6); this follows the package: lower-case
scheme and host, no default port, no duplicate slashes, and `RawPath` and
`RawFragment` cleared. -/
def NormalizeURL (u : URL) : URL :=
  { removeDuplicateSlashes (removeDefaultPort (lowercaseHost (lowercaseScheme u))) with
    RawPath := "", RawFragment := "" }

end Internal

/-- The sample library: `net/url`, `internal.NormalizeURL` and `jsonpointer` as
modelled above. -/
def goLib : Lib :=
  { urlParse := NetURL.Parse
    normalizeURL := Internal.NormalizeURL
    resolveReference := NetURL.ResolveReference
    urlString := NetURL.URL.String
    pointerNew := JsonPointer.New
    pointerString := JsonPointer.String }

/-! ## Sample values -/

/-- The reference of `#/definitions/Pet`. -/
def petRef : Ref :=
  { ReferenceURL := some { NetURL.zeroURL with Fragment := "/definitions/Pet" }
    ReferencePointer := { referenceTokens := ["definitions", "Pet"] }
    HasFullURL := false
    HasURLPathOnly := false
    HasFragmentOnly := true
    HasFileScheme := false
    HasFullFilePath := false }

/-- The reference of `http://example.com/schema.json#/foo`. -/
def fooRef : Ref :=
  { ReferenceURL := some { NetURL.zeroURL with
      Scheme := "http", Host := "example.com", Path := "/schema.json", Fragment := "/foo" }
    ReferencePointer := { referenceTokens := ["foo"] }
    HasFullURL := true
    HasURLPathOnly := false
    HasFragmentOnly := false
    HasFileScheme := false
    HasFullFilePath := true }

/-- The reference of `schema.json`. -/
def schemaRef : Ref :=
  { ReferenceURL := some { NetURL.zeroURL with Path := "schema.json" }
    ReferencePointer := { referenceTokens := [] }
    HasFullURL := false
    HasURLPathOnly := true
    HasFragmentOnly := false
    HasFileScheme := false
    HasFullFilePath := false }

/-- The reference of `file:///abs/schema.json`. -/
def fileRef : Ref :=
  { ReferenceURL := some { NetURL.zeroURL with Scheme := "file", Path := "/abs/schema.json" }
    ReferencePointer := { referenceTokens := [] }
    HasFullURL := false
    HasURLPathOnly := true
    HasFragmentOnly := false
    HasFileScheme := true
    HasFullFilePath := true }

/-- The reference of the empty string. -/
def emptyRef : Ref :=
  { Ref.zero with ReferenceURL := some NetURL.zeroURL }

/-- The reference of `/schema.json`. -/
def slashSchemaRef : Ref :=
  { ReferenceURL := some { NetURL.zeroURL with Path := "/schema.json" }
    ReferencePointer := { referenceTokens := [] }
    HasFullURL := false
    HasURLPathOnly := true
    HasFragmentOnly := false
    HasFileScheme := false
    HasFullFilePath := true }

/-- The reference of `http://example.com/a/b.json`. -/
def parentRef : Ref :=
  { ReferenceURL := some { NetURL.zeroURL with
      Scheme := "http", Host := "example.com", Path := "/a/b.json" }
    ReferencePointer := { referenceTokens := [] }
    HasFullURL := true
    HasURLPathOnly := false
    HasFragmentOnly := false
    HasFileScheme := false
    HasFullFilePath := true }

/-- The reference of `c.json#/x`. -/
def childRef : Ref :=
  { ReferenceURL := some { NetURL.zeroURL with Path := "c.json", Fragment := "/x" }
    ReferencePointer := { referenceTokens := ["x"] }
    HasFullURL := false
    HasURLPathOnly := true
    HasFragmentOnly := false
    HasFileScheme := false
    HasFullFilePath := false }

/-- The reference of `http://example.com/a/c.json#/x`. -/
def resolvedRef : Ref :=
  { ReferenceURL := some { NetURL.zeroURL with
      Scheme := "http", Host := "example.com", Path := "/a/c.json", Fragment := "/x" }
    ReferencePointer := { referenceTokens := ["x"] }
    HasFullURL := true
    HasURLPathOnly := false
    HasFragmentOnly := false
    HasFileScheme := false
    HasFullFilePath := true }

/-- The reference of `//host#frag`. -/
def hostFragRef : Ref :=
  { ReferenceURL := some { NetURL.zeroURL with Host := "host", Fragment := "frag" }
    ReferencePointer := { referenceTokens := [] }
    HasFullURL := false
    HasURLPathOnly := false
    HasFragmentOnly := true
    HasFileScheme := false
    HasFullFilePath := false }

/-- The reference of `http://h/a/./b`. -/
def dotRef : Ref :=
  { ReferenceURL := some { NetURL.zeroURL with Scheme := "http", Host := "h", Path := "/a/./b" }
    ReferencePointer := { referenceTokens := [] }
    HasFullURL := true
    HasURLPathOnly := false
    HasFragmentOnly := false
    HasFileScheme := false
    HasFullFilePath := true }

/-- The reference of `http://h/a/b`. -/
def dotResolvedRef : Ref :=
  { ReferenceURL := some { NetURL.zeroURL with Scheme := "http", Host := "h", Path := "/a/b" }
    ReferencePointer := { referenceTokens := [] }
    HasFullURL := true
    HasURLPathOnly := false
    HasFragmentOnly := false
    HasFileScheme := false
    HasFullFilePath := true }

/-- The error of `url.Parse` on `://bad uri`. -/
def badURIError : Error :=
  Error.urlError "parse" "://bad uri" (Error.errorString "missing protocol scheme")

/-! ## Classes of texts and URLs used by the round-trip theorems -/

section RoundTripDefs

open NetURL NetURL.encoding Strings

/-- A text of bytes: every character stands for a byte, its code is below 256. -/
def IsBytes (l : List Char) : Prop :=
  ∀ c ∈ l, c.toNat < 256

/-- A text of ASCII bytes: no byte is above 0x7F. -/
def IsASCII (l : List Char) : Prop :=
  ∀ c ∈ l, c.toNat < 128

/-- A path without dot segments: no element between slashes is `.` or `..`. -/
def noDotSegments (p : List Char) : Prop :=
  ∀ seg ∈ Strings.Split '/' p, seg ≠ ['.'] ∧ seg ≠ ['.', '.']

/-- The text that `(*URL).String` writes for the user information, with its `@`. -/
def userText (user : Option Userinfo) : List Char :=
  match user with
  | none => []
  | some ui => NetURL.Userinfo.String ui ++ ['@']

/-- A lower-case letter. -/
def isLowerLetter (c : Char) : Bool :=
  decide ('a' ≤ c ∧ c ≤ 'z')

/-- A letter, as `getScheme` tests it. -/
def isLetter (c : Char) : Bool :=
  decide (('a' ≤ c ∧ c ≤ 'z') ∨ ('A' ≤ c ∧ c ≤ 'Z'))

/-- A byte that `getScheme` accepts after the first letter of a scheme. -/
def isSchemeByte (c : Char) : Bool :=
  isLetter c || decide (('0' ≤ c ∧ c ≤ '9') ∨ c = '+' ∨ c = '-' ∨ c = '.')

/-- A scheme as `Parse` stores it: a letter followed by letters, digits, `+`, `-`
and `.`, all letters in lower case. -/
def lowerScheme (sc : List Char) : Prop :=
  (∃ c rest, sc = c :: rest ∧ isLowerLetter c = true) ∧
    ∀ c ∈ sc, isSchemeByte c = true ∧ c.toLower = c

/-- The URL and the rest of the text that `parse` holds once the scheme `sc` and the
query have been split off `rest0`; `parse` goes on with `parseRest`. -/
def parseQuery (sc rest0 : List Char) : URL × List Char :=
  let url1 := { zeroURL with Scheme := String.mk (ToLower sc) }
  let force := HasSuffix rest0 ['?'] && Count rest0 '?' = 1
  (if force then { url1 with ForceQuery := true }
    else { url1 with RawQuery := String.mk (Cut '?' rest0).2.1 },
   if force then rest0.dropLast else (Cut '?' rest0).1)

/-- The part of `parse` that follows the split of the query: opaque text, authority
and path. -/
def parseRest (url2 : URL) (rest : List Char) : Except Error URL :=
  if !HasPrefix rest ['/'] ∧ url2.Scheme ≠ "" then
    .ok { url2 with Opaque := String.mk rest }
  else if !HasPrefix rest ['/'] ∧ Contains (Cut '/' rest).1 ':' then
    .error (Error.errorString "first path segment in URL cannot contain colon")
  else if (url2.Scheme ≠ "" ∨ !HasPrefix rest ['/', '/', '/']) ∧ HasPrefix rest ['/', '/'] then
    let authority := (Cut '/' (rest.drop 2)).1
    let rest2 := if (Cut '/' (rest.drop 2)).2.2 then '/' :: (Cut '/' (rest.drop 2)).2.1 else []
    match parseAuthority authority with
    | .error e => .error e
    | .ok (user, host) => setPath { url2 with User := user, Host := String.mk host } rest2
  else if url2.Scheme ≠ "" ∧ HasPrefix rest ['/'] then
    setPath { url2 with OmitHost := true } rest
  else setPath url2 rest

/-- What the round-trip theorems use of a URL that `Parse` returns. -/
structure WellFormed (u : URL) : Prop where
  scheme : lowerScheme u.Scheme.data
  noOpaque : u.Opaque = ""
  force : u.ForceQuery = true → u.RawQuery = ""
  queryHash : '#' ∉ u.RawQuery.data
  queryCTL : stringContainsCTLByte u.RawQuery.data = false
  pathShape : u.Path.data = [] ∨ ∃ x, u.Path.data = '/' :: x
  pathBytes : IsBytes u.Path.data
  fragBytes : IsBytes u.Fragment.data
  user : ∀ ui, u.User = some ui → IsBytes ui.username.data ∧ IsBytes ui.password.data ∧
    (ui.passwordSet = false → ui.password = "")
  omitHost : u.OmitHost = true → u.Host = "" ∧ u.User = none

/-- The text that `(*URL).String` writes between the scheme and the query of a URL
without opaque part: the authority behind `//`, unless the host is omitted, and
the escaped path. -/
def renderBody (u : URL) : List Char :=
  (if u.OmitHost = true then []
    else '/' :: '/' :: (userText u.User ++ escape u.Host.data encodeHost)) ++
    escape u.Path.data encodePath

/-- The text that `(*URL).String` writes for the query. -/
def renderQuery (u : URL) : List Char :=
  if u.ForceQuery = true ∨ u.RawQuery ≠ "" then '?' :: u.RawQuery.data else []

/-- The text that `(*URL).String` writes for the fragment when `RawFragment` is empty. -/
def renderFragment (u : URL) : List Char :=
  if u.Fragment ≠ "" then '#' :: escape u.Fragment.data encodeFragment else []

end RoundTripDefs

/-- Whether a text is a text of bytes can be computed. -/
instance decidableIsBytes (l : List Char) : Decidable (IsBytes l) := by
  unfold IsBytes
  infer_instance

/-- Whether a text is a text of ASCII bytes can be computed. -/
instance decidableIsASCII (l : List Char) : Decidable (IsASCII l) := by
  unfold IsASCII
  infer_instance

/-- Whether a path is without dot segments can be computed. -/
instance decidableNoDotSegments (p : List Char) : Decidable (noDotSegments p) := by
  unfold noDotSegments
  infer_instance

/-! ## Sample values for the round trip and for self-resolution -/

/-- The URL of `http://[fe80::1%25\xc3\xa9]/`: an IPv6 host whose zone holds the two
bytes `0xC3 0xA9`. -/
def zoneURL : URL :=
  { NetURL.zeroURL with Scheme := "http", Host := "[fe80::1%\xc3\xa9]", Path := "/" }

/-- The reference of `http://[fe80::1%25\xc3\xa9]/`. -/
def zoneRef : Ref :=
  { ReferenceURL := some zoneURL
    ReferencePointer := { referenceTokens := [] }
    HasFullURL := true
    HasURLPathOnly := false
    HasFragmentOnly := false
    HasFileScheme := false
    HasFullFilePath := true }

/-- The error of `url.Parse` on `http://[fe80::1%25%C3%A9]/`. -/
def zoneError : Error :=
  Error.urlError "parse" "http://[fe80::1%25%C3%A9]/" (Error.EscapeError "%C3")

/-- The URL of `http://example.com/schema.json`. -/
def schemaURL : URL :=
  { NetURL.zeroURL with Scheme := "http", Host := "example.com", Path := "/schema.json" }

/-- The reference of `http://example.com/schema.json`. -/
def fullSchemaRef : Ref :=
  { ReferenceURL := some schemaURL
    ReferencePointer := { referenceTokens := [] }
    HasFullURL := true
    HasURLPathOnly := false
    HasFragmentOnly := false
    HasFileScheme := false
    HasFullFilePath := true }

/-- The URL of `http://example.com/a`. -/
def lowerURL : URL :=
  { NetURL.zeroURL with Scheme := "http", Host := "example.com", Path := "/a" }

/-- The reference of `http://example.com/a`. -/
def lowerRef : Ref :=
  { ReferenceURL := some lowerURL
    ReferencePointer := { referenceTokens := [] }
    HasFullURL := true
    HasURLPathOnly := false
    HasFragmentOnly := false
    HasFileScheme := false
    HasFullFilePath := true }

/-- The reference of `http://h:80:80/`, which renders as `http://h:80/`: the
normaliser strips one default port. -/
def portRef : Ref :=
  { ReferenceURL := some { NetURL.zeroURL with Scheme := "http", Host := "h:80", Path := "/" }
    ReferencePointer := { referenceTokens := [] }
    HasFullURL := true
    HasURLPathOnly := false
    HasFragmentOnly := false
    HasFileScheme := false
    HasFullFilePath := true }

/-- The reference of `http://h/`. -/
def portResolvedRef : Ref :=
  { ReferenceURL := some { NetURL.zeroURL with Scheme := "http", Host := "h", Path := "/" }
    ReferencePointer := { referenceTokens := [] }
    HasFullURL := true
    HasURLPathOnly := false
    HasFragmentOnly := false
    HasFileScheme := false
    HasFullFilePath := true }

/-- The reference of `http://a:b:80/`, which renders as `http://a:b/`. -/
def colonRef : Ref :=
  { ReferenceURL := some { NetURL.zeroURL with Scheme := "http", Host := "a:b", Path := "/" }
    ReferencePointer := { referenceTokens := [] }
    HasFullURL := true
    HasURLPathOnly := false
    HasFragmentOnly := false
    HasFileScheme := false
    HasFullFilePath := true }

/-- The error of `url.Parse` on `http://a:b/`. -/
def colonError : Error :=
  Error.urlError "parse" "http://a:b/" (Error.invalidPort ":b")

/-! ## General properties of `New` and `Inherits` (any `Lib`) -/

/-- When `New` reports no error, the URL parser accepted the string and the
returned `Ref` is the zero value updated field by field from the normalised URL. -/
theorem New_ok_fields (L : Lib) (s : String) (r : Ref) (h : New L s = (r, none)) :
    ∃ parsed, L.urlParse s = .ok parsed ∧
      r.ReferenceURL = some (L.normalizeURL parsed) ∧
      r.ReferencePointer = (L.pointerNew (L.normalizeURL parsed).Fragment).1 ∧
      r.HasFullURL = decide ((L.normalizeURL parsed).Scheme ≠ "" ∧ (L.normalizeURL parsed).Host ≠ "") ∧
      r.HasURLPathOnly = decide (¬ ((L.normalizeURL parsed).Scheme ≠ "" ∧ (L.normalizeURL parsed).Host ≠ "") ∧
        (L.normalizeURL parsed).Path ≠ "") ∧
      r.HasFragmentOnly = decide (¬ ((L.normalizeURL parsed).Scheme ≠ "" ∧ (L.normalizeURL parsed).Host ≠ "") ∧
        (L.normalizeURL parsed).Path = "" ∧ (L.normalizeURL parsed).RawQuery = "" ∧
        (L.normalizeURL parsed).Fragment ≠ "") ∧
      r.HasFileScheme = decide ((L.normalizeURL parsed).Scheme = "file") ∧
      r.HasFullFilePath = stringsHasPrefix (L.normalizeURL parsed).Path "/" := by
  unfold New Ref.parse at h
  cases hp : L.urlParse s with
  | error e => rw [hp] at h; simp at h
  | ok parsed =>
    rw [hp] at h
    refine ⟨parsed, rfl, ?_⟩
    simp only [Prod.mk.injEq, and_true] at h
    subst h
    by_cases h1 : (L.normalizeURL parsed).Scheme ≠ "" ∧ (L.normalizeURL parsed).Host ≠ ""
    · simp [h1, Ref.zero]
    · by_cases h2 : (L.normalizeURL parsed).Path ≠ ""
      · simp [h1, h2, Ref.zero]
      · by_cases h3 : (L.normalizeURL parsed).RawQuery = "" ∧ (L.normalizeURL parsed).Fragment ≠ ""
        · have h2' : (L.normalizeURL parsed).Path = "" := by simpa using h2
          simp [h1, h2, h2', h3, Ref.zero]
        · have h2' : (L.normalizeURL parsed).Path = "" := by simpa using h2
          simp only [if_neg h1, if_neg h2, if_neg h3, Ref.zero]
          simp [h1, h2']
          tauto

/-- Every field of the `Ref` that `New` returns, whether or not an error is reported:
the zero value on a parser error. -/
theorem New_error_fields (L : Lib) (s : String) (e : Error) (h : (New L s).2 = some e) :
    L.urlParse s = .error e ∧ (New L s).1 = Ref.zero := by
  unfold New Ref.parse at h ⊢
  cases hp : L.urlParse s with
  | error e2 =>
    rw [hp] at h
    simp only [Option.some.injEq] at h
    subst h
    exact ⟨rfl, rfl⟩
  | ok parsed => rw [hp] at h; simp at h

/-- The error that `New` reports is the one of the URL parser, and none when the
parser accepts. -/
theorem New_error_eq (L : Lib) (s : String) :
    (New L s).2 = (match L.urlParse s with
      | .error e => some e
      | .ok _ => none) := by
  unfold New Ref.parse
  cases L.urlParse s <;> rfl

/-! ## The claims -/

/-- C1: when `New` succeeds, the flags of the exclusive group follow the
precedence rules on the normalised parsed URL: `HasFullURL` iff scheme and host
are both non-empty; `HasURLPathOnly` iff `HasFullURL` is false and the path is
non-empty; `HasFragmentOnly` iff `HasFullURL` is false, path and query are empty
and the fragment is non-empty. -/
theorem New_flags_precedence (L : Lib) (s : String) (r : Ref) (h : New L s = (r, none)) :
    ∃ parsed, L.urlParse s = .ok parsed ∧ r.ReferenceURL = some (L.normalizeURL parsed) ∧
      (r.HasFullURL = true ↔
        (L.normalizeURL parsed).Scheme ≠ "" ∧ (L.normalizeURL parsed).Host ≠ "") ∧
      (r.HasURLPathOnly = true ↔
        r.HasFullURL = false ∧ (L.normalizeURL parsed).Path ≠ "") ∧
      (r.HasFragmentOnly = true ↔
        r.HasFullURL = false ∧ (L.normalizeURL parsed).Path = "" ∧
          (L.normalizeURL parsed).RawQuery = "" ∧ (L.normalizeURL parsed).Fragment ≠ "") := by
  obtain ⟨parsed, hp, hu, -, hfull, hpath, hfrag, -, -⟩ := New_ok_fields L s r h
  refine ⟨parsed, hp, hu, ?_, ?_, ?_⟩
  · rw [hfull]; simp
  · rw [hpath, hfull]; simp; intros; tauto
  · rw [hfrag, hfull]; simp; intros; tauto

/-- C1, at `#/definitions/Pet`. -/
theorem New_flags_precedence_witness :
    New goLib "#/definitions/Pet" = (petRef, none) ∧
    ∃ parsed, goLib.urlParse "#/definitions/Pet" = .ok parsed ∧
      petRef.ReferenceURL = some (goLib.normalizeURL parsed) ∧
      (petRef.HasFullURL = true ↔
        (goLib.normalizeURL parsed).Scheme ≠ "" ∧ (goLib.normalizeURL parsed).Host ≠ "") ∧
      (petRef.HasURLPathOnly = true ↔
        petRef.HasFullURL = false ∧ (goLib.normalizeURL parsed).Path ≠ "") ∧
      (petRef.HasFragmentOnly = true ↔
        petRef.HasFullURL = false ∧ (goLib.normalizeURL parsed).Path = "" ∧
          (goLib.normalizeURL parsed).RawQuery = "" ∧ (goLib.normalizeURL parsed).Fragment ≠ "") :=
  ⟨by decide, New_flags_precedence goLib "#/definitions/Pet" petRef (by decide)⟩

/-- C2: when `New` succeeds, at most one of `HasFullURL`, `HasURLPathOnly` and
`HasFragmentOnly` is true. -/
theorem New_flags_exclusive (L : Lib) (s : String) (r : Ref) (h : New L s = (r, none)) :
    [r.HasFullURL, r.HasURLPathOnly, r.HasFragmentOnly].count true ≤ 1 := by
  obtain ⟨parsed, -, -, -, hfull, hpath, hfrag, -, -⟩ := New_ok_fields L s r h
  rw [hfull, hpath, hfrag]
  by_cases h1 : (L.normalizeURL parsed).Scheme ≠ "" ∧ (L.normalizeURL parsed).Host ≠ ""
  · simp [h1]
  · by_cases h2 : (L.normalizeURL parsed).Path = ""
    · by_cases h3 : (L.normalizeURL parsed).RawQuery = "" ∧ (L.normalizeURL parsed).Fragment ≠ ""
      · simp [h1, h2, h3]
      · simp [h1, h2, h3]
    · simp [h1, h2]

/-- C2, at `http://example.com/schema.json#/foo`. -/
theorem New_flags_exclusive_witness :
    New goLib "http://example.com/schema.json#/foo" = (fooRef, none) ∧
    [fooRef.HasFullURL, fooRef.HasURLPathOnly, fooRef.HasFragmentOnly].count true ≤ 1 :=
  ⟨by decide, New_flags_exclusive goLib "http://example.com/schema.json#/foo" fooRef (by decide)⟩

/-- C3: when `New` succeeds, `IsCanonical` is true iff the normalised URL has
scheme `file` and a path beginning with `/`, or a non-empty scheme other than
`file` and a non-empty host; it is false whenever the scheme is empty. -/
theorem New_IsCanonical_iff (L : Lib) (s : String) (r : Ref) (h : New L s = (r, none)) :
    ∃ parsed, L.urlParse s = .ok parsed ∧ r.ReferenceURL = some (L.normalizeURL parsed) ∧
      (r.IsCanonical = true ↔
        ((L.normalizeURL parsed).Scheme = "file" ∧
            stringsHasPrefix (L.normalizeURL parsed).Path "/" = true) ∨
          ((L.normalizeURL parsed).Scheme ≠ "" ∧ (L.normalizeURL parsed).Scheme ≠ "file" ∧
            (L.normalizeURL parsed).Host ≠ "")) ∧
      ((L.normalizeURL parsed).Scheme = "" → r.IsCanonical = false) := by
  obtain ⟨parsed, hp, hu, -, hfull, -, -, hfile, hffp⟩ := New_ok_fields L s r h
  refine ⟨parsed, hp, hu, ?_, ?_⟩
  · unfold Ref.IsCanonical
    rw [hfull, hfile, hffp]
    by_cases hf : (L.normalizeURL parsed).Scheme = "file"
    · simp [hf]
    · simp [hf]
  · intro hs
    unfold Ref.IsCanonical
    rw [hfull, hfile, hffp]
    simp [hs]

/-- C3, at `file:///abs/schema.json`. -/
theorem New_IsCanonical_iff_witness :
    New goLib "file:///abs/schema.json" = (fileRef, none) ∧
    ∃ parsed, goLib.urlParse "file:///abs/schema.json" = .ok parsed ∧
      fileRef.ReferenceURL = some (goLib.normalizeURL parsed) ∧
      (fileRef.IsCanonical = true ↔
        ((goLib.normalizeURL parsed).Scheme = "file" ∧
            stringsHasPrefix (goLib.normalizeURL parsed).Path "/" = true) ∨
          ((goLib.normalizeURL parsed).Scheme ≠ "" ∧ (goLib.normalizeURL parsed).Scheme ≠ "file" ∧
            (goLib.normalizeURL parsed).Host ≠ "")) ∧
      ((goLib.normalizeURL parsed).Scheme = "" → fileRef.IsCanonical = false) :=
  ⟨by decide, New_IsCanonical_iff goLib "file:///abs/schema.json" fileRef (by decide)⟩

/-- C4: `New` returns an error iff the URL parser rejects the string, and then
it is the parser's error; when the parser accepts, `New` reports no error, also
when `jsonpointer.New` reports an error for the fragment. -/
theorem New_error_iff_urlParse_error (L : Lib) (s : String) :
    ((∃ e, (New L s).2 = some e) ↔ (∃ e, L.urlParse s = .error e)) ∧
    ((New L s).2 = (match L.urlParse s with
      | .error e => some e
      | .ok _ => none)) ∧
    (∀ u e, L.urlParse s = .ok u → (L.pointerNew (L.normalizeURL u).Fragment).2 = some e →
      (New L s).2 = none) := by
  refine ⟨?_, New_error_eq L s, ?_⟩
  · rw [New_error_eq]
    cases L.urlParse s with
    | error e => simp
    | ok u => simp
  · intro u e hu _
    rw [New_error_eq, hu]

/-- C4, at `#frag`, whose fragment is not a JSON Pointer. -/
theorem New_error_iff_urlParse_error_witness :
    goLib.urlParse "#frag" = .ok { NetURL.zeroURL with Fragment := "frag" } ∧
    (goLib.pointerNew "frag").2 = some (Error.errorString JsonPointer.invalidStart) ∧
    (New goLib "#frag").2 = none ∧
    ((∃ e, (New goLib "#frag").2 = some e) ↔ (∃ e, goLib.urlParse "#frag" = .error e)) :=
  ⟨by rfl, by decide,
    (New_error_iff_urlParse_error goLib "#frag").2.2 { NetURL.zeroURL with Fragment := "frag" }
      (Error.errorString JsonPointer.invalidStart) (by rfl) (by decide),
    (New_error_iff_urlParse_error goLib "#frag").1⟩

/-- C5: when `New` returns an error, the `Ref` returned with it is the zero
value: no URL, the empty pointer, all five flags false. -/
theorem New_error_zero (L : Lib) (s : String) (e : Error) (h : (New L s).2 = some e) :
    (New L s).1 = Ref.zero ∧ (New L s).1.ReferenceURL = none ∧
      (New L s).1.ReferencePointer = { referenceTokens := [] } ∧
      (New L s).1.HasFullURL = false ∧ (New L s).1.HasURLPathOnly = false ∧
      (New L s).1.HasFragmentOnly = false ∧ (New L s).1.HasFileScheme = false ∧
      (New L s).1.HasFullFilePath = false := by
  have hz := (New_error_fields L s e h).2
  rw [hz]
  exact ⟨rfl, rfl, rfl, rfl, rfl, rfl, rfl, rfl⟩

/-- C5, at `://bad uri`. -/
theorem New_error_zero_witness :
    (New goLib "://bad uri").2 = some badURIError ∧
    (New goLib "://bad uri").1 = Ref.zero ∧ (New goLib "://bad uri").1.ReferenceURL = none ∧
      (New goLib "://bad uri").1.ReferencePointer = { referenceTokens := [] } ∧
      (New goLib "://bad uri").1.HasFullURL = false ∧
      (New goLib "://bad uri").1.HasURLPathOnly = false ∧
      (New goLib "://bad uri").1.HasFragmentOnly = false ∧
      (New goLib "://bad uri").1.HasFileScheme = false ∧
      (New goLib "://bad uri").1.HasFullFilePath = false :=
  ⟨by decide, New_error_zero goLib "://bad uri" badURIError (by decide)⟩

/-- C6: when parent and child both have a URL, `parent.Inherits(child)` is the
result of `New` on the serialisation of the child's URL resolved against the
parent's URL: that `Ref` when `New` succeeds, and `New`'s error with no `Ref`
when it fails. -/
theorem Inherits_both_URLs (L : Lib) (parent child : Ref) (pu cu : URL)
    (hp : parent.ReferenceURL = some pu) (hc : child.ReferenceURL = some cu) :
    parent.Inherits L child =
      (match New L (L.urlString (L.resolveReference pu cu)) with
        | (_, some err) => (none, some err)
        | (ref, none) => (some ref, none)) := by
  unfold Ref.Inherits Ref.GetURL
  rw [hp, hc]

/-- C6, at the parent `http://example.com/a/b.json` and the child `c.json#/x`. -/
theorem Inherits_both_URLs_witness :
    parentRef.ReferenceURL = some { NetURL.zeroURL with
      Scheme := "http", Host := "example.com", Path := "/a/b.json" } ∧
    childRef.ReferenceURL = some { NetURL.zeroURL with Path := "c.json", Fragment := "/x" } ∧
    parentRef.Inherits goLib childRef =
      (match New goLib (goLib.urlString (goLib.resolveReference
          { NetURL.zeroURL with Scheme := "http", Host := "example.com", Path := "/a/b.json" }
          { NetURL.zeroURL with Path := "c.json", Fragment := "/x" })) with
        | (_, some err) => (none, some err)
        | (ref, none) => (some ref, none)) ∧
    parentRef.Inherits goLib childRef = (some resolvedRef, none) :=
  ⟨rfl, rfl, Inherits_both_URLs goLib parentRef childRef _ _ rfl rfl, by decide⟩

/-- C7: when the child has no URL, `parent.Inherits(child)` fails with the error
`child url is nil` and returns no `Ref`, whether or not the parent has a URL. -/
theorem Inherits_child_without_URL (L : Lib) (parent child : Ref)
    (hc : child.ReferenceURL = none) :
    parent.Inherits L child = (none, some (Error.errorString "child url is nil")) := by
  unfold Ref.Inherits Ref.GetURL
  rw [hc]

/-- C7, at the parent `http://example.com/schema.json#/foo` and the zero-value child. -/
theorem Inherits_child_without_URL_witness :
    Ref.zero.ReferenceURL = none ∧
    fooRef.Inherits goLib Ref.zero = (none, some (Error.errorString "child url is nil")) :=
  ⟨rfl, Inherits_child_without_URL goLib fooRef Ref.zero rfl⟩

/-- C8: when the parent has no URL and the child has one, `parent.Inherits(child)`
succeeds and returns the child itself, equal in every field; `New` is not called. -/
theorem Inherits_parent_without_URL (L : Lib) (parent child : Ref) (cu : URL)
    (hp : parent.ReferenceURL = none) (hc : child.ReferenceURL = some cu) :
    parent.Inherits L child = (some child, none) := by
  unfold Ref.Inherits Ref.GetURL
  rw [hp, hc]

/-- C8, at the zero-value parent and the child `#/definitions/Pet`. -/
theorem Inherits_parent_without_URL_witness :
    Ref.zero.ReferenceURL = none ∧
    petRef.ReferenceURL = some { NetURL.zeroURL with Fragment := "/definitions/Pet" } ∧
    Ref.zero.Inherits goLib petRef = (some petRef, none) :=
  ⟨rfl, rfl, Inherits_parent_without_URL goLib Ref.zero petRef _ rfl rfl⟩

/-- C9 as stated fails: the child `schema.json` is parsed successfully, and so is
the empty string, whose `Ref` has a URL; `Inherits` therefore resolves and parses
again, and returns the reference of `/schema.json`, which differs from the child
in its path and in `HasFullFilePath`. -/
theorem Inherits_New_empty_counterexample :
    New goLib "schema.json" = (schemaRef, none) ∧
    New goLib "" = (emptyRef, none) ∧
    emptyRef.Inherits goLib schemaRef = (some slashSchemaRef, none) ∧
    slashSchemaRef ≠ schemaRef ∧
    ¬ (∀ (s : String) (child : Ref), New goLib s = (child, none) →
        (New goLib "").1.Inherits goLib child = (some child, none)) := by
  refine ⟨by decide, by decide, by decide, by decide, ?_⟩
  intro hall
  have h1 := hall "schema.json" schemaRef (by decide)
  revert h1
  decide

/-- C9, amended: for a child obtained from a successful `New`, resolving it
against the zero-value `Ref` (no URL) succeeds and returns the child itself;
the `Ref` of a successful `New("")` has a URL, so `New("").Inherits(child)` is
the result of `New` on the serialisation of the child's URL resolved against
that URL. -/
theorem Inherits_empty_parent (L : Lib) (s : String) (child p0 : Ref)
    (h : New L s = (child, none)) (h0 : New L "" = (p0, none)) :
    Ref.zero.Inherits L child = (some child, none) ∧
    ∃ pu cu, p0.ReferenceURL = some pu ∧ child.ReferenceURL = some cu ∧
      p0.Inherits L child =
        (match New L (L.urlString (L.resolveReference pu cu)) with
          | (_, some err) => (none, some err)
          | (ref, none) => (some ref, none)) := by
  obtain ⟨cparsed, -, hcu, -⟩ := New_ok_fields L s child h
  obtain ⟨pparsed, -, hpu, -⟩ := New_ok_fields L "" p0 h0
  refine ⟨?_, L.normalizeURL pparsed, L.normalizeURL cparsed, hpu, hcu, ?_⟩
  · unfold Ref.Inherits Ref.GetURL
    rw [hcu]
    rfl
  · unfold Ref.Inherits Ref.GetURL
    rw [hpu, hcu]

/-- C9 amended, at the child `schema.json`. -/
theorem Inherits_empty_parent_witness :
    New goLib "schema.json" = (schemaRef, none) ∧
    New goLib "" = (emptyRef, none) ∧
    Ref.zero.Inherits goLib schemaRef = (some schemaRef, none) ∧
    ∃ pu cu, emptyRef.ReferenceURL = some pu ∧ schemaRef.ReferenceURL = some cu ∧
      emptyRef.Inherits goLib schemaRef =
        (match New goLib (goLib.urlString (goLib.resolveReference pu cu)) with
          | (_, some err) => (none, some err)
          | (ref, none) => (some ref, none)) :=
  ⟨by decide, by decide,
    Inherits_empty_parent goLib "schema.json" schemaRef emptyRef (by decide) (by decide)⟩

/-- C10: when `New` succeeds, the returned `Ref` has a URL, the normalised parsed
URL, and `String()` is exactly the serialisation of that URL. -/
theorem New_String_eq_urlString (L : Lib) (s : String) (r : Ref) (h : New L s = (r, none)) :
    ∃ parsed, L.urlParse s = .ok parsed ∧ r.ReferenceURL = some (L.normalizeURL parsed) ∧
      r.String L = L.urlString (L.normalizeURL parsed) := by
  obtain ⟨parsed, hp, hu, -⟩ := New_ok_fields L s r h
  refine ⟨parsed, hp, hu, ?_⟩
  unfold Ref.String
  rw [hu]

/-- C10, at `schema.json`. -/
theorem New_String_eq_urlString_witness :
    New goLib "schema.json" = (schemaRef, none) ∧
    ∃ parsed, goLib.urlParse "schema.json" = .ok parsed ∧
      schemaRef.ReferenceURL = some (goLib.normalizeURL parsed) ∧
      schemaRef.String goLib = goLib.urlString (goLib.normalizeURL parsed) :=
  ⟨by decide, New_String_eq_urlString goLib "schema.json" schemaRef (by decide)⟩

/-! ## Properties of the pointer model -/

/-- The function `strings.Split` never returns the empty list. -/
theorem Split_ne_nil (sep : Char) (l : List Char) : Strings.Split sep l ≠ [] := by
  cases l with
  | nil => simp [Strings.Split]
  | cons c cs =>
    unfold Strings.Split
    by_cases hc : c = sep
    · simp [hc]
    · simp only [if_neg hc]
      split <;> simp

/-- Joining the pieces of a split gives the text back. -/
theorem Join_Split (sep : Char) (l : List Char) :
    Strings.Join sep (Strings.Split sep l) = l := by
  induction l with
  | nil => simp [Strings.Split, Strings.Join]
  | cons c cs ih =>
    unfold Strings.Split
    by_cases hc : c = sep
    · simp only [if_pos hc]
      cases hs : Strings.Split sep cs with
      | nil => exact absurd hs (Split_ne_nil sep cs)
      | cons seg segs =>
        rw [hs] at ih
        simp [Strings.Join, ih, hc]
    · simp only [if_neg hc]
      cases hs : Strings.Split sep cs with
      | nil => exact absurd hs (Split_ne_nil sep cs)
      | cons seg segs =>
        rw [hs] at ih
        cases segs with
        | nil =>
          simp only [Strings.Join] at ih ⊢
          rw [ih]
        | cons seg2 rest =>
          simp only [Strings.Join] at ih ⊢
          rw [← ih]
          simp

/-- The pointer of the empty string is the empty pointer, with no error. -/
theorem JsonPointer_New_empty : JsonPointer.New "" = ({ referenceTokens := [] }, none) := by
  decide

/-- The pointer of a text beginning with `/` has no error and renders as the text. -/
theorem JsonPointer_New_slash (frag : String) (h : stringsHasPrefix frag "/" = true) :
    (JsonPointer.New frag).2 = none ∧ JsonPointer.String (JsonPointer.New frag).1 = frag := by
  obtain ⟨data⟩ := frag
  cases data with
  | nil => simp [stringsHasPrefix] at h
  | cons c rest =>
    have hc : c = '/' := by
      have h2 : '/' = c := by simpa [stringsHasPrefix, List.isPrefixOf] using h
      exact h2.symm
    subst hc
    have hne : (String.mk ('/' :: rest)) ≠ JsonPointer.emptyPointer := by
      intro hh
      have := congrArg String.data hh
      simp [JsonPointer.emptyPointer] at this
    have hlen : ((Strings.Split '/' rest).map String.mk).length ≠ 0 := by
      have := Split_ne_nil '/' rest
      simp
      exact this
    have hmap : ((Strings.Split '/' rest).map String.mk).map String.data = Strings.Split '/' rest := by
      simp [List.map_map, Function.comp_def]
    unfold JsonPointer.New JsonPointer.parse
    simp only [if_pos hne, Strings.HasPrefix, JsonPointer.pointerSeparator]
    have hp : (['/'] : List Char).isPrefixOf ('/' :: rest) = true := by
      simp [List.isPrefixOf]
    simp only [hp, Bool.not_true, Bool.false_eq_true, if_false, List.nil_append]
    refine ⟨trivial, ?_⟩
    have hsplit : (Strings.Split '/' ('/' :: rest)).drop 1 = Strings.Split '/' rest := by
      simp [Strings.Split]
    unfold JsonPointer.String
    simp only [hsplit, if_neg hlen, hmap, JsonPointer.pointerSeparator, Join_Split]

/-- The pointer of a non-empty text not beginning with `/` is the empty pointer,
returned with an error; it renders as the empty string. -/
theorem JsonPointer_New_invalid (frag : String) (hne : frag ≠ "")
    (h : stringsHasPrefix frag "/" = false) :
    (JsonPointer.New frag).2 = some (Error.errorString JsonPointer.invalidStart) ∧
      (JsonPointer.New frag).1 = { referenceTokens := [] } ∧
      JsonPointer.String (JsonPointer.New frag).1 = "" := by
  have hp : Strings.HasPrefix frag.data [JsonPointer.pointerSeparator] = false := by
    simpa [stringsHasPrefix, Strings.HasPrefix, JsonPointer.pointerSeparator] using h
  have hne2 : frag ≠ JsonPointer.emptyPointer := hne
  unfold JsonPointer.New JsonPointer.parse
  simp only [if_pos hne2, hp, Bool.not_false, if_true]
  exact ⟨trivial, trivial, rfl⟩

/-! ## The round trip of `url.Parse` and `(*URL).String` in the sample library

The lemmas of this part are about `goLib`: what `NetURL.Parse` returns for a text
of bytes, what `NetURL.URL.String` writes for it, and that parsing the written
text gives the URL back.  They carry the claims about `New(r.String())` and about
`parent.Inherits(parent)`. -/

section RoundTrip

open NetURL NetURL.encoding Strings Internal

/-! ## Escaping and unescaping -/

/-- The hexadecimal digits that `escape` writes. -/
theorem upperhex_mem (n : Nat) : upperhex n ∈ "0123456789ABCDEF".data := by
  unfold upperhex
  by_cases h : n < 16
  · interval_cases n <;> decide
  · have : "0123456789ABCDEF".data.length ≤ n := by
      have : "0123456789ABCDEF".data.length = 16 := by decide
      omega
    rw [List.getD_eq_default _ _ this]
    decide

/-- Reading back a digit written by `escape`. -/
theorem unhex_upperhex (n : Nat) (h : n < 16) : unhex (upperhex n) = n := by
  interval_cases n <;> decide

/-- Every digit written by `escape` is a hexadecimal digit. -/
theorem ishex_upperhex (n : Nat) : ishex (upperhex n) = true := by
  have h := upperhex_mem n
  generalize upperhex n = c at h
  have hall : ∀ c ∈ "0123456789ABCDEF".data, ishex c = true := by decide
  exact hall c h

/-- The byte `%` is escaped in every mode. -/
theorem shouldEscape_percent (m : encoding) : shouldEscape '%' m = true := by
  cases m <;> decide

/-- An escaped byte is read back as itself. -/
theorem decode_escape_char (c : Char) (hc : c.toNat < 256) :
    Char.ofNat (unhex (upperhex (c.toNat / 16 % 16)) * 16 + unhex (upperhex (c.toNat % 16))) = c := by
  rw [unhex_upperhex _ (by omega), unhex_upperhex _ (by omega)]
  have h1 : c.toNat / 16 % 16 = c.toNat / 16 := Nat.mod_eq_of_lt (by omega)
  rw [h1, Nat.div_add_mod']
  exact Char.ofNat_toNat c

/-- The first loop of `unescape` at an escape of three bytes. -/
theorem unescapeCheck_percent (m : encoding) (a b : Char) (rest : List Char) :
    unescapeCheck m ('%' :: a :: b :: rest) =
      (if (!ishex a || !ishex b) = true then
        some (Error.EscapeError (String.mk ['%', a, b]))
      else if m = encodeHost ∧ unhex a < 8 ∧ ['%', a, b] ≠ ['%', '2', '5'] then
        some (Error.EscapeError (String.mk ['%', a, b]))
      else if m = encodeZone ∧ ['%', a, b] ≠ ['%', '2', '5'] ∧
          Char.ofNat (unhex a * 16 + unhex b) ≠ ' ' ∧
          shouldEscape (Char.ofNat (unhex a * 16 + unhex b)) encodeHost = true then
        some (Error.EscapeError (String.mk ['%', a, b]))
      else unescapeCheck m rest) := by
  conv_lhs => unfold unescapeCheck
  simp

/-- The first loop of `unescape` at a byte other than `%`. -/
theorem unescapeCheck_other (m : encoding) (c : Char) (rest : List Char) (hc : c ≠ '%') :
    unescapeCheck m (c :: rest) =
      (if c = '+' then unescapeCheck m rest
      else if (m = encodeHost ∨ m = encodeZone) ∧ c.toNat < 128 ∧
          shouldEscape c encodeHost = true then
        some (Error.InvalidHostError (String.mk [c]))
      else unescapeCheck m rest) := by
  conv_lhs => unfold unescapeCheck
  simp [hc]

/-- The second loop of `unescape` at an escape of three bytes. -/
theorem unescapeDecode_percent (m : encoding) (a b : Char) (rest : List Char) :
    unescapeDecode m ('%' :: a :: b :: rest) =
      Char.ofNat (unhex a * 16 + unhex b) :: unescapeDecode m rest := by
  conv_lhs => unfold unescapeDecode
  simp

/-- The second loop of `unescape` at a byte other than `%`. -/
theorem unescapeDecode_other (m : encoding) (c : Char) (rest : List Char) (hc : c ≠ '%') :
    unescapeDecode m (c :: rest) =
      (if c = '+' then (if m = encodeQueryComponent then ' ' else '+') :: unescapeDecode m rest
      else c :: unescapeDecode m rest) := by
  conv_lhs => unfold unescapeDecode
  simp [hc]

/-- The function `escape` at a non-empty text. -/
theorem escape_cons (m : encoding) (c : Char) (rest : List Char) :
    escape (c :: rest) m =
      (if c = ' ' ∧ m = encodeQueryComponent then '+' :: escape rest m
      else if shouldEscape c m = true then
        '%' :: upperhex (c.toNat / 16 % 16) :: upperhex (c.toNat % 16) :: escape rest m
      else c :: escape rest m) := by
  conv_lhs => unfold escape

/-- The first loop of `unescape` accepts what `escape` writes, outside the host modes. -/
theorem unescapeCheck_escape (m : encoding) (hh : m ≠ encodeHost) (hz : m ≠ encodeZone)
    (l : List Char) : unescapeCheck m (escape l m) = none := by
  induction l with
  | nil => simp [escape, unescapeCheck]
  | cons c rest ih =>
    rw [escape_cons]
    by_cases h1 : c = ' ' ∧ m = encodeQueryComponent
    · rw [if_pos h1, unescapeCheck_other _ _ _ (by decide)]
      simp [ih]
    · rw [if_neg h1]
      by_cases h2 : shouldEscape c m = true
      · rw [if_pos h2, unescapeCheck_percent]
        simp [ih, ishex_upperhex, hh, hz]
      · rw [if_neg h2]
        have hc : c ≠ '%' := by
          intro hc
          rw [hc, shouldEscape_percent] at h2
          exact h2 rfl
        rw [unescapeCheck_other _ _ _ hc]
        simp [ih, hh, hz]

/-- The second loop of `unescape` reads back what `escape` wrote from a text of bytes. -/
theorem unescapeDecode_escape (m : encoding) (hq : m ≠ encodeQueryComponent)
    (l : List Char) (hb : IsBytes l) : unescapeDecode m (escape l m) = l := by
  induction l with
  | nil => simp [escape, unescapeDecode]
  | cons c rest ih =>
    have hbr : IsBytes rest := fun x hx => hb x (List.mem_cons_of_mem _ hx)
    have hcb : c.toNat < 256 := hb c (List.mem_cons_self _ _)
    rw [escape_cons]
    have h1 : ¬ (c = ' ' ∧ m = encodeQueryComponent) := fun h => hq h.2
    rw [if_neg h1]
    by_cases h2 : shouldEscape c m = true
    · rw [if_pos h2, unescapeDecode_percent, ih hbr, decode_escape_char c hcb]
    · rw [if_neg h2]
      have hc : c ≠ '%' := by
        intro hc
        rw [hc, shouldEscape_percent] at h2
        exact h2 rfl
      rw [unescapeDecode_other _ _ _ hc, ih hbr]
      by_cases hp : c = '+'
      · subst hp
        simp [hq]
      · simp [hp]

/-- Unescaping an escaped text of bytes gives the text back. -/
theorem unescape_escape (m : encoding) (hh : m ≠ encodeHost) (hz : m ≠ encodeZone)
    (hq : m ≠ encodeQueryComponent) (l : List Char) (hb : IsBytes l) :
    unescape (escape l m) m = .ok l := by
  unfold unescape
  rw [unescapeCheck_escape m hh hz l, unescapeDecode_escape m hq l hb]


/-! ## Texts: `Cut`, `cutLast` and prefixes -/

/-- A character of code below 128 is `Char.ofNat` of that code. -/
theorem ascii_char_cases (P : Char → Prop) (h : ∀ n, n < 128 → P (Char.ofNat n)) (c : Char)
    (hc : c.toNat < 128) : P c := by
  have := h c.toNat hc
  rwa [Char.ofNat_toNat] at this

/-- A text is empty iff the string made of it is. -/
theorem String_mk_eq_empty (l : List Char) : String.mk l = "" ↔ l = [] := by
  constructor
  · intro h
    have := congrArg String.data h
    simpa using this
  · intro h
    rw [h]

/-- A string is empty iff its text is. -/
theorem String_eq_empty_iff (s : String) : s = "" ↔ s.data = [] := by
  obtain ⟨l⟩ := s
  exact String_mk_eq_empty l

/-- Cutting a text that lacks the separator. -/
theorem Cut_not_mem (sep : Char) (l : List Char) (h : sep ∉ l) : Cut sep l = (l, [], false) := by
  induction l with
  | nil => rfl
  | cons c cs ih =>
    have hc : c ≠ sep := fun hh => h (by rw [hh]; exact List.mem_cons_self _ _)
    have hcs : sep ∉ cs := fun hh => h (List.mem_cons_of_mem _ hh)
    unfold Cut
    rw [if_neg hc, ih hcs]

/-- Cutting at the first separator. -/
theorem Cut_append (sep : Char) (a b : List Char) (h : sep ∉ a) :
    Cut sep (a ++ sep :: b) = (a, b, true) := by
  induction a with
  | nil =>
    show Cut sep (sep :: b) = _
    unfold Cut
    rw [if_pos rfl]
  | cons c cs ih =>
    have hc : c ≠ sep := fun hh => h (by rw [hh]; exact List.mem_cons_self _ _)
    have hcs : sep ∉ cs := fun hh => h (List.mem_cons_of_mem _ hh)
    show Cut sep (c :: (cs ++ sep :: b)) = _
    unfold Cut
    rw [if_neg hc, ih hcs]

/-- What `Cut` returns, put together again. -/
theorem Cut_spec (sep : Char) (l : List Char) :
    sep ∉ (Cut sep l).1 ∧
      ((Cut sep l).2.2 = true → l = (Cut sep l).1 ++ sep :: (Cut sep l).2.1) ∧
      ((Cut sep l).2.2 = false → l = (Cut sep l).1 ∧ (Cut sep l).2.1 = []) := by
  induction l with
  | nil => simp [Cut]
  | cons c cs ih =>
    unfold Cut
    by_cases hc : c = sep
    · rw [if_pos hc]
      simp [hc]
    · rw [if_neg hc]
      obtain ⟨h1, h2, h3⟩ := ih
      refine ⟨?_, ?_, ?_⟩
      · simp only [List.mem_cons, not_or]
        exact ⟨fun hh => hc hh.symm, h1⟩
      · intro hf
        simp only [List.cons_append, List.cons.injEq, true_and]
        exact h2 hf
      · intro hf
        simp only [List.cons.injEq, true_and]
        exact h3 hf

/-- Splitting at the last separator. -/
theorem cutLast_append (sep : Char) (a b : List Char) (h : sep ∉ b) :
    cutLast sep (a ++ sep :: b) = some (a, b) := by
  unfold cutLast
  have hr : (a ++ sep :: b).reverse = b.reverse ++ sep :: a.reverse := by simp
  rw [hr, Cut_append sep b.reverse a.reverse (by simpa using h)]
  simp

/-- No split at a separator that does not occur. -/
theorem cutLast_not_mem (sep : Char) (l : List Char) (h : sep ∉ l) : cutLast sep l = none := by
  unfold cutLast
  rw [Cut_not_mem sep l.reverse (by simpa using h)]

/-- What `cutLast` returns, put together again. -/
theorem cutLast_spec (sep : Char) (l a b : List Char) (h : cutLast sep l = some (a, b)) :
    l = a ++ sep :: b ∧ sep ∉ b := by
  unfold cutLast at h
  obtain ⟨h1, h2, -⟩ := Cut_spec sep l.reverse
  rcases hc : Cut sep l.reverse with ⟨x, y, f⟩
  rw [hc] at h h1 h2
  cases f with
  | false => simp at h
  | true =>
    simp only [Option.some.injEq, Prod.mk.injEq] at h
    obtain ⟨ha, hb⟩ := h
    have h3 := h2 rfl
    simp only at h3 h1
    have h4 := congrArg List.reverse h3
    simp only [List.reverse_reverse, List.reverse_append, List.reverse_cons,
      List.append_assoc, List.singleton_append] at h4
    rw [ha, hb] at h4
    refine ⟨h4, ?_⟩
    rw [← hb]
    simpa using h1

/-! ## Which bytes `escape` leaves alone -/

/-- The order of characters is the order of their codes. -/
theorem char_le_code (c d : Char) (n : Nat) (h : c ≤ d) (hd : d.toNat = n) : c.toNat ≤ n := by
  have h2 : c.toNat ≤ d.toNat := h
  omega

/-- Only bytes below 128 are left unescaped. -/
theorem shouldEscape_false_ascii (c : Char) (m : encoding) (h : shouldEscape c m = false) :
    c.toNat < 128 := by
  have hz : 'z'.toNat = 122 := by decide
  have hZ : 'Z'.toNat = 90 := by decide
  have h9 : '9'.toNat = 57 := by decide
  have hl1 : ∀ x ∈ ['!', '$', '&', Char.ofNat 39, '(', ')', '*', '+', ',', ';', '=', ':', '[',
      ']', '<', '>', '"'], x.toNat < 128 := by decide
  have hl2 : ∀ x ∈ ['-', '_', '.', '~'], x.toNat < 128 := by decide
  have hl3 : ∀ x ∈ ['$', '&', '+', ',', '/', ':', ';', '=', '?', '@'], x.toNat < 128 := by decide
  have hl4 : ∀ x ∈ ['!', '(', ')', '*'], x.toNat < 128 := by decide
  unfold shouldEscape at h
  split at h
  · rename_i h1
    rcases h1 with ⟨-, h2⟩ | ⟨-, h2⟩ | ⟨-, h2⟩
    · have := char_le_code _ _ _ h2 hz
      omega
    · have := char_le_code _ _ _ h2 hZ
      omega
    · have := char_le_code _ _ _ h2 h9
      omega
  · split at h
    · rename_i h1
      exact hl1 c h1.2
    · split at h
      · rename_i h1
        exact hl2 c h1
      · split at h
        · rename_i h1
          exact hl3 c h1
        · split at h
          · rename_i h1
            exact hl4 c h1.2
          · exact absurd h (by simp)

/-- A property of every byte below 128 that a mode leaves unescaped holds of every
byte that the mode leaves unescaped. -/
theorem not_escaped_cases (m : encoding) (Q : Char → Prop)
    (hQ : ∀ n, n < 128 → shouldEscape (Char.ofNat n) m = false → Q (Char.ofNat n))
    (c : Char) (h : shouldEscape c m = false) : Q c :=
  ascii_char_cases (fun c => shouldEscape c m = false → Q c) hQ c
    (shouldEscape_false_ascii c m h) h

/-- A property of the unescaped bytes, of `%` and of the hexadecimal digits holds of
every byte that `escape` writes. -/
theorem escape_all (m : encoding) (hq : m ≠ encodeQueryComponent) (Q : Char → Prop)
    (h1 : ∀ n, n < 128 → shouldEscape (Char.ofNat n) m = false → Q (Char.ofNat n))
    (h2 : Q '%') (h3 : ∀ c ∈ "0123456789ABCDEF".data, Q c) (l : List Char) :
    ∀ c ∈ escape l m, Q c := by
  induction l with
  | nil => simp [escape]
  | cons x rest ih =>
    rw [escape_cons]
    have hn : ¬ (x = ' ' ∧ m = encodeQueryComponent) := fun h => hq h.2
    rw [if_neg hn]
    by_cases hx : shouldEscape x m = true
    · rw [if_pos hx]
      intro c hc
      simp only [List.mem_cons] at hc
      rcases hc with hc | hc | hc | hc
      · rw [hc]; exact h2
      · rw [hc]; exact h3 _ (upperhex_mem _)
      · rw [hc]; exact h3 _ (upperhex_mem _)
      · exact ih c hc
    · rw [if_neg hx]
      intro c hc
      simp only [List.mem_cons] at hc
      rcases hc with hc | hc
      · rw [hc]
        exact not_escaped_cases m Q h1 x (by simpa using hx)
      · exact ih c hc

/-- An escaped text is empty only when the text is. -/
theorem escape_eq_nil (m : encoding) (l : List Char) (h : escape l m = []) : l = [] := by
  cases l with
  | nil => rfl
  | cons x rest =>
    rw [escape_cons] at h
    split at h
    · cases h
    · split at h <;> cases h

/-- The value of a hexadecimal digit is below 16. -/
theorem unhex_lt (c : Char) : unhex c < 16 := by
  have h9 : '9'.toNat = 57 := by decide
  have h0 : '0'.toNat = 48 := by decide
  have hf : 'f'.toNat = 102 := by decide
  have ha : 'a'.toNat = 97 := by decide
  have hF : 'F'.toNat = 70 := by decide
  have hA : 'A'.toNat = 65 := by decide
  unfold unhex
  split
  · rename_i h
    have := char_le_code _ _ _ h.2 h9
    omega
  · split
    · rename_i h
      have := char_le_code _ _ _ h.2 hf
      omega
    · split
      · rename_i h
        have := char_le_code _ _ _ h.2 hF
        omega
      · omega

set_option maxRecDepth 100000 in
/-- The code of the character made from a byte value. -/
theorem toNat_ofNat_byte (n : Nat) (h : n < 256) : (Char.ofNat n).toNat = n := by
  revert n
  decide

/-! ## Hosts and user information -/

/-- The text from a zone on begins with `%25`. -/
theorem cutZone_some (l h1 z : List Char) (h : cutZone l = some (h1, z)) :
    ∃ z2, z = '%' :: '2' :: '5' :: z2 := by
  induction l generalizing h1 with
  | nil => simp [cutZone] at h
  | cons c rest ih =>
    unfold cutZone at h
    split at h
    · rename_i hpre
      simp only [Option.some.injEq, Prod.mk.injEq] at h
      rw [← h.2]
      simp only [HasPrefix, List.isPrefixOf] at hpre
      cases rest with
      | nil => simp [List.isPrefixOf] at hpre
      | cons a rest1 =>
        cases rest1 with
        | nil => simp [List.isPrefixOf] at hpre
        | cons b rest2 =>
          simp only [List.isPrefixOf, Bool.and_eq_true, beq_iff_eq, Bool.and_true] at hpre
          obtain ⟨hc, ha, hb⟩ := hpre
          exact ⟨rest2, by rw [← hc, ← ha, ← hb]⟩
    · split at h
      · cases h
      · rename_i a b hz
        simp only [Option.some.injEq, Prod.mk.injEq] at h
        obtain ⟨-, hb⟩ := h
        subst hb
        exact ih a hz

/-- The bytes that `validUserinfo` accepts. -/
theorem validUserinfo_escape (l : List Char) :
    validUserinfo (escape l encodeUserPassword) = true := by
  unfold validUserinfo
  rw [List.all_eq_true]
  exact escape_all encodeUserPassword (by decide) _ (by decide) (by decide) (by decide) l

/-- No `:` is written by `escape` for user information. -/
theorem colon_not_mem_escape (l : List Char) : ':' ∉ escape l encodeUserPassword := by
  intro h
  exact escape_all encodeUserPassword (by decide) (fun c => c ≠ ':') (by decide) (by decide)
    (by decide) l ':' h rfl

/-- Parsing the authority that `String` writes gives the user information and the
host back. -/
theorem parseAuthority_print (user : Option Userinfo) (e H : List Char)
    (hH : parseHost e = .ok H) (hat : '@' ∉ e)
    (hu : ∀ ui, user = some ui → IsBytes ui.username.data ∧ IsBytes ui.password.data ∧
      (ui.passwordSet = false → ui.password = "")) :
    parseAuthority (userText user ++ e) = .ok (user, H) := by
  cases user with
  | none =>
    simp only [userText, List.nil_append]
    unfold parseAuthority
    rw [cutLast_not_mem '@' e hat]
    simp only [hH]
  | some ui =>
    obtain ⟨hbu, hbp, hpw⟩ := hu ui rfl
    obtain ⟨username, password, passwordSet⟩ := ui
    simp only [userText, List.append_assoc, List.singleton_append]
    unfold parseAuthority
    rw [cutLast_append '@' _ e hat]
    simp only [hH]
    have hh : encodeUserPassword ≠ encodeHost := by decide
    have hz : encodeUserPassword ≠ encodeZone := by decide
    have hq : encodeUserPassword ≠ encodeQueryComponent := by decide
    cases passwordSet with
    | false =>
      have hpw2 : password = "" := hpw rfl
      subst hpw2
      have hval : validUserinfo (Userinfo.String ⟨username, "", false⟩) = true := by
        simp only [Userinfo.String]
        exact validUserinfo_escape _
      have hcol : Contains (Userinfo.String ⟨username, "", false⟩) ':' = false := by
        simp only [Userinfo.String, Contains]
        have := colon_not_mem_escape username.data
        simpa using this
      simp only [hval, hcol, Bool.not_true, Bool.not_false, Bool.false_eq_true, if_false, if_true]
      simp only [Userinfo.String, Bool.false_eq_true, if_false]
      rw [unescape_escape _ hh hz hq _ hbu]
    | true =>
      have hval : validUserinfo (Userinfo.String ⟨username, password, true⟩) = true := by
        simp only [Userinfo.String, if_true]
        unfold validUserinfo
        rw [List.all_eq_true]
        intro c hc
        simp only [List.mem_append, List.mem_cons] at hc
        rcases hc with hc | hc | hc
        · have := validUserinfo_escape username.data
          unfold validUserinfo at this
          rw [List.all_eq_true] at this
          exact this c hc
        · rw [hc]; decide
        · have := validUserinfo_escape password.data
          unfold validUserinfo at this
          rw [List.all_eq_true] at this
          exact this c hc
      have hcol : Contains (Userinfo.String ⟨username, password, true⟩) ':' = true := by
        simp [Userinfo.String, Contains]
      have hcut : Cut ':' (Userinfo.String ⟨username, password, true⟩) =
          (escape username.data encodeUserPassword, escape password.data encodeUserPassword, true) := by
        simp only [Userinfo.String, if_true]
        exact Cut_append ':' _ _ (colon_not_mem_escape _)
      simp only [hval, hcol, hcut, Bool.not_true, Bool.false_eq_true, if_false]
      rw [unescape_escape _ hh hz hq _ hbu]
      simp only
      rw [unescape_escape _ hh hz hq _ hbp]

/-! ## Schemes -/

/-- The loop of `getScheme` at a non-empty text. -/
theorem getSchemeAux_cons (raw : List Char) (i : Nat) (c : Char) (cs : List Char) :
    getSchemeAux raw i (c :: cs) =
      (if ('a' ≤ c ∧ c ≤ 'z') ∨ ('A' ≤ c ∧ c ≤ 'Z') then getSchemeAux raw (i + 1) cs
      else if ('0' ≤ c ∧ c ≤ '9') ∨ c = '+' ∨ c = '-' ∨ c = '.' then
        if i = 0 then .ok ([], raw) else getSchemeAux raw (i + 1) cs
      else if c = ':' then
        if i = 0 then .error (Error.errorString "missing protocol scheme")
        else .ok (raw.take i, cs)
      else .ok ([], raw)) := by
  conv_lhs => unfold getSchemeAux

/-- A scheme byte is below 128. -/
theorem isSchemeByte_ascii (c : Char) (h : isSchemeByte c = true) : c.toNat < 128 := by
  have hz : 'z'.toNat = 122 := by decide
  have hZ : 'Z'.toNat = 90 := by decide
  have h9 : '9'.toNat = 57 := by decide
  simp only [isSchemeByte, isLetter, Bool.or_eq_true, decide_eq_true_eq] at h
  rcases h with (⟨-, h⟩ | ⟨-, h⟩) | (⟨-, h⟩ | h | h | h)
  · have := char_le_code _ _ _ h hz
    omega
  · have := char_le_code _ _ _ h hZ
    omega
  · have := char_le_code _ _ _ h h9
    omega
  · rw [h]; decide
  · rw [h]; decide
  · rw [h]; decide

/-- The loop of `getScheme` on a scheme followed by `:`. -/
theorem getSchemeAux_scheme (t : List Char) (ht : ∀ c ∈ t, isSchemeByte c = true) :
    ∀ (i : Nat) (raw rest : List Char),
      (i = 0 → ∃ c t2, t = c :: t2 ∧ isLetter c = true) →
      getSchemeAux raw i (t ++ ':' :: rest) = .ok (raw.take (i + t.length), rest) := by
  induction t with
  | nil =>
    intro i raw rest hi
    have hi0 : i ≠ 0 := by
      intro h0
      obtain ⟨c, t2, h, -⟩ := hi h0
      cases h
    show getSchemeAux raw i (':' :: rest) = _
    rw [getSchemeAux_cons]
    have h1 : ¬ (('a' ≤ ':' ∧ ':' ≤ 'z') ∨ ('A' ≤ ':' ∧ ':' ≤ 'Z')) := by decide
    have h2 : ¬ (('0' ≤ ':' ∧ ':' ≤ '9') ∨ ':' = '+' ∨ ':' = '-' ∨ ':' = '.') := by decide
    rw [if_neg h1, if_neg h2, if_pos rfl, if_neg hi0]
    simp
  | cons c t2 ih =>
    intro i raw rest hi
    have hc := ht c (List.mem_cons_self _ _)
    have ht2 : ∀ x ∈ t2, isSchemeByte x = true := fun x hx => ht x (List.mem_cons_of_mem _ hx)
    show getSchemeAux raw i (c :: (t2 ++ ':' :: rest)) = _
    rw [getSchemeAux_cons]
    have hlen : i + (c :: t2).length = (i + 1) + t2.length := by simp; omega
    by_cases hl : ('a' ≤ c ∧ c ≤ 'z') ∨ ('A' ≤ c ∧ c ≤ 'Z')
    · rw [if_pos hl, ih ht2 (i + 1) raw rest (by omega), hlen]
    · rw [if_neg hl]
      have hd : ('0' ≤ c ∧ c ≤ '9') ∨ c = '+' ∨ c = '-' ∨ c = '.' := by
        simp only [isSchemeByte, isLetter, Bool.or_eq_true, decide_eq_true_eq] at hc
        rcases hc with hc | hc
        · exact absurd hc hl
        · exact hc
      have hi0 : i ≠ 0 := by
        intro h0
        obtain ⟨c2, t3, h, hlet⟩ := hi h0
        simp only [List.cons.injEq] at h
        rw [← h.1] at hlet
        simp only [isLetter, decide_eq_true_eq] at hlet
        exact hl hlet
      rw [if_pos hd, if_neg hi0, ih ht2 (i + 1) raw rest (by omega), hlen]

/-- The function `getScheme` on a stored scheme followed by `:`. -/
theorem getScheme_scheme (sc rest : List Char) (h : lowerScheme sc) :
    getScheme (sc ++ ':' :: rest) = .ok (sc, rest) := by
  unfold getScheme
  obtain ⟨⟨c, t, hsc, hlow⟩, hall⟩ := h
  rw [getSchemeAux_scheme sc (fun x hx => (hall x hx).1) 0 _ rest]
  · simp
  · intro _
    refine ⟨c, t, hsc, ?_⟩
    simp only [isLowerLetter, decide_eq_true_eq] at hlow
    simp only [isLetter, decide_eq_true_eq]
    exact Or.inl hlow

/-- A stored scheme is its own lower case. -/
theorem ToLower_scheme (sc : List Char) (h : lowerScheme sc) : ToLower sc = sc := by
  unfold ToLower
  have : ∀ l : List Char, (∀ c ∈ l, c.toLower = c) → l.map Char.toLower = l := by
    intro l
    induction l with
    | nil => intro _; rfl
    | cons x rest ih =>
      intro hl
      simp only [List.map_cons, List.cons.injEq]
      exact ⟨hl x (List.mem_cons_self _ _), ih (fun c hc => hl c (List.mem_cons_of_mem _ hc))⟩
  exact this sc (fun c hc => (h.2 c hc).2)

/-- A property of every scheme byte below 128 holds of every byte of a stored scheme. -/
theorem scheme_all (Q : Char → Prop)
    (hQ : ∀ n, n < 128 → isSchemeByte (Char.ofNat n) = true → Q (Char.ofNat n))
    (sc : List Char) (h : lowerScheme sc) : ∀ c ∈ sc, Q c := by
  intro c hc
  have hs := (h.2 c hc).1
  exact ascii_char_cases (fun c => isSchemeByte c = true → Q c) hQ c (isSchemeByte_ascii c hs) hs

/-- What the loop of `getScheme` returns: no scheme and the whole text, or the
scheme before the first `:`. -/
theorem getSchemeAux_ok (raw : List Char) (l : List Char) :
    ∀ (i : Nat) (pre sc rest : List Char), raw = pre ++ l → pre.length = i →
      (∀ c ∈ pre, isSchemeByte c = true) →
      (∀ c t, pre = c :: t → isLetter c = true) →
      getSchemeAux raw i l = .ok (sc, rest) →
      (sc = [] ∧ rest = raw) ∨
        (raw = sc ++ ':' :: rest ∧ (∀ c ∈ sc, isSchemeByte c = true) ∧
          ∃ c t, sc = c :: t ∧ isLetter c = true) := by
  induction l with
  | nil =>
    intro i pre sc rest _ _ _ _ h
    simp only [getSchemeAux, Except.ok.injEq, Prod.mk.injEq] at h
    exact Or.inl ⟨h.1.symm, h.2.symm⟩
  | cons c cs ih =>
    intro i pre sc rest hraw hlen hpre hhead h
    rw [getSchemeAux_cons] at h
    have hraw2 : raw = (pre ++ [c]) ++ cs := by rw [hraw]; simp
    have hlen2 : (pre ++ [c]).length = i + 1 := by simp [hlen]
    by_cases hl : ('a' ≤ c ∧ c ≤ 'z') ∨ ('A' ≤ c ∧ c ≤ 'Z')
    · rw [if_pos hl] at h
      have hcl : isLetter c = true := by simp only [isLetter, decide_eq_true_eq]; exact hl
      refine ih (i + 1) (pre ++ [c]) sc rest hraw2 hlen2 ?_ ?_ h
      · intro x hx
        simp only [List.mem_append, List.mem_singleton] at hx
        rcases hx with hx | hx
        · exact hpre x hx
        · rw [hx]; simp [isSchemeByte, hcl]
      · intro x t hxt
        cases pre with
        | nil =>
          simp only [List.nil_append, List.cons.injEq] at hxt
          rw [← hxt.1]; exact hcl
        | cons p ps =>
          simp only [List.cons_append, List.cons.injEq] at hxt
          rw [← hxt.1]
          exact hhead p ps rfl
    · rw [if_neg hl] at h
      by_cases hd : ('0' ≤ c ∧ c ≤ '9') ∨ c = '+' ∨ c = '-' ∨ c = '.'
      · rw [if_pos hd] at h
        by_cases hi : i = 0
        · rw [if_pos hi] at h
          simp only [Except.ok.injEq, Prod.mk.injEq] at h
          exact Or.inl ⟨h.1.symm, h.2.symm⟩
        · rw [if_neg hi] at h
          have hcs : isSchemeByte c = true := by
            simp only [isSchemeByte, Bool.or_eq_true, decide_eq_true_eq]
            exact Or.inr hd
          refine ih (i + 1) (pre ++ [c]) sc rest hraw2 hlen2 ?_ ?_ h
          · intro x hx
            simp only [List.mem_append, List.mem_singleton] at hx
            rcases hx with hx | hx
            · exact hpre x hx
            · rw [hx]; exact hcs
          · intro x t hxt
            cases pre with
            | nil => simp at hlen; exact absurd hlen.symm hi
            | cons p ps =>
              simp only [List.cons_append, List.cons.injEq] at hxt
              rw [← hxt.1]
              exact hhead p ps rfl
      · rw [if_neg hd] at h
        by_cases hcol : c = ':'
        · rw [if_pos hcol] at h
          by_cases hi : i = 0
          · rw [if_pos hi] at h
            cases h
          · rw [if_neg hi] at h
            simp only [Except.ok.injEq, Prod.mk.injEq] at h
            have htake : raw.take i = pre := by
              rw [hraw, ← hlen]
              simp
            right
            rw [← h.1, ← h.2, htake]
            refine ⟨by rw [hraw, hcol], hpre, ?_⟩
            cases pre with
            | nil => simp at hlen; exact absurd hlen.symm hi
            | cons p ps => exact ⟨p, ps, rfl, hhead p ps rfl⟩
        · rw [if_neg hcol] at h
          simp only [Except.ok.injEq, Prod.mk.injEq] at h
          exact Or.inl ⟨h.1.symm, h.2.symm⟩

/-- A non-empty scheme that `getScheme` returns stands before a `:` in the text,
and its lower case is a stored scheme. -/
theorem getScheme_ok (raw sc rest : List Char) (h : getScheme raw = .ok (sc, rest))
    (hne : sc ≠ []) : raw = sc ++ ':' :: rest ∧ lowerScheme (ToLower sc) := by
  unfold getScheme at h
  rcases getSchemeAux_ok raw raw 0 [] sc rest rfl rfl (by simp) (by simp) h with h1 | h1
  · exact absurd h1.1 hne
  · obtain ⟨hraw, hall, c, t, hsc, hlet⟩ := h1
    refine ⟨hraw, ?_, ?_⟩
    · refine ⟨c.toLower, t.map Char.toLower, by rw [hsc]; rfl, ?_⟩
      have hc128 := isSchemeByte_ascii c (hall c (by rw [hsc]; exact List.mem_cons_self _ _))
      exact ascii_char_cases (fun c => isLetter c = true → isLowerLetter c.toLower = true)
        (by decide) c hc128 hlet
    · intro x hx
      unfold ToLower at hx
      rw [List.mem_map] at hx
      obtain ⟨y, hy, hyx⟩ := hx
      have hy128 := isSchemeByte_ascii y (hall y hy)
      rw [← hyx]
      exact ascii_char_cases
        (fun c => isSchemeByte c = true →
          isSchemeByte c.toLower = true ∧ c.toLower.toLower = c.toLower)
        (by decide) y hy128 (hall y hy)

/-! ## What `Parse` returns -/

/-- The function `parse`, with its tail named. -/
theorem parse_eq (raw : List Char) :
    parse raw =
      (if stringContainsCTLByte raw then
        .error (Error.errorString "net/url: invalid control character in URL")
      else if raw = ['*'] then .ok { zeroURL with Path := "*" }
      else
        match getScheme raw with
        | .error e => .error e
        | .ok (sc, rest0) => parseRest (parseQuery sc rest0).1 (parseQuery sc rest0).2) := by
  unfold parse parseRest parseQuery
  rfl

/-- The URL that `setPath` returns. -/
theorem setPath_ok (u u2 : URL) (p : List Char) (h : setPath u p = .ok u2) :
    u2.Path = String.mk (unescapeDecode encodePath p) ∧ u2.Scheme = u.Scheme ∧
      u2.Opaque = u.Opaque ∧ u2.User = u.User ∧ u2.Host = u.Host ∧
      u2.OmitHost = u.OmitHost ∧ u2.ForceQuery = u.ForceQuery ∧ u2.RawQuery = u.RawQuery ∧
      u2.Fragment = u.Fragment ∧ u2.RawFragment = u.RawFragment := by
  unfold setPath at h
  cases hun : unescape p encodePath with
  | error e => rw [hun] at h; cases h
  | ok path =>
    rw [hun] at h
    unfold unescape at hun
    split at hun
    · cases hun
    · simp only [Except.ok.injEq] at hun
      subst hun
      simp only at h
      split at h <;>
      · simp only [Except.ok.injEq] at h
        subst h
        simp

/-- The URL that `setFragment` returns. -/
theorem setFragment_ok (u u2 : URL) (f : List Char) (h : setFragment u f = .ok u2) :
    u2.Fragment = String.mk (unescapeDecode encodeFragment f) ∧ u2.Scheme = u.Scheme ∧
      u2.Opaque = u.Opaque ∧ u2.User = u.User ∧ u2.Host = u.Host ∧
      u2.OmitHost = u.OmitHost ∧ u2.ForceQuery = u.ForceQuery ∧ u2.RawQuery = u.RawQuery ∧
      u2.Path = u.Path ∧ u2.RawPath = u.RawPath := by
  unfold setFragment at h
  cases hun : unescape f encodeFragment with
  | error e => rw [hun] at h; cases h
  | ok path =>
    rw [hun] at h
    unfold unescape at hun
    split at hun
    · cases hun
    · simp only [Except.ok.injEq] at hun
      subst hun
      simp only at h
      split at h <;>
      · simp only [Except.ok.injEq] at h
        subst h
        simp

/-- Decoding a text of bytes gives a text of bytes. -/
theorem unescapeDecode_bytes_aux (m : encoding) :
    ∀ (n : Nat) (l : List Char), l.length ≤ n → IsBytes l → IsBytes (unescapeDecode m l) := by
  intro n
  induction n with
  | zero =>
    intro l hl _
    have : l = [] := List.length_eq_zero.mp (by omega)
    rw [this]
    simp [unescapeDecode, IsBytes]
  | succ n ih =>
    intro l hl hb
    cases l with
    | nil => simp [unescapeDecode, IsBytes]
    | cons c rest =>
      have hbr : IsBytes rest := fun x hx => hb x (List.mem_cons_of_mem _ hx)
      have hcb : c.toNat < 256 := hb c (List.mem_cons_self _ _)
      simp only [List.length_cons] at hl
      by_cases hc : c = '%'
      · subst hc
        cases rest with
        | nil => unfold unescapeDecode; simp [IsBytes]
        | cons a rest1 =>
          cases rest1 with
          | nil => unfold unescapeDecode; simp [IsBytes]
          | cons b rest2 =>
            rw [unescapeDecode_percent]
            simp only [List.length_cons] at hl
            have hb2 : IsBytes rest2 := fun x hx =>
              hbr x (List.mem_cons_of_mem _ (List.mem_cons_of_mem _ hx))
            have ih2 := ih rest2 (by omega) hb2
            intro x hx
            simp only [List.mem_cons] at hx
            rcases hx with hx | hx
            · rw [hx]
              have ha := unhex_lt a
              have hbb := unhex_lt b
              rw [toNat_ofNat_byte _ (by omega)]
              omega
            · exact ih2 x hx
      · rw [unescapeDecode_other _ _ _ hc]
        have ih2 := ih rest (by omega) hbr
        intro x hx
        split at hx
        · simp only [List.mem_cons] at hx
          rcases hx with hx | hx
          · rw [hx]
            split <;> decide
          · exact ih2 x hx
        · simp only [List.mem_cons] at hx
          rcases hx with hx | hx
          · rw [hx]; exact hcb
          · exact ih2 x hx

/-- Decoding a text of bytes gives a text of bytes. -/
theorem unescapeDecode_bytes (m : encoding) (l : List Char) (h : IsBytes l) :
    IsBytes (unescapeDecode m l) :=
  unescapeDecode_bytes_aux m l.length l (Nat.le_refl _) h

/-- Every byte of the two texts that `Cut` returns is a byte of the text. -/
theorem Cut_mem (sep : Char) (l : List Char) (c : Char) :
    (c ∈ (Cut sep l).1 → c ∈ l) ∧ (c ∈ (Cut sep l).2.1 → c ∈ l) := by
  obtain ⟨-, h2, h3⟩ := Cut_spec sep l
  cases hf : (Cut sep l).2.2 with
  | true =>
    have := h2 hf
    constructor
    · intro hc
      rw [this]
      exact List.mem_append_left _ hc
    · intro hc
      rw [this]
      exact List.mem_append_right _ (List.mem_cons_of_mem _ hc)
  | false =>
    have := h3 hf
    constructor
    · intro hc
      rw [this.1]
      exact hc
    · intro hc
      rw [this.2] at hc
      cases hc

/-- The split of the query when the text ends in its only `?`. -/
theorem parseQuery_force (sc rest0 : List Char)
    (hf : (HasSuffix rest0 ['?'] && decide (Count rest0 '?' = 1)) = true) :
    parseQuery sc rest0 =
      ({ zeroURL with Scheme := String.mk (ToLower sc), ForceQuery := true }, rest0.dropLast) := by
  unfold parseQuery
  simp only [hf, if_true]

/-- The split of the query otherwise. -/
theorem parseQuery_cut (sc rest0 : List Char)
    (hf : ¬ (HasSuffix rest0 ['?'] && decide (Count rest0 '?' = 1)) = true) :
    parseQuery sc rest0 =
      ({ zeroURL with Scheme := String.mk (ToLower sc),
                      RawQuery := String.mk (Cut '?' rest0).2.1 }, (Cut '?' rest0).1) := by
  unfold parseQuery
  simp only [hf, Bool.false_eq_true, if_false]

/-- The URL and the rest of the text after the split of the query. -/
theorem parseQuery_spec (sc rest0 : List Char) :
    (parseQuery sc rest0).1.Scheme = String.mk (ToLower sc) ∧
      (parseQuery sc rest0).1.Opaque = "" ∧ (parseQuery sc rest0).1.User = none ∧
      (parseQuery sc rest0).1.Host = "" ∧ (parseQuery sc rest0).1.Path = "" ∧
      (parseQuery sc rest0).1.RawPath = "" ∧ (parseQuery sc rest0).1.OmitHost = false ∧
      (parseQuery sc rest0).1.Fragment = "" ∧ (parseQuery sc rest0).1.RawFragment = "" ∧
      ((parseQuery sc rest0).1.ForceQuery = true → (parseQuery sc rest0).1.RawQuery = "") ∧
      (∀ c ∈ (parseQuery sc rest0).1.RawQuery.data, c ∈ rest0) ∧
      (∀ c ∈ (parseQuery sc rest0).2, c ∈ rest0) := by
  by_cases hf : (HasSuffix rest0 ['?'] && decide (Count rest0 '?' = 1)) = true
  · rw [parseQuery_force sc rest0 hf]
    refine ⟨rfl, rfl, rfl, rfl, rfl, rfl, rfl, rfl, rfl, fun _ => rfl, ?_, ?_⟩
    · intro c hc
      cases hc
    · intro c hc
      exact List.mem_of_mem_dropLast hc
  · rw [parseQuery_cut sc rest0 hf]
    refine ⟨rfl, rfl, rfl, rfl, rfl, rfl, rfl, rfl, rfl, ?_, ?_, ?_⟩
    · intro h
      cases h
    · intro c hc
      exact (Cut_mem '?' rest0 c).2 hc
    · intro c hc
      exact (Cut_mem '?' rest0 c).1 hc

/-- The text that `unescape` returns is the decoded text. -/
theorem unescape_ok (l x : List Char) (m : encoding) (h : unescape l m = .ok x) :
    x = unescapeDecode m l ∧ unescapeCheck m l = none := by
  unfold unescape at h
  split at h
  · cases h
  · rename_i hc
    simp only [Except.ok.injEq] at h
    exact ⟨h.symm, hc⟩

/-- What `parseAuthority` returns: the host comes from `parseHost`, and the user
information of a text of bytes is made of bytes. -/
theorem parseAuthority_ok (a : List Char) (user : Option Userinfo) (host : List Char)
    (h : parseAuthority a = .ok (user, host)) :
    (∃ h0, parseHost h0 = .ok host) ∧
      (IsBytes a → ∀ ui, user = some ui →
        IsBytes ui.username.data ∧ IsBytes ui.password.data ∧
          (ui.passwordSet = false → ui.password = "")) := by
  unfold parseAuthority at h
  split at h
  · split at h
    · cases h
    · rename_i hst hph
      simp only [Except.ok.injEq, Prod.mk.injEq] at h
      refine ⟨⟨a, by rw [hph, h.2]⟩, ?_⟩
      intro _ ui hui
      rw [← h.1] at hui
      cases hui
  · rename_i userinfo hostText hcl
    obtain ⟨ha, -⟩ := cutLast_spec '@' a userinfo hostText hcl
    split at h
    · cases h
    · rename_i hst hph
      have hsub : IsBytes a → IsBytes userinfo := by
        intro hb c hc
        exact hb c (by rw [ha]; exact List.mem_append_left _ hc)
      split at h
      · cases h
      · split at h
        · split at h
          · cases h
          · rename_i u hu
            simp only [Except.ok.injEq, Prod.mk.injEq] at h
            refine ⟨⟨hostText, by rw [hph, h.2]⟩, ?_⟩
            intro hb ui hui
            rw [← h.1] at hui
            simp only [Option.some.injEq] at hui
            subst hui
            have := (unescape_ok _ _ _ hu).1
            refine ⟨?_, ?_, fun _ => rfl⟩
            · show IsBytes u
              rw [this]
              exact unescapeDecode_bytes _ _ (hsub hb)
            · intro c hc
              cases hc
        · split at h
          · cases h
          · rename_i username hun
            split at h
            · cases h
            · rename_i password hpw
              simp only [Except.ok.injEq, Prod.mk.injEq] at h
              refine ⟨⟨hostText, by rw [hph, h.2]⟩, ?_⟩
              intro hb ui hui
              rw [← h.1] at hui
              simp only [Option.some.injEq] at hui
              subst hui
              have h1 := (unescape_ok _ _ _ hun).1
              have h2 := (unescape_ok _ _ _ hpw).1
              refine ⟨?_, ?_, ?_⟩
              · show IsBytes username
                rw [h1]
                exact unescapeDecode_bytes _ _
                  (fun c hc => hsub hb c ((Cut_mem ':' userinfo c).1 hc))
              · show IsBytes password
                rw [h2]
                exact unescapeDecode_bytes _ _
                  (fun c hc => hsub hb c ((Cut_mem ':' userinfo c).2 hc))
              · intro hf
                cases hf

/-- What `parseRest` returns for a URL with a scheme and a host or a path: the
authority case or the case of an omitted host. -/
theorem parseRest_ok (url2 u : URL) (rest : List Char) (h : parseRest url2 rest = .ok u)
    (h2 : url2.Opaque = "" ∧ url2.User = none ∧ url2.Host = "" ∧ url2.Path = "" ∧
      url2.OmitHost = false)
    (hs : u.Scheme ≠ "") (hhp : u.Host ≠ "" ∨ u.Path ≠ "") :
    u.Scheme = url2.Scheme ∧ u.ForceQuery = url2.ForceQuery ∧ u.RawQuery = url2.RawQuery ∧
      u.Opaque = "" ∧ u.Fragment = url2.Fragment ∧ u.RawFragment = url2.RawFragment ∧
      ∃ p, (∀ c ∈ p, c ∈ rest) ∧ (p = [] ∨ ∃ x, p = '/' :: x) ∧
        u.Path = String.mk (unescapeDecode encodePath p) ∧
        ((u.OmitHost = true ∧ u.Host = "" ∧ u.User = none) ∨
          (u.OmitHost = false ∧ ∃ a host, (∀ c ∈ a, c ∈ rest) ∧
            parseAuthority a = .ok (u.User, host) ∧ u.Host = String.mk host)) := by
  obtain ⟨ho, hu, hh, hp, hom⟩ := h2
  unfold parseRest at h
  split at h
  · exfalso
    simp only [Except.ok.injEq] at h
    subst h
    simp only [hh, hp] at hhp
    rcases hhp with hhp | hhp <;> exact hhp rfl
  · split at h
    · cases h
    · split at h
      · rename_i hcond
        simp only at h
        split at h
        · cases h
        · rename_i user host hpa
          obtain ⟨hpath, hsch, hop, hus, hho, homit, hfq, hrq, hfr, hrf⟩ := setPath_ok _ _ _ h
          simp only at hsch hop hus hho homit hfq hrq hfr hrf
          refine ⟨hsch, hfq, hrq, by rw [hop, ho], hfr, hrf, _, ?_, ?_, hpath,
            Or.inr ⟨?_, (Cut '/' (rest.drop 2)).1, host, ?_, ?_, hho⟩⟩
          · intro c hc
            split at hc
            · rename_i hfound
              have hsp := (Cut_spec '/' (rest.drop 2)).2.1 hfound
              have : c ∈ rest.drop 2 := by
                rw [hsp]
                simp only [List.mem_cons] at hc
                rcases hc with hc | hc
                · rw [hc]; simp
                · exact List.mem_append_right _ (List.mem_cons_of_mem _ hc)
              exact List.mem_of_mem_drop this
            · cases hc
          · split
            · exact Or.inr ⟨_, rfl⟩
            · exact Or.inl rfl
          · rw [homit, hom]
          · intro c hc
            exact List.mem_of_mem_drop ((Cut_mem '/' (rest.drop 2) c).1 hc)
          · rw [hus]
            exact hpa
      · split at h
        · rename_i hcond
          obtain ⟨hpath, hsch, hop, hus, hho, homit, hfq, hrq, hfr, hrf⟩ := setPath_ok _ _ _ h
          simp only at hsch hop hus hho homit hfq hrq hfr hrf
          refine ⟨hsch, hfq, hrq, by rw [hop, ho], hfr, hrf, rest, fun c hc => hc, ?_, hpath,
            Or.inl ⟨homit, by rw [hho, hh], by rw [hus, hu]⟩⟩
          have hpre := hcond.2
          cases rest with
          | nil => simp [HasPrefix, List.isPrefixOf] at hpre
          | cons c cs =>
            simp only [HasPrefix, List.isPrefixOf, Bool.and_true, beq_iff_eq] at hpre
            exact Or.inr ⟨cs, by rw [← hpre]⟩
        · exfalso
          rename_i h1 h3 h4 h5
          obtain ⟨-, hsch, -⟩ := setPath_ok _ _ _ h
          have hs2 : url2.Scheme ≠ "" := by rw [← hsch]; exact hs
          have hpre : HasPrefix rest ['/'] = true := by
            by_contra hne
            exact h1 ⟨by simpa using hne, hs2⟩
          exact h5 ⟨hs2, hpre⟩

/-- A part of a text without control bytes has none. -/
theorem noCTL_of_subset (l l2 : List Char) (h : stringContainsCTLByte l = false)
    (hsub : ∀ c ∈ l2, c ∈ l) : stringContainsCTLByte l2 = false := by
  unfold stringContainsCTLByte at h ⊢
  rw [List.any_eq_false] at h ⊢
  intro c hc
  exact h c (hsub c hc)

/-- Decoding keeps an empty path empty and a leading `/` leading. -/
theorem unescapeDecode_shape (m : encoding) (p : List Char) (h : p = [] ∨ ∃ x, p = '/' :: x) :
    unescapeDecode m p = [] ∨ ∃ x, unescapeDecode m p = '/' :: x := by
  rcases h with h | ⟨x, h⟩
  · left
    rw [h]
    simp [unescapeDecode]
  · right
    rw [h, unescapeDecode_other _ _ _ (by decide), if_neg (by decide)]
    exact ⟨_, rfl⟩

/-- What `parse` returns for a text of bytes without `#`, when the URL has a scheme
and a host or a path. -/
theorem parse_wellFormed (raw : List Char) (url : URL) (h : parse raw = .ok url)
    (hb : IsBytes raw) (hhash : '#' ∉ raw) (hs : url.Scheme ≠ "")
    (hhp : url.Host ≠ "" ∨ url.Path ≠ "") :
    WellFormed url ∧ url.Fragment = "" ∧ url.RawFragment = "" ∧
      ∃ h0, parseHost h0 = .ok url.Host.data := by
  rw [parse_eq] at h
  split at h
  · cases h
  · rename_i hctl
    split at h
    · simp only [Except.ok.injEq] at h
      subst h
      exact absurd rfl hs
    · split at h
      · cases h
      · rename_i sc rest0 hgs
        obtain ⟨q1, q2, q3, q4, q5, -, q7, q8, q9, q10, q11, q12⟩ := parseQuery_spec sc rest0
        obtain ⟨hsch, hfq, hrq, hop, hfr, hrf, p, hpsub, hpshape, hpath, hcases⟩ :=
          parseRest_ok _ _ _ h ⟨q2, q3, q4, q5, q7⟩ hs hhp
        have hscne : sc ≠ [] := by
          intro hnil
          rw [hsch, q1, hnil] at hs
          exact hs rfl
        obtain ⟨hraw, hlow⟩ := getScheme_ok raw sc rest0 hgs hscne
        have hrest0 : ∀ c ∈ rest0, c ∈ raw := by
          intro c hc
          rw [hraw]
          exact List.mem_append_right _ (List.mem_cons_of_mem _ hc)
        have hctl2 : stringContainsCTLByte raw = false := by simpa using hctl
        refine ⟨⟨?_, hop, ?_, ?_, ?_, ?_, ?_, ?_, ?_, ?_⟩, by rw [hfr, q8], by rw [hrf, q9], ?_⟩
        · rw [hsch, q1]
          exact hlow
        · intro hf
          rw [hrq]
          exact q10 (by rw [← hfq]; exact hf)
        · intro hc
          rw [hrq] at hc
          exact hhash (hrest0 _ (q11 _ hc))
        · rw [hrq]
          exact noCTL_of_subset raw _ hctl2 (fun c hc => hrest0 _ (q11 _ hc))
        · rw [hpath]
          exact unescapeDecode_shape _ _ hpshape
        · rw [hpath]
          exact unescapeDecode_bytes _ _ (fun c hc => hb c (hrest0 _ (q12 _ (hpsub c hc))))
        · rw [hfr, q8]
          intro c hc
          cases hc
        · intro ui hui
          rcases hcases with ⟨-, -, hnone⟩ | ⟨-, a, host, hasub, hpa, -⟩
          · rw [hnone] at hui
            cases hui
          · exact (parseAuthority_ok a _ host hpa).2
              (fun c hc => hb c (hrest0 _ (q12 _ (hasub c hc)))) ui hui
        · intro hom
          rcases hcases with ⟨-, hh, hu⟩ | ⟨hf, -⟩
          · exact ⟨hh, hu⟩
          · rw [hf] at hom
            cases hom
        · rcases hcases with ⟨-, hh, -⟩ | ⟨-, a, host, -, hpa, hhost⟩
          · exact ⟨[], by rw [hh]; rfl⟩
          · obtain ⟨h0, hh0⟩ := (parseAuthority_ok a _ host hpa).1
            exact ⟨h0, by rw [hhost]; exact hh0⟩

/-- What `Parse` returns for a string of bytes, when the URL has a scheme and a host
or a path. -/
theorem Parse_wellFormed (s : String) (u : URL) (h : Parse s = .ok u) (hb : IsBytes s.data)
    (hs : u.Scheme ≠ "") (hhp : u.Host ≠ "" ∨ u.Path ≠ "") :
    WellFormed u ∧ ∃ h0, parseHost h0 = .ok u.Host.data := by
  unfold Parse at h
  have hpre : ∀ c ∈ (Cut '#' s.data).1, c ∈ s.data := fun c hc => (Cut_mem '#' s.data c).1 hc
  have hfrag : ∀ c ∈ (Cut '#' s.data).2.1, c ∈ s.data := fun c hc => (Cut_mem '#' s.data c).2 hc
  have hhash := (Cut_spec '#' s.data).1
  split at h
  · cases h
  · rename_i url hp
    split at h
    · simp only [Except.ok.injEq] at h
      subst h
      obtain ⟨hw, -, -, hh⟩ := parse_wellFormed _ _ hp (fun c hc => hb c (hpre c hc)) hhash hs hhp
      exact ⟨hw, hh⟩
    · split at h
      · cases h
      · rename_i u2 hsf
        simp only [Except.ok.injEq] at h
        subst h
        obtain ⟨hfr, hsch, hop, hus, hho, homit, hfq, hrq, hpa, -⟩ := setFragment_ok _ _ _ hsf
        obtain ⟨hw, -, -, hh⟩ := parse_wellFormed _ _ hp (fun c hc => hb c (hpre c hc)) hhash
          (by rw [← hsch]; exact hs) (by rw [← hho, ← hpa]; exact hhp)
        refine ⟨⟨?_, ?_, ?_, ?_, ?_, ?_, ?_, ?_, ?_, ?_⟩, ?_⟩
        · rw [hsch]; exact hw.scheme
        · rw [hop]; exact hw.noOpaque
        · rw [hfq, hrq]; exact hw.force
        · rw [hrq]; exact hw.queryHash
        · rw [hrq]; exact hw.queryCTL
        · rw [hpa]; exact hw.pathShape
        · rw [hpa]; exact hw.pathBytes
        · rw [hfr]
          exact unescapeDecode_bytes _ _ (fun c hc => hb c (hfrag c hc))
        · rw [hus]; exact hw.user
        · rw [homit, hho, hus]; exact hw.omitHost
        · rw [hho]; exact hh

/-! ## What `String` writes -/

/-- The escaped path of an empty path or of a path led by `/` has the same shape. -/
theorem escape_path_shape (p : List Char) (h : p = [] ∨ ∃ x, p = '/' :: x) :
    escape p encodePath = [] ∨ ∃ x, escape p encodePath = '/' :: x := by
  rcases h with h | ⟨x, h⟩
  · left; rw [h]; simp [escape]
  · right
    rw [h, escape_cons, if_neg (by decide), if_neg (by decide)]
    exact ⟨_, rfl⟩

/-- The string of a well-formed URL, part by part. -/
theorem String_wellFormed (u : URL) (hw : WellFormed u) (hrp : u.RawPath = "")
    (hrf : u.RawFragment = "") (hhp : u.Host ≠ "" ∨ u.Path ≠ "") :
    URL.String u =
      String.mk (u.Scheme.data ++ ':' :: (renderBody u ++ renderQuery u ++ renderFragment u)) := by
  have hsne : u.Scheme ≠ "" := by
    obtain ⟨⟨c, t, hsc, -⟩, -⟩ := hw.scheme
    intro h
    rw [h] at hsc
    cases hsc
  have hsF : (u.Scheme = "") = False := eq_false hsne
  have hstar : u.Path ≠ "*" := by
    intro h
    have hsh := hw.pathShape
    rw [h] at hsh
    rcases hsh with hsh | ⟨x, hsh⟩ <;> cases hsh
  have hep : EscapedPath u = escape u.Path.data encodePath := by
    unfold EscapedPath
    simp [hrp, hstar]
  have hef : EscapedFragment u = escape u.Fragment.data encodeFragment := by
    unfold EscapedFragment
    simp [hrf]
  have hpsh := escape_path_shape u.Path.data hw.pathShape
  have hscd : u.Scheme.data ≠ [] := fun h => hsne ((String_eq_empty_iff _).2 h)
  have hpe : escape u.Path.data encodePath = [] → u.Path = "" := fun h =>
    (String_eq_empty_iff _).2 (escape_eq_nil _ _ h)
  have hen : escape [] encodeHost = [] := by simp [escape]
  cases hom : u.OmitHost with
  | true =>
    obtain ⟨hh, hu⟩ := hw.omitHost hom
    unfold URL.String
    simp only [hep, hef, hw.noOpaque, hh, hu, hom, renderBody, renderQuery, renderFragment]
    simp [hscd, hsF]
    split_ifs <;> simp [hen]
  | false =>
    cases hu : u.User with
    | none =>
      by_cases hh : u.Host = ""
      · have hpn : (u.Path = "") = False := eq_false (hhp.resolve_left (fun h => h hh))
        rcases hpsh with hp | ⟨x, hp⟩
        · exact absurd (hpe hp) (hhp.resolve_left (fun h => h hh))
        · unfold URL.String
          simp only [hep, hef, hw.noOpaque, hom, renderBody, renderQuery, renderFragment,
            hu, hh, hp, userText]
          simp [hscd, HasPrefix, hsF, hpn, hen]
          split_ifs <;> simp [hen]
      · have hhF : (u.Host = "") = False := eq_false hh
        rcases hpsh with hp | ⟨x, hp⟩
        · unfold URL.String
          simp only [hep, hef, hw.noOpaque, hom, renderBody, renderQuery, renderFragment,
            hu, hp, userText]
          simp [hscd, HasPrefix, hsF, hhF]
          split_ifs <;> simp [hen]
        · unfold URL.String
          simp only [hep, hef, hw.noOpaque, hom, renderBody, renderQuery, renderFragment,
            hu, hp, userText]
          simp [hscd, HasPrefix, hsF, hhF]
          split_ifs <;> simp [hen]
    | some ui =>
      by_cases hh : u.Host = ""
      · have hpn : (u.Path = "") = False := eq_false (hhp.resolve_left (fun h => h hh))
        rcases hpsh with hp | ⟨x, hp⟩
        · exact absurd (hpe hp) (hhp.resolve_left (fun h => h hh))
        · unfold URL.String
          simp only [hep, hef, hw.noOpaque, hom, renderBody, renderQuery, renderFragment,
            hu, hh, hp, userText]
          simp [hscd, HasPrefix, hsF, hpn, hen]
          split_ifs <;> simp [hen]
      · have hhF : (u.Host = "") = False := eq_false hh
        rcases hpsh with hp | ⟨x, hp⟩
        · unfold URL.String
          simp only [hep, hef, hw.noOpaque, hom, renderBody, renderQuery, renderFragment,
            hu, hp, userText]
          simp [hscd, HasPrefix, hsF, hhF]
          split_ifs <;> simp [hen]
        · unfold URL.String
          simp only [hep, hef, hw.noOpaque, hom, renderBody, renderQuery, renderFragment,
            hu, hp, userText]
          simp [hscd, HasPrefix, hsF, hhF]
          split_ifs <;> simp [hen]

/-! ## Reading back what `String` writes -/

/-- Setting the escaped form of a path stores the path and no raw path. -/
theorem setPath_escape (u : URL) (p : List Char) (hb : IsBytes p) :
    setPath u (escape p encodePath) = .ok { u with Path := String.mk p, RawPath := "" } := by
  unfold setPath
  rw [unescape_escape encodePath (by decide) (by decide) (by decide) p hb]
  simp

/-- Setting the escaped form of a fragment stores the fragment and no raw fragment. -/
theorem setFragment_escape (u : URL) (f : List Char) (hb : IsBytes f) :
    setFragment u (escape f encodeFragment) =
      .ok { u with Fragment := String.mk f, RawFragment := "" } := by
  unfold setFragment
  rw [unescape_escape encodeFragment (by decide) (by decide) (by decide) f hb]
  simp

/-- The split of the query that `String` writes behind a text without `?`. -/
theorem parseQuery_render (sc body : List Char) (force : Bool) (rq : String)
    (hq : '?' ∉ body) (hforce : force = true → rq = "") :
    parseQuery sc (body ++ (if force = true ∨ rq ≠ "" then '?' :: rq.data else [])) =
      ({ zeroURL with Scheme := String.mk (ToLower sc), ForceQuery := force, RawQuery := rq },
        body) := by
  have hcount : Count body '?' = 0 := by
    unfold Count
    exact List.count_eq_zero.2 hq
  cases force with
  | true =>
    have hrq := hforce rfl
    subst hrq
    simp only [true_or, if_true]
    rw [parseQuery_force]
    · simp [zeroURL]
    · have h1 : HasSuffix (body ++ ['?']) ['?'] = true := by
        simp [HasSuffix]
      have h2 : Count (body ++ ['?']) '?' = 1 := by
        unfold Count at hcount ⊢
        rw [List.count_append, hcount]
        simp
      show (HasSuffix (body ++ ['?']) ['?'] && decide (Count (body ++ ['?']) '?' = 1)) = true
      rw [h1, h2]
      rfl
  | false =>
    by_cases hrq : rq = ""
    · subst hrq
      simp only [Bool.false_eq_true, false_or, ne_eq, not_true_eq_false, if_false,
        List.append_nil]
      rw [parseQuery_cut, Cut_not_mem '?' body hq]
      · rfl
      · have : HasSuffix body ['?'] = false := by
          unfold HasSuffix
          cases hr : body.reverse with
          | nil => rfl
          | cons x t =>
            have hx : x ∈ body := by
              have : x ∈ body.reverse := by rw [hr]; exact List.mem_cons_self _ _
              simpa using this
            have hne : x ≠ '?' := fun h => hq (h ▸ hx)
            simp [List.isPrefixOf, hne.symm]
        rw [this]
        simp
    · have hrd : rq.data ≠ [] := fun h => hrq ((String_eq_empty_iff _).2 h)
      simp only [Bool.false_eq_true, false_or, ne_eq, hrq, not_false_eq_true, if_true]
      rw [parseQuery_cut, Cut_append '?' body rq.data hq]
      · rfl
      · intro h
        rw [Bool.and_eq_true, decide_eq_true_eq] at h
        obtain ⟨h1, h2⟩ := h
        unfold Count at h2 hcount
        rw [List.count_append, hcount, List.count_cons_self, Nat.zero_add] at h2
        have h3 : List.count '?' rq.data = 0 := by omega
        have h4 : '?' ∉ rq.data := List.count_eq_zero.1 h3
        unfold HasSuffix at h1
        rw [List.reverse_append] at h1
        cases hr : rq.data.reverse with
        | nil =>
          have : rq.data = [] := by simpa using hr
          exact hrd this
        | cons x t =>
          have hx : x ∈ rq.data := by
            have : x ∈ rq.data.reverse := by rw [hr]; exact List.mem_cons_self _ _
            simpa using this
          have hne : x ≠ '?' := fun h => h4 (h ▸ hx)
          simp only [List.reverse_cons, hr, List.reverse_nil, List.nil_append,
            List.cons_append, List.singleton_append] at h1
          simp [List.isPrefixOf, hne.symm] at h1

/-- The tail of `parse` on an authority behind `//` and an escaped path. -/
theorem parseRest_authority (url2 : URL) (auth : List Char) (user : Option Userinfo)
    (H p : List Char) (hs : url2.Scheme ≠ "") (hsl : '/' ∉ auth)
    (ha : parseAuthority auth = .ok (user, H)) (hp : p = [] ∨ ∃ x, p = '/' :: x)
    (hb : IsBytes p) :
    parseRest url2 ('/' :: '/' :: (auth ++ escape p encodePath)) =
      .ok { url2 with User := user, Host := String.mk H, Path := String.mk p, RawPath := "" } := by
  unfold parseRest
  have h1 : HasPrefix ('/' :: '/' :: (auth ++ escape p encodePath)) ['/'] = true := by
    simp [HasPrefix]
  have h2 : HasPrefix ('/' :: '/' :: (auth ++ escape p encodePath)) ['/', '/'] = true := by
    simp [HasPrefix]
  simp only [h1, h2, Bool.not_true, Bool.false_eq_true, false_and, if_false, hs, ne_eq,
    not_false_eq_true, true_or, and_self, if_true, List.drop_succ_cons, List.drop_zero]
  rcases hp with hp | ⟨x, hp⟩
  · subst hp
    have he : escape [] encodePath = [] := by simp [escape]
    rw [he, List.append_nil, Cut_not_mem '/' auth hsl]
    simp only [ha, Bool.false_eq_true, if_false]
    have := setPath_escape { url2 with User := user, Host := String.mk H } [] hb
    rw [he] at this
    exact this
  · subst hp
    have he : escape ('/' :: x) encodePath = '/' :: escape x encodePath := by
      rw [escape_cons, if_neg (by decide), if_neg (by decide)]
    rw [he, Cut_append '/' auth _ hsl]
    simp only [ha, if_true]
    have := setPath_escape { url2 with User := user, Host := String.mk H } ('/' :: x) hb
    rw [he] at this
    exact this

/-- The tail of `parse` on an escaped path that begins with one `/`. -/
theorem parseRest_omit (url2 : URL) (p : List Char) (hs : url2.Scheme ≠ "")
    (hp : ∃ x, p = '/' :: x) (hpp : HasPrefix p ['/', '/'] = false) (hb : IsBytes p) :
    parseRest url2 (escape p encodePath) =
      .ok { url2 with OmitHost := true, Path := String.mk p, RawPath := "" } := by
  obtain ⟨x, hp⟩ := hp
  subst hp
  have he : escape ('/' :: x) encodePath = '/' :: escape x encodePath := by
    rw [escape_cons, if_neg (by decide), if_neg (by decide)]
  have hx : HasPrefix (escape x encodePath) ['/'] = false := by
    cases x with
    | nil => simp [escape, HasPrefix]
    | cons y t =>
      have hy : y ≠ '/' := by
        intro h
        subst h
        simp [HasPrefix] at hpp
      rw [escape_cons, if_neg (fun h => absurd h.2 (by decide))]
      split
      · simp [HasPrefix, List.isPrefixOf]
      · simp [HasPrefix, List.isPrefixOf, hy.symm]
  unfold parseRest
  have h1 : HasPrefix (escape ('/' :: x) encodePath) ['/'] = true := by
    rw [he]; simp [HasPrefix]
  have h2 : HasPrefix (escape ('/' :: x) encodePath) ['/', '/'] = false := by
    rw [he]
    simp only [HasPrefix, List.isPrefixOf, beq_self_eq_true, Bool.true_and] at hx ⊢
    exact hx
  simp only [h1, h2, Bool.not_true, Bool.false_eq_true, false_and, and_false, if_false, hs,
    ne_eq, not_false_eq_true, true_and, and_self, if_true]
  have := setPath_escape { url2 with OmitHost := true } ('/' :: x) hb
  exact this

/-- The bytes that `String` writes for the user information: no `/`, `?`, `#` and
no control byte. -/
theorem userText_chars (user : Option Userinfo) :
    ∀ c ∈ userText user, c ≠ '/' ∧ c ≠ '?' ∧ c ≠ '#' ∧
      (decide (c.toNat < 32) || decide (c.toNat = 127)) = false := by
  have key : ∀ l : List Char, ∀ c ∈ escape l encodeUserPassword, c ≠ '/' ∧ c ≠ '?' ∧ c ≠ '#' ∧
      (decide (c.toNat < 32) || decide (c.toNat = 127)) = false :=
    fun l => escape_all encodeUserPassword (by decide)
      (fun c => c ≠ '/' ∧ c ≠ '?' ∧ c ≠ '#' ∧
        (decide (c.toNat < 32) || decide (c.toNat = 127)) = false)
      (by decide) (by decide) (by decide) l
  intro c hc
  cases user with
  | none => simp [userText] at hc
  | some ui =>
    simp only [userText, Userinfo.String, List.mem_append, List.mem_singleton] at hc
    rcases hc with hc | hc
    · split at hc
      · simp only [List.mem_append, List.mem_cons] at hc
        rcases hc with hc | hc | hc
        · exact key _ c hc
        · rw [hc]; decide
        · exact key _ c hc
      · exact key _ c hc
    · rw [hc]; decide

/-- The bytes that `String` writes for the host: no `/`, `?`, `#`, `@` and no
control byte. -/
theorem hostText_chars (H : List Char) :
    ∀ c ∈ escape H encodeHost, c ≠ '/' ∧ c ≠ '?' ∧ c ≠ '#' ∧ c ≠ '@' ∧
      (decide (c.toNat < 32) || decide (c.toNat = 127)) = false :=
  escape_all encodeHost (by decide)
    (fun c => c ≠ '/' ∧ c ≠ '?' ∧ c ≠ '#' ∧ c ≠ '@' ∧
      (decide (c.toNat < 32) || decide (c.toNat = 127)) = false)
    (by decide) (by decide) (by decide) H

/-- The bytes that `String` writes for the path: no `?`, `#` and no control byte. -/
theorem pathText_chars (p : List Char) :
    ∀ c ∈ escape p encodePath, c ≠ '?' ∧ c ≠ '#' ∧
      (decide (c.toNat < 32) || decide (c.toNat = 127)) = false :=
  escape_all encodePath (by decide)
    (fun c => c ≠ '?' ∧ c ≠ '#' ∧
      (decide (c.toNat < 32) || decide (c.toNat = 127)) = false)
    (by decide) (by decide) (by decide) p

/-- The bytes of a scheme: no `?`, `#`, `:` and no control byte. -/
theorem scheme_chars (sc : List Char) (h : lowerScheme sc) :
    ∀ c ∈ sc, c ≠ '?' ∧ c ≠ '#' ∧
      (decide (c.toNat < 32) || decide (c.toNat = 127)) = false :=
  scheme_all
    (fun c => c ≠ '?' ∧ c ≠ '#' ∧
      (decide (c.toNat < 32) || decide (c.toNat = 127)) = false)
    (by decide) sc h

/-- The bytes between the scheme and the query in what `String` writes. -/
theorem renderBody_chars (u : URL) :
    ∀ c ∈ renderBody u, c ≠ '?' ∧ c ≠ '#' ∧
      (decide (c.toNat < 32) || decide (c.toNat = 127)) = false := by
  intro c hc
  unfold renderBody at hc
  rw [List.mem_append] at hc
  rcases hc with hc | hc
  · split at hc
    · simp at hc
    · simp only [List.mem_cons, List.mem_append] at hc
      rcases hc with hc | hc | hc | hc
      · rw [hc]; decide
      · rw [hc]; decide
      · have := userText_chars _ c hc
        exact ⟨this.2.1, this.2.2.1, this.2.2.2⟩
      · have := hostText_chars _ c hc
        exact ⟨this.2.1, this.2.2.1, this.2.2.2.2⟩
  · exact pathText_chars _ c hc

/-- Parsing what `String` writes before the fragment gives the URL without its
fragment. -/
theorem parse_render (u : URL) (hw : WellFormed u) (hrp : u.RawPath = "")
    (hhp : u.Host ≠ "" ∨ u.Path ≠ "")
    (hhost : parseHost (escape u.Host.data encodeHost) = .ok u.Host.data)
    (hom : u.OmitHost = true → HasPrefix u.Path.data ['/', '/'] = false) :
    parse (u.Scheme.data ++ ':' :: (renderBody u ++ renderQuery u)) =
      .ok { u with Fragment := "", RawFragment := "" } := by
  have hsc := hw.scheme
  have hsne : u.Scheme ≠ "" := by
    obtain ⟨⟨c, t, hsc1, -⟩, -⟩ := hsc
    intro h
    rw [h] at hsc1
    cases hsc1
  have hqb : '?' ∉ renderBody u := fun h => (renderBody_chars u '?' h).1 rfl
  have hctl : stringContainsCTLByte
      (u.Scheme.data ++ ':' :: (renderBody u ++ renderQuery u)) = false := by
    unfold stringContainsCTLByte
    rw [List.any_eq_false]
    intro c hc
    have hgoal : ∀ c : Char, (decide (c.toNat < 32) || decide (c.toNat = 127)) = false →
        ¬ (decide (c.toNat < 32) || decide (c.toNat = 127)) = true := by
      intro c h
      rw [h]
      exact Bool.false_ne_true
    apply hgoal
    simp only [List.mem_append, List.mem_cons] at hc
    rcases hc with hc | hc | hc | hc
    · exact (scheme_chars _ hsc c hc).2.2
    · rw [hc]; decide
    · exact (renderBody_chars u c hc).2.2
    · unfold renderQuery at hc
      split at hc
      · rw [List.mem_cons] at hc
        rcases hc with hc | hc
        · rw [hc]; decide
        · have := hw.queryCTL
          unfold stringContainsCTLByte at this
          rw [List.any_eq_false] at this
          have := this c hc
          simpa using this
      · simp at hc
  have hstar : u.Scheme.data ++ ':' :: (renderBody u ++ renderQuery u) ≠ ['*'] := by
    obtain ⟨⟨c, t, hsc1, hlow⟩, -⟩ := hsc
    rw [hsc1]
    intro h
    simp only [List.cons_append, List.cons.injEq] at h
    rw [h.1] at hlow
    exact absurd hlow (by decide)
  rw [parse_eq, hctl, if_neg Bool.false_ne_true, if_neg hstar, getScheme_scheme _ _ hsc]
  simp only []
  have hrq : renderQuery u =
      (if u.ForceQuery = true ∨ u.RawQuery ≠ "" then '?' :: u.RawQuery.data else []) := rfl
  rw [hrq, parseQuery_render u.Scheme.data (renderBody u) u.ForceQuery u.RawQuery hqb hw.force,
    ToLower_scheme _ hsc]
  simp only []
  have hnop := hw.noOpaque
  have hpb := hw.pathBytes
  have hps := hw.pathShape
  have huser := hw.user
  have homit := hw.omitHost
  obtain ⟨Scheme, Opaque, User, Host, Path, RawPath, OmitHost, ForceQuery, RawQuery, Fragment,
    RawFragment⟩ := u
  simp only [] at hnop hpb hps huser homit hrp hhp hhost hom hsne ⊢
  subst hnop hrp
  cases OmitHost with
  | true =>
    obtain ⟨hh, hu⟩ := homit rfl
    subst hh hu
    have hpne : Path ≠ "" := hhp.resolve_left (fun h => h rfl)
    have hx : ∃ x, Path.data = '/' :: x := by
      rcases hps with h | h
      · exact absurd ((String_eq_empty_iff _).2 h) hpne
      · exact h
    have hb : renderBody ⟨Scheme, "", none, "", Path, "", true, ForceQuery, RawQuery, Fragment,
        RawFragment⟩ = escape Path.data encodePath := by
      simp [renderBody]
    rw [hb, parseRest_omit _ Path.data hsne hx (hom rfl) hpb]
    simp [zeroURL]
  | false =>
    have hb : renderBody ⟨Scheme, "", User, Host, Path, "", false, ForceQuery, RawQuery, Fragment,
        RawFragment⟩ =
        '/' :: '/' :: ((userText User ++ escape Host.data encodeHost) ++
          escape Path.data encodePath) := by
      simp [renderBody]
    have hat : '@' ∉ escape Host.data encodeHost :=
      fun h => (hostText_chars _ '@' h).2.2.2.1 rfl
    have hsl : '/' ∉ userText User ++ escape Host.data encodeHost := by
      intro h
      rw [List.mem_append] at h
      rcases h with h | h
      · exact (userText_chars _ '/' h).1 rfl
      · exact (hostText_chars _ '/' h).1 rfl
    rw [hb, parseRest_authority _ _ User Host.data Path.data hsne hsl
      (parseAuthority_print User _ Host.data hhost hat huser) hps hpb]
    simp [zeroURL]

/-- Parsing what `String` writes for a well-formed URL without raw path and raw
fragment, whose host is read back from its escaped text, gives the URL back. -/
theorem Parse_String (u : URL) (hw : WellFormed u) (hrp : u.RawPath = "")
    (hrf : u.RawFragment = "") (hhp : u.Host ≠ "" ∨ u.Path ≠ "")
    (hhost : parseHost (escape u.Host.data encodeHost) = .ok u.Host.data)
    (hom : u.OmitHost = true → HasPrefix u.Path.data ['/', '/'] = false) :
    Parse (URL.String u) = .ok u := by
  rw [String_wellFormed u hw hrp hrf hhp]
  have hpre := parse_render u hw hrp hhp hhost hom
  have hhash : '#' ∉ u.Scheme.data ++ ':' :: (renderBody u ++ renderQuery u) := by
    intro hc
    simp only [List.mem_append, List.mem_cons] at hc
    rcases hc with hc | hc | hc | hc
    · exact (scheme_chars _ hw.scheme '#' hc).2.1 rfl
    · exact absurd hc (by decide)
    · exact (renderBody_chars u '#' hc).2.1 rfl
    · unfold renderQuery at hc
      split at hc
      · rw [List.mem_cons] at hc
        rcases hc with hc | hc
        · exact absurd hc (by decide)
        · exact hw.queryHash hc
      · simp at hc
  unfold Parse
  by_cases hf : u.Fragment = ""
  · have hrfr : renderFragment u = [] := by simp [renderFragment, hf]
    simp only [hrfr, List.append_nil]
    rw [Cut_not_mem '#' _ hhash]
    simp only [hpre, if_true]
    obtain ⟨Scheme, Opaque, User, Host, Path, RawPath, OmitHost, ForceQuery, RawQuery, Fragment,
      RawFragment⟩ := u
    simp only [] at hf hrf
    subst hf hrf
    rfl
  · have hrfr : renderFragment u = '#' :: escape u.Fragment.data encodeFragment := by
      simp [renderFragment, hf]
    have hfe : escape u.Fragment.data encodeFragment ≠ [] := by
      intro h
      exact hf ((String_eq_empty_iff _).2 (escape_eq_nil _ _ h))
    have hassoc : u.Scheme.data ++ ':' :: (renderBody u ++ renderQuery u ++ renderFragment u) =
        (u.Scheme.data ++ ':' :: (renderBody u ++ renderQuery u)) ++
          '#' :: escape u.Fragment.data encodeFragment := by
      rw [hrfr]
      simp
    simp only [hassoc]
    rw [Cut_append '#' _ _ hhash]
    simp only [hpre, hfe, if_false]
    rw [setFragment_escape _ _ hw.fragBytes]
    obtain ⟨Scheme, Opaque, User, Host, Path, RawPath, OmitHost, ForceQuery, RawQuery, Fragment,
      RawFragment⟩ := u
    simp only [] at hrf
    subst hrf
    rfl

/-! ## The normaliser -/

/-- The function `collapseSlashes` at a non-empty text. -/
theorem collapseSlashes_cons (c : Char) (rest : List Char) :
    collapseSlashes (c :: rest) =
      (if c = '/' ∧ HasPrefix rest ['/'] = true then collapseSlashes rest
      else c :: collapseSlashes rest) := by
  conv_lhs => unfold collapseSlashes

/-- Collapsing slashes does not lengthen a text. -/
theorem collapseSlashes_length (l : List Char) : (collapseSlashes l).length ≤ l.length := by
  induction l with
  | nil => simp [collapseSlashes]
  | cons c rest ih =>
    rw [collapseSlashes_cons]
    split
    · simp only [List.length_cons]; omega
    · simp only [List.length_cons]; omega

/-- Every byte of the collapsed text is a byte of the text. -/
theorem collapseSlashes_mem (l : List Char) (x : Char) (h : x ∈ collapseSlashes l) : x ∈ l := by
  induction l with
  | nil => simp [collapseSlashes] at h
  | cons c rest ih =>
    rw [collapseSlashes_cons] at h
    split at h
    · exact List.mem_cons_of_mem _ (ih h)
    · rw [List.mem_cons] at h
      rcases h with h | h
      · rw [h]; exact List.mem_cons_self _ _
      · exact List.mem_cons_of_mem _ (ih h)

/-- Collapsing slashes keeps a leading `/`. -/
theorem collapseSlashes_prefix (l : List Char) (h : HasPrefix l ['/'] = true) :
    ∃ x, collapseSlashes l = '/' :: x := by
  induction l with
  | nil => simp [HasPrefix] at h
  | cons c rest ih =>
    have hc : c = '/' := by
      simp only [HasPrefix, List.isPrefixOf, Bool.and_true, beq_iff_eq] at h
      exact h.symm
    subst hc
    rw [collapseSlashes_cons]
    by_cases hr : HasPrefix rest ['/'] = true
    · rw [if_pos ⟨rfl, hr⟩]
      exact ih hr
    · rw [if_neg (fun hh => hr hh.2)]
      exact ⟨_, rfl⟩

/-- Collapsing slashes keeps the shape of a path: empty, or led by `/`. -/
theorem collapseSlashes_shape (l : List Char) (h : l = [] ∨ ∃ x, l = '/' :: x) :
    collapseSlashes l = [] ∨ ∃ x, collapseSlashes l = '/' :: x := by
  rcases h with h | ⟨x, h⟩
  · left; rw [h]; rfl
  · right
    apply collapseSlashes_prefix
    rw [h]
    simp [HasPrefix]

/-- A text that collapsing leaves unchanged does not begin with `//`. -/
theorem collapseSlashes_fixed (l : List Char) (h : collapseSlashes l = l) :
    HasPrefix l ['/', '/'] = false := by
  match l, h with
  | [], _ => rfl
  | [c], _ => simp [HasPrefix, List.isPrefixOf]
  | a :: b :: t, h =>
    by_cases hab : a = '/' ∧ b = '/'
    · obtain ⟨ha, hb⟩ := hab
      subst ha hb
      rw [collapseSlashes_cons, if_pos ⟨rfl, by simp [HasPrefix]⟩] at h
      have := collapseSlashes_length ('/' :: t)
      rw [h] at this
      simp only [List.length_cons] at this
      omega
    · simp only [HasPrefix, List.isPrefixOf, Bool.and_true, Bool.and_eq_false_imp, beq_iff_eq]
      intro ha
      simp only [beq_eq_false_iff_ne, ne_eq]
      intro hb
      exact hab ⟨ha.symm, hb.symm⟩

/-- The function `lowercaseScheme` as an update of the scheme. -/
theorem lowercaseScheme_eq (u : URL) :
    lowercaseScheme u =
      { u with Scheme := if u.Scheme.length > 0 then String.mk (ToLower u.Scheme.data)
                         else u.Scheme } := by
  unfold lowercaseScheme
  split_ifs
  · rfl
  · cases u; rfl

/-- The function `lowercaseHost` as an update of the host. -/
theorem lowercaseHost_eq (u : URL) :
    lowercaseHost u =
      { u with Host := if u.Host.length > 0 then String.mk (ToLower u.Host.data)
                       else u.Host } := by
  unfold lowercaseHost
  split_ifs
  · rfl
  · cases u; rfl

/-- The function `removeDefaultPort` as an update of the host. -/
theorem removeDefaultPort_eq (u : URL) :
    removeDefaultPort u =
      { u with Host := if u.Host.length > 0 then
                         String.mk (replacePort (ToLower u.Scheme.data) u.Host.data)
                       else u.Host } := by
  unfold removeDefaultPort
  split_ifs
  · rfl
  · cases u; rfl

/-- The function `removeDuplicateSlashes` as an update of the path. -/
theorem removeDuplicateSlashes_eq (u : URL) :
    removeDuplicateSlashes u =
      { u with Path := if u.Path.length > 0 then String.mk (collapseSlashes u.Path.data)
                       else u.Path } := by
  unfold removeDuplicateSlashes
  split_ifs
  · rfl
  · cases u; rfl

/-- The fields of the normalised URL. -/
theorem NormalizeURL_fields (u : URL) :
    (NormalizeURL u).Scheme =
        (if u.Scheme.length > 0 then String.mk (ToLower u.Scheme.data) else u.Scheme) ∧
      (NormalizeURL u).Opaque = u.Opaque ∧ (NormalizeURL u).User = u.User ∧
      (u.Host = "" → (NormalizeURL u).Host = "") ∧
      (NormalizeURL u).Path =
        (if u.Path.length > 0 then String.mk (collapseSlashes u.Path.data) else u.Path) ∧
      (NormalizeURL u).RawPath = "" ∧ (NormalizeURL u).OmitHost = u.OmitHost ∧
      (NormalizeURL u).ForceQuery = u.ForceQuery ∧ (NormalizeURL u).RawQuery = u.RawQuery ∧
      (NormalizeURL u).Fragment = u.Fragment ∧ (NormalizeURL u).RawFragment = "" := by
  unfold NormalizeURL
  rw [removeDuplicateSlashes_eq, removeDefaultPort_eq, lowercaseHost_eq, lowercaseScheme_eq]
  refine ⟨rfl, rfl, rfl, ?_, rfl, rfl, rfl, rfl, rfl, rfl, rfl⟩
  intro hh
  simp only []
  rw [hh]
  have h0 : ¬ ("".length > 0) := by decide
  rw [if_neg h0, if_neg h0]

/-- Normalising keeps a URL well formed. -/
theorem NormalizeURL_wellFormed (u : URL) (hw : WellFormed u) : WellFormed (NormalizeURL u) := by
  obtain ⟨hsch, hop, hus, hho, hpa, hrp, hom, hfq, hrq, hfr, hrf⟩ := NormalizeURL_fields u
  have hscheme : (NormalizeURL u).Scheme = u.Scheme := by
    rw [hsch]
    split_ifs
    · rw [ToLower_scheme _ hw.scheme]
    · rfl
  have hpath : (NormalizeURL u).Path.data = collapseSlashes u.Path.data ∨
      (NormalizeURL u).Path.data = u.Path.data := by
    rw [hpa]
    split_ifs
    · left; rfl
    · right; rfl
  refine ⟨?_, ?_, ?_, ?_, ?_, ?_, ?_, ?_, ?_, ?_⟩
  · rw [hscheme]; exact hw.scheme
  · rw [hop]; exact hw.noOpaque
  · rw [hfq, hrq]; exact hw.force
  · rw [hrq]; exact hw.queryHash
  · rw [hrq]; exact hw.queryCTL
  · rcases hpath with h | h
    · rw [h]; exact collapseSlashes_shape _ hw.pathShape
    · rw [h]; exact hw.pathShape
  · rcases hpath with h | h
    · rw [h]
      intro c hc
      exact hw.pathBytes c (collapseSlashes_mem _ c hc)
    · rw [h]; exact hw.pathBytes
  · rw [hfr]; exact hw.fragBytes
  · rw [hus]; exact hw.user
  · rw [hom, hus]
    intro h
    obtain ⟨h1, h2⟩ := hw.omitHost h
    exact ⟨hho h1, h2⟩

/-- A URL that the normaliser leaves unchanged has no raw path, no raw fragment, and
a path that does not begin with `//`. -/
theorem NormalizeURL_fixed (u : URL) (h : NormalizeURL u = u) :
    u.RawPath = "" ∧ u.RawFragment = "" ∧ HasPrefix u.Path.data ['/', '/'] = false := by
  obtain ⟨-, -, -, -, hpa, hrp, -, -, -, -, hrf⟩ := NormalizeURL_fields u
  rw [h] at hpa hrp hrf
  refine ⟨hrp, hrf, ?_⟩
  by_cases hl : u.Path.length > 0
  · rw [if_pos hl] at hpa
    apply collapseSlashes_fixed
    have := congrArg String.data hpa
    exact this.symm
  · have : u.Path.data = [] := by
      have h0 : u.Path.data.length = 0 := by
        have : u.Path.length = u.Path.data.length := rfl
        omega
      exact List.length_eq_zero.mp h0
    rw [this]
    rfl

/-! ## Resolving a URL against itself -/

/-- The function `Split` at a byte that is not the separator. -/
theorem Split_cons_ne (sep c : Char) (l : List Char) (h : c ≠ sep) :
    ∃ seg segs, Split sep l = seg :: segs ∧ Split sep (c :: l) = (c :: seg) :: segs := by
  cases hs : Split sep l with
  | nil => exact absurd hs (Split_ne_nil sep l)
  | cons seg segs =>
    refine ⟨seg, segs, rfl, ?_⟩
    conv_lhs => unfold Split
    rw [if_neg h, hs]

/-- The function `Split` at the separator. -/
theorem Split_cons_sep (sep : Char) (l : List Char) :
    Split sep (sep :: l) = [] :: Split sep l := by
  conv_lhs => unfold Split
  rw [if_pos rfl]

/-- Every segment behind a separator, put together, is the text behind a separator. -/
theorem join_Split (sep : Char) (l : List Char) :
    ((Split sep l).map (fun seg => sep :: seg)).flatten = sep :: l := by
  induction l with
  | nil => simp [Split]
  | cons c cs ih =>
    by_cases hc : c = sep
    · subst hc
      rw [Split_cons_sep]
      simp only [List.map_cons, List.flatten_cons, ih]
      rfl
    · obtain ⟨seg, segs, h1, h2⟩ := Split_cons_ne sep c cs hc
      rw [h2]
      rw [h1] at ih
      simp only [List.map_cons, List.flatten_cons, List.cons_append, List.cons.injEq, true_and] at ih ⊢
      rw [ih]

/-- The last element of a non-empty list is one of its elements. -/
theorem getLastD_mem (l : List (List Char)) (d : List Char) (h : l ≠ []) : l.getLastD d ∈ l := by
  induction l generalizing d with
  | nil => exact absurd rfl h
  | cons a t ih =>
    rw [List.getLastD_cons]
    cases t with
    | nil => simp
    | cons b t2 => exact List.mem_cons_of_mem _ (ih a (List.cons_ne_nil _ _))

/-- The loop of `resolvePath` over segments none of which is `.` or `..`, once the
first element is written. -/
theorem foldl_resolveStep (segs : List (List Char)) (acc : List Char)
    (h : ∀ seg ∈ segs, seg ≠ ['.'] ∧ seg ≠ ['.', '.']) :
    segs.foldl resolveStep (acc, false) =
      (acc ++ (segs.map (fun seg => '/' :: seg)).flatten, false) := by
  induction segs generalizing acc with
  | nil => simp
  | cons seg rest ih =>
    have hseg := h seg (List.mem_cons_self _ _)
    have hrest : ∀ s ∈ rest, s ≠ ['.'] ∧ s ≠ ['.', '.'] :=
      fun s hs => h s (List.mem_cons_of_mem _ hs)
    rw [List.foldl_cons]
    have hstep : resolveStep (acc, false) seg = (acc ++ '/' :: seg, false) := by
      unfold resolveStep
      rw [if_neg hseg.1, if_neg hseg.2]
      simp
    rw [hstep, ih _ hrest]
    simp

/-- Resolving the empty reference against a path without `.` and `..` segments
gives the path. -/
theorem resolvePath_self (p : List Char) (hs : p = [] ∨ ∃ x, p = '/' :: x)
    (hd : noDotSegments p) : resolvePath p [] = p := by
  rcases hs with hs | ⟨x, hs⟩
  · subst hs
    simp [resolvePath]
  · subst hs
    have hsplit : Split '/' ('/' :: x) = [] :: Split '/' x := Split_cons_sep '/' x
    have hdx : ∀ seg ∈ Split '/' x, seg ≠ ['.'] ∧ seg ≠ ['.', '.'] := by
      intro seg hseg
      apply hd
      rw [hsplit]
      exact List.mem_cons_of_mem _ hseg
    have hfold : (Split '/' ('/' :: x)).foldl resolveStep ([], true) = ('/' :: x, false) := by
      rw [hsplit, List.foldl_cons]
      have h0 : resolveStep ([], true) [] = ([], false) := by
        unfold resolveStep
        simp
      rw [h0, foldl_resolveStep _ _ hdx, join_Split]
      rfl
    have hlast : (Split '/' ('/' :: x)).getLastD [] ≠ ['.'] ∧
        (Split '/' ('/' :: x)).getLastD [] ≠ ['.', '.'] := by
      apply hd
      exact getLastD_mem _ [] (Split_ne_nil '/' ('/' :: x))
    unfold resolvePath
    simp only [if_true, List.cons_ne_nil, if_false, hfold]
    rw [if_neg (by
      intro h
      rcases h with h | h
      · exact hlast.1 h
      · exact hlast.2 h)]
    simp

/-- What `escape` writes for one byte of a path. -/
theorem escape_cons_pre (c : Char) :
    ∃ pre, (c ≠ '/' → '/' ∉ pre) ∧
      ∀ rest, escape (c :: rest) encodePath = pre ++ escape rest encodePath := by
  by_cases hs : shouldEscape c encodePath = true
  · refine ⟨['%', upperhex (c.toNat / 16 % 16), upperhex (c.toNat % 16)], ?_, ?_⟩
    · intro _ h
      have h1 := upperhex_mem (c.toNat / 16 % 16)
      have h2 := upperhex_mem (c.toNat % 16)
      have hall : ∀ x ∈ "0123456789ABCDEF".data, x ≠ '/' := by decide
      simp only [List.mem_cons, List.mem_singleton, List.not_mem_nil, or_false] at h
      rcases h with h | h | h
      · exact absurd h (by decide)
      · exact hall _ h1 h.symm
      · exact hall _ h2 h.symm
    · intro rest
      rw [escape_cons, if_neg (fun h => absurd h.2 (by decide)), if_pos hs]
      rfl
  · refine ⟨[c], ?_, ?_⟩
    · intro hc h
      rw [List.mem_singleton] at h
      exact hc h.symm
    · intro rest
      rw [escape_cons, if_neg (fun h => absurd h.2 (by decide)), if_neg hs]
      rfl

/-- The function `Split` behind a text without the separator. -/
theorem Split_append_ne (sep : Char) (pre l : List Char) (h : sep ∉ pre) :
    ∃ seg segs, Split sep l = seg :: segs ∧ Split sep (pre ++ l) = (pre ++ seg) :: segs := by
  induction pre with
  | nil =>
    cases hs : Split sep l with
    | nil => exact absurd hs (Split_ne_nil sep l)
    | cons seg segs => exact ⟨seg, segs, rfl, hs⟩
  | cons c t ih =>
    have hc : c ≠ sep := fun hh => h (by rw [hh]; exact List.mem_cons_self _ _)
    have ht : sep ∉ t := fun hh => h (List.mem_cons_of_mem _ hh)
    obtain ⟨seg, segs, h1, h2⟩ := ih ht
    obtain ⟨seg2, segs2, h3, h4⟩ := Split_cons_ne sep c (t ++ l) hc
    rw [h2] at h3
    simp only [List.cons.injEq] at h3
    refine ⟨seg, segs, h1, ?_⟩
    rw [List.cons_append, h4, ← h3.1, ← h3.2]
    rfl

/-- The segments of an escaped path are the escaped segments of the path. -/
theorem Split_escape (l : List Char) :
    Split '/' (escape l encodePath) = (Split '/' l).map (fun seg => escape seg encodePath) := by
  induction l with
  | nil => simp [escape, Split]
  | cons c rest ih =>
    by_cases hc : c = '/'
    · subst hc
      have he : escape ('/' :: rest) encodePath = '/' :: escape rest encodePath := by
        rw [escape_cons, if_neg (by decide), if_neg (by decide)]
      rw [he, Split_cons_sep, Split_cons_sep, ih]
      simp [escape]
    · obtain ⟨pre, hpre, hesc⟩ := escape_cons_pre c
      obtain ⟨seg, segs, h1, h2⟩ := Split_cons_ne '/' c rest hc
      obtain ⟨seg2, segs2, h3, h4⟩ := Split_append_ne '/' pre (escape rest encodePath) (hpre hc)
      rw [hesc rest, h4, h2]
      rw [ih, h1] at h3
      simp only [List.map_cons, List.cons.injEq] at h3
      simp only [List.map_cons, List.cons.injEq]
      rw [hesc seg, ← h3.1, ← h3.2]
      exact ⟨rfl, rfl⟩

/-- Only `.` is escaped as `.`. -/
theorem escape_eq_dot (l : List Char) (h : escape l encodePath = ['.']) : l = ['.'] := by
  cases l with
  | nil => simp [escape] at h
  | cons c t =>
    rw [escape_cons, if_neg (fun h => absurd h.2 (by decide))] at h
    split at h
    · simp at h
    · simp only [List.cons.injEq] at h
      rw [h.1, escape_eq_nil _ _ h.2]

/-- Only `..` is escaped as `..`. -/
theorem escape_eq_dotdot (l : List Char) (h : escape l encodePath = ['.', '.']) :
    l = ['.', '.'] := by
  cases l with
  | nil => simp [escape] at h
  | cons c t =>
    rw [escape_cons, if_neg (fun h => absurd h.2 (by decide))] at h
    split at h
    · simp at h
    · simp only [List.cons.injEq] at h
      rw [h.1, escape_eq_dot _ h.2]

/-- Escaping a path brings in no `.` and `..` segments. -/
theorem noDotSegments_escape (p : List Char) (h : noDotSegments p) :
    noDotSegments (escape p encodePath) := by
  intro seg hseg
  rw [Split_escape, List.mem_map] at hseg
  obtain ⟨s0, hs0, hs1⟩ := hseg
  have := h s0 hs0
  constructor
  · intro hh
    rw [hh] at hs1
    exact this.1 (escape_eq_dot _ hs1)
  · intro hh
    rw [hh] at hs1
    exact this.2 (escape_eq_dotdot _ hs1)

/-- Resolving a well-formed URL without raw path, whose path has no `.` and `..`
segments, against itself gives the URL. -/
theorem ResolveReference_self (u : URL) (hw : WellFormed u) (hrp : u.RawPath = "")
    (hd : noDotSegments u.Path.data) : ResolveReference u u = u := by
  have hsne : u.Scheme ≠ "" := by
    obtain ⟨⟨c, t, hsc, -⟩, -⟩ := hw.scheme
    intro h
    rw [h] at hsc
    cases hsc
  have hstar : u.Path ≠ "*" := by
    intro h
    have hsh := hw.pathShape
    rw [h] at hsh
    rcases hsh with hsh | ⟨x, hsh⟩ <;> cases hsh
  have hep : EscapedPath u = escape u.Path.data encodePath := by
    unfold EscapedPath
    simp [hrp, hstar]
  unfold ResolveReference
  simp only [hsne, if_false, ne_eq, not_false_eq_true, true_or, if_true, hep]
  rw [resolvePath_self _ (escape_path_shape _ hw.pathShape) (noDotSegments_escape _ hd),
    setPath_escape _ _ hw.pathBytes]
  obtain ⟨Scheme, Opaque, User, Host, Path, RawPath, OmitHost, ForceQuery, RawQuery, Fragment,
    RawFragment⟩ := u
  simp only [] at hrp
  subst hrp
  rfl

/-! ## Hosts of ASCII bytes -/

/-- The function `escape` on a text in two parts. -/
theorem escape_append (m : encoding) (a b : List Char) :
    escape (a ++ b) m = escape a m ++ escape b m := by
  induction a with
  | nil => simp [escape]
  | cons c t ih =>
    rw [List.cons_append, escape_cons, escape_cons, ih]
    split_ifs <;> simp

/-- A host text that `unescape` accepts and that decodes to ASCII bytes is the
escaped form of what it decodes to. -/
theorem escape_unescapeDecode_host :
    ∀ (n : Nat) (l : List Char), l.length ≤ n → unescapeCheck encodeHost l = none →
      IsASCII (unescapeDecode encodeHost l) →
      escape (unescapeDecode encodeHost l) encodeHost = l := by
  intro n
  induction n with
  | zero =>
    intro l hl _ _
    have : l = [] := List.length_eq_zero.mp (by omega)
    rw [this]
    simp [unescapeDecode, escape]
  | succ n ih =>
    intro l hl hc ha
    cases l with
    | nil => simp [unescapeDecode, escape]
    | cons x rest =>
      have hq : encodeHost ≠ encodeQueryComponent := by decide
      by_cases hx : x = '%'
      · subst hx
        cases rest with
        | nil =>
          unfold unescapeCheck at hc
          simp at hc
        | cons a rest1 =>
          cases rest1 with
          | nil =>
            unfold unescapeCheck at hc
            simp at hc
          | cons b rest2 =>
            rw [unescapeCheck_percent] at hc
            rw [unescapeDecode_percent] at ha ⊢
            have hv := ha _ (List.mem_cons_self _ _)
            split at hc
            · cases hc
            · split at hc
              · cases hc
              · rename_i hhex hcond
                split at hc
                · cases hc
                · simp only [true_and, not_and, not_not] at hcond
                  have hua := unhex_lt a
                  have hub := unhex_lt b
                  have h25 : a = '2' ∧ b = '5' := by
                    by_cases hlt : unhex a < 8
                    · have h25 := hcond hlt
                      simp only [List.cons.injEq, and_true, true_and] at h25
                      exact h25
                    · rw [toNat_ofNat_byte _ (by omega)] at hv
                      omega
                  obtain ⟨h2, h5⟩ := h25
                  subst h2 h5
                  have hd : Char.ofNat (unhex '2' * 16 + unhex '5') = '%' := by decide
                  rw [hd, escape_cons, if_neg (fun h => hq h.2),
                    if_pos (shouldEscape_percent _)]
                  have hrest := ih rest2 (by simp only [List.length_cons] at hl; omega) hc
                    (fun c hcm => ha c (List.mem_cons_of_mem _ hcm))
                  rw [hrest]
                  have h1 : upperhex ('%'.toNat / 16 % 16) = '2' := by decide
                  have h2 : upperhex ('%'.toNat % 16) = '5' := by decide
                  rw [h1, h2]
      · rw [unescapeCheck_other _ _ _ hx] at hc
        rw [unescapeDecode_other _ _ _ hx] at ha ⊢
        have hlen : rest.length ≤ n := by simp only [List.length_cons] at hl; omega
        by_cases hplus : x = '+'
        · rw [if_pos hplus] at hc ha ⊢
          rw [if_neg hq] at ha ⊢
          rw [escape_cons, if_neg (fun h => hq h.2), if_neg (by decide),
            ih rest hlen hc (fun c hcm => ha c (List.mem_cons_of_mem _ hcm)), hplus]
        · rw [if_neg hplus] at hc ha ⊢
          split at hc
          · cases hc
          · rename_i hcond
            have hxa := ha x (List.mem_cons_self _ _)
            have hse : ¬ shouldEscape x encodeHost = true := by
              intro hse
              exact hcond ⟨Or.inl rfl, hxa, hse⟩
            rw [escape_cons, if_neg (fun h => hq h.2), if_neg hse,
              ih rest hlen hc (fun c hcm => ha c (List.mem_cons_of_mem _ hcm))]

/-- The bytes that a zone accepted by `unescape` decodes to, when they are ASCII:
`%`, a blank, or a byte that `escape` leaves alone in a host. -/
theorem unescapeDecode_zone_safe :
    ∀ (n : Nat) (l : List Char), l.length ≤ n → unescapeCheck encodeZone l = none →
      IsASCII (unescapeDecode encodeZone l) →
      ∀ c ∈ unescapeDecode encodeZone l,
        c = '%' ∨ c = ' ' ∨ shouldEscape c encodeHost = false := by
  intro n
  induction n with
  | zero =>
    intro l hl _ _
    have : l = [] := List.length_eq_zero.mp (by omega)
    rw [this]
    simp [unescapeDecode]
  | succ n ih =>
    intro l hl hc ha
    cases l with
    | nil => simp [unescapeDecode]
    | cons x rest =>
      have hq : encodeZone ≠ encodeQueryComponent := by decide
      by_cases hx : x = '%'
      · subst hx
        cases rest with
        | nil =>
          unfold unescapeCheck at hc
          simp at hc
        | cons a rest1 =>
          cases rest1 with
          | nil =>
            unfold unescapeCheck at hc
            simp at hc
          | cons b rest2 =>
            rw [unescapeCheck_percent] at hc
            rw [unescapeDecode_percent] at ha ⊢
            split at hc
            · cases hc
            · split at hc
              · cases hc
              · split at hc
                · cases hc
                · rename_i hcond
                  have hrest := ih rest2 (by simp only [List.length_cons] at hl; omega) hc
                    (fun c hcm => ha c (List.mem_cons_of_mem _ hcm))
                  intro c hcm
                  rw [List.mem_cons] at hcm
                  rcases hcm with hcm | hcm
                  · subst hcm
                    simp only [true_and, not_and, not_not] at hcond
                    by_cases h25 : ['%', a, b] = ['%', '2', '5']
                    · left
                      simp only [List.cons.injEq, and_true, true_and] at h25
                      rw [h25.1, h25.2]
                      decide
                    · by_cases hsp : Char.ofNat (unhex a * 16 + unhex b) = ' '
                      · right; left; exact hsp
                      · right; right
                        have := hcond h25 hsp
                        simpa using this
                  · exact hrest c hcm
      · rw [unescapeCheck_other _ _ _ hx] at hc
        rw [unescapeDecode_other _ _ _ hx] at ha ⊢
        have hlen : rest.length ≤ n := by simp only [List.length_cons] at hl; omega
        by_cases hplus : x = '+'
        · rw [if_pos hplus] at hc ha ⊢
          rw [if_neg hq] at ha ⊢
          have hrest := ih rest hlen hc (fun c hcm => ha c (List.mem_cons_of_mem _ hcm))
          intro c hcm
          rw [List.mem_cons] at hcm
          rcases hcm with hcm | hcm
          · right; right; rw [hcm]; decide
          · exact hrest c hcm
        · rw [if_neg hplus] at hc ha ⊢
          split at hc
          · cases hc
          · rename_i hcond
            have hxa := ha x (List.mem_cons_self _ _)
            have hrest := ih rest hlen hc (fun c hcm => ha c (List.mem_cons_of_mem _ hcm))
            intro c hcm
            rw [List.mem_cons] at hcm
            rcases hcm with hcm | hcm
            · right; right
              rw [hcm]
              by_contra hse
              exact hcond ⟨Or.inr rfl, hxa, by simpa using hse⟩
            · exact hrest c hcm

/-- A zone of such bytes, escaped as a host, is read back in zone mode. -/
theorem unescape_escape_zone (D : List Char) (hb : IsBytes D)
    (hs : ∀ c ∈ D, c = '%' ∨ c = ' ' ∨ shouldEscape c encodeHost = false) :
    unescapeCheck encodeZone (escape D encodeHost) = none ∧
      unescapeDecode encodeZone (escape D encodeHost) = D := by
  induction D with
  | nil => simp [escape, unescapeCheck, unescapeDecode]
  | cons c rest ih =>
    have hq : encodeHost ≠ encodeQueryComponent := by decide
    have hcb := hb c (List.mem_cons_self _ _)
    obtain ⟨ih1, ih2⟩ := ih (fun x hx => hb x (List.mem_cons_of_mem _ hx))
      (fun x hx => hs x (List.mem_cons_of_mem _ hx))
    have hc := hs c (List.mem_cons_self _ _)
    rw [escape_cons, if_neg (fun h => hq h.2)]
    by_cases hse : shouldEscape c encodeHost = true
    · rw [if_pos hse, unescapeCheck_percent, unescapeDecode_percent, decode_escape_char c hcb,
        ih2]
      refine ⟨?_, rfl⟩
      rw [ishex_upperhex, ishex_upperhex]
      simp only [Bool.not_true, Bool.or_self, Bool.false_eq_true, if_false]
      rw [if_neg (fun h => absurd h.1 (by decide))]
      have hz : ¬ (True ∧
          ['%', upperhex (c.toNat / 16 % 16), upperhex (c.toNat % 16)] ≠ ['%', '2', '5'] ∧
          c ≠ ' ' ∧ shouldEscape c encodeHost = true) := by
        rintro ⟨-, h1, h2, -⟩
        rcases hc with hc | hc | hc
        · subst hc
          exact h1 (by decide)
        · exact h2 hc
        · rw [hc] at hse; cases hse
      rw [if_neg hz]
      exact ih1
    · rw [if_neg hse]
      have hcp : c ≠ '%' := by
        intro h
        rw [h] at hse
        exact hse (shouldEscape_percent _)
      rw [unescapeCheck_other _ _ _ hcp, unescapeDecode_other _ _ _ hcp, ih2]
      have hqz : encodeZone ≠ encodeQueryComponent := by decide
      constructor
      · by_cases hplus : c = '+'
        · rw [if_pos hplus]; exact ih1
        · rw [if_neg hplus, if_neg (fun h => hse h.2.2)]
          exact ih1
      · by_cases hplus : c = '+'
        · rw [if_pos hplus, if_neg hqz, hplus]
        · rw [if_neg hplus]

/-- What `cutZone` returns, put together again. -/
theorem cutZone_spec (l h1 z : List Char) (h : cutZone l = some (h1, z)) :
    l = h1 ++ z ∧ HasPrefix z ['%', '2', '5'] = true := by
  induction l generalizing h1 with
  | nil => simp [cutZone] at h
  | cons c rest ih =>
    unfold cutZone at h
    split at h
    · rename_i hpre
      simp only [Option.some.injEq, Prod.mk.injEq] at h
      obtain ⟨ha, hb⟩ := h
      subst ha hb
      exact ⟨rfl, hpre⟩
    · split at h
      · cases h
      · rename_i a b hab
        simp only [Option.some.injEq, Prod.mk.injEq] at h
        obtain ⟨ha, hb⟩ := h
        subst ha hb
        obtain ⟨h1, h2⟩ := ih a hab
        exact ⟨by rw [h1]; rfl, h2⟩

/-- An escape in a host text that decodes to ASCII bytes is `%25`. -/
theorem host_percent_25 (t : List Char) (hc : unescapeCheck encodeHost ('%' :: t) = none)
    (ha : IsASCII (unescapeDecode encodeHost ('%' :: t))) : ∃ t2, t = '2' :: '5' :: t2 := by
  cases t with
  | nil =>
    unfold unescapeCheck at hc
    simp at hc
  | cons a rest1 =>
    cases rest1 with
    | nil =>
      unfold unescapeCheck at hc
      simp at hc
    | cons b rest2 =>
      rw [unescapeCheck_percent] at hc
      rw [unescapeDecode_percent] at ha
      have hv := ha _ (List.mem_cons_self _ _)
      split at hc
      · cases hc
      · split at hc
        · cases hc
        · rename_i hhex hcond
          simp only [true_and, not_and, not_not] at hcond
          have hua := unhex_lt a
          have hub := unhex_lt b
          have h25 : a = '2' ∧ b = '5' := by
            by_cases hlt : unhex a < 8
            · have h25 := hcond hlt
              simp only [List.cons.injEq, and_true, true_and] at h25
              exact h25
            · rw [toNat_ofNat_byte _ (by omega)] at hv
              omega
          exact ⟨rest2, by rw [h25.1, h25.2]⟩

/-- The text before the zone of a host that decodes to ASCII bytes has no `%`. -/
theorem cutZone_no_percent (l h1 z : List Char) (h : cutZone l = some (h1, z))
    (hc : unescapeCheck encodeHost h1 = none) (ha : IsASCII (unescapeDecode encodeHost h1)) :
    '%' ∉ h1 := by
  induction l generalizing h1 with
  | nil => simp [cutZone] at h
  | cons c rest ih =>
    have hspec := cutZone_spec _ _ _ h
    unfold cutZone at h
    split at h
    · simp only [Option.some.injEq, Prod.mk.injEq] at h
      rw [← h.1]
      simp
    · rename_i hpre
      split at h
      · cases h
      · rename_i a b hab
        simp only [Option.some.injEq, Prod.mk.injEq] at h
        obtain ⟨h1e, hb⟩ := h
        subst h1e hb
        have hcp : c ≠ '%' := by
          intro hh
          subst hh
          obtain ⟨t2, ht2⟩ := host_percent_25 a hc ha
          rw [ht2] at hspec
          apply hpre
          rw [hspec.1]
          simp [HasPrefix, List.isPrefixOf]
        rw [unescapeCheck_other _ _ _ hcp] at hc
        rw [unescapeDecode_other _ _ _ hcp] at ha
        have hc2 : unescapeCheck encodeHost a = none := by
          split at hc
          · exact hc
          · split at hc
            · cases hc
            · exact hc
        have ha2 : IsASCII (unescapeDecode encodeHost a) := by
          intro x hx
          apply ha
          split
          · exact List.mem_cons_of_mem _ hx
          · exact List.mem_cons_of_mem _ hx
        have := ih a hab hc2 ha2
        intro hm
        rw [List.mem_cons] at hm
        rcases hm with hm | hm
        · exact hcp hm.symm
        · exact this hm

/-- The zone behind a text without `%` is found at the end of that text. -/
theorem cutZone_append (h1 z : List Char) (hp : '%' ∉ h1)
    (hz : HasPrefix z ['%', '2', '5'] = true) : cutZone (h1 ++ z) = some (h1, z) := by
  induction h1 with
  | nil =>
    cases z with
    | nil => simp [HasPrefix, List.isPrefixOf] at hz
    | cons c rest =>
      rw [List.nil_append]
      unfold cutZone
      rw [if_pos hz]
  | cons c t ih =>
    have hc : c ≠ '%' := fun hh => hp (by rw [hh]; exact List.mem_cons_self _ _)
    have ht : '%' ∉ t := fun hh => hp (List.mem_cons_of_mem _ hh)
    rw [List.cons_append]
    unfold cutZone
    have hpre : ¬ HasPrefix (c :: (t ++ z)) ['%', '2', '5'] = true := by
      simp [HasPrefix, List.isPrefixOf, hc.symm]
    rw [if_neg hpre, ih ht]

/-- A host of ASCII bytes that `parseHost` returns is read back from the text that
`escape` writes for it. -/
theorem parseHost_escape_ascii (h0 H : List Char) (h : parseHost h0 = .ok H) (ha : IsASCII H) :
    parseHost (escape H encodeHost) = .ok H := by
  have key : unescape h0 encodeHost = .ok H → escape H encodeHost = h0 := by
    intro hu
    obtain ⟨hd, hc⟩ := unescape_ok _ _ _ hu
    rw [hd]
    exact escape_unescapeDecode_host _ h0 (Nat.le_refl _) hc (by rw [← hd]; exact ha)
  have hcopy := h
  unfold parseHost at h
  split at h
  · rename_i hpre
    split at h
    · cases h
    · rename_i before colonPort hcl
      split at h
      · cases h
      · rename_i hvp
        split at h
        · rename_i h1 z hz
          split at h
          · cases h
          · rename_i host1 hh1
            split at h
            · cases h
            · rename_i host2 hh2
              split at h
              · cases h
              · rename_i host3 hh3
                simp only [Except.ok.injEq] at h
                obtain ⟨hh0, hnc⟩ := cutLast_spec ']' h0 before colonPort hcl
                obtain ⟨hbz, hzp⟩ := cutZone_spec before h1 z hz
                obtain ⟨z2, hz2⟩ := cutZone_some _ _ _ hz
                obtain ⟨hd1, hc1⟩ := unescape_ok _ _ _ hh1
                obtain ⟨hd2, hc2⟩ := unescape_ok _ _ _ hh2
                obtain ⟨hd3, hc3⟩ := unescape_ok _ _ _ hh3
                have ha1 : IsASCII host1 := by
                  intro c hc; apply ha; rw [← h]; simp [hc]
                have ha2 : IsASCII host2 := by
                  intro c hc; apply ha; rw [← h]; simp [hc]
                have ha3 : IsASCII host3 := by
                  intro c hc; apply ha; rw [← h]; simp [hc]
                have hnp : '%' ∉ h1 :=
                  cutZone_no_percent before h1 z hz hc1 (by rw [← hd1]; exact ha1)
                have he1 : escape host1 encodeHost = h1 := by
                  rw [hd1]
                  exact escape_unescapeDecode_host _ h1 (Nat.le_refl _) hc1
                    (by rw [← hd1]; exact ha1)
                have he3 : escape host3 encodeHost = ']' :: colonPort := by
                  rw [hd3]
                  exact escape_unescapeDecode_host _ _ (Nat.le_refl _) hc3
                    (by rw [← hd3]; exact ha3)
                have hs2 := unescapeDecode_zone_safe _ z (Nat.le_refl _) hc2
                  (by rw [← hd2]; exact ha2)
                rw [← hd2] at hs2
                have hb2 : IsBytes host2 := fun c hc => by
                  have := ha2 c hc
                  omega
                obtain ⟨hzc, hzd⟩ := unescape_escape_zone host2 hb2 hs2
                have hE2 : HasPrefix (escape host2 encodeHost) ['%', '2', '5'] = true := by
                  rw [hd2, hz2, unescapeDecode_percent]
                  have hd : Char.ofNat (unhex '2' * 16 + unhex '5') = '%' := by decide
                  rw [hd, escape_cons, if_neg (fun h => absurd h.2 (by decide)),
                    if_pos (shouldEscape_percent _)]
                  have h1 : upperhex ('%'.toNat / 16 % 16) = '2' := by decide
                  have h2 : upperhex ('%'.toNat % 16) = '5' := by decide
                  rw [h1, h2]
                  simp [HasPrefix, List.isPrefixOf]
                have hpre2 : HasPrefix (h1 ++ escape host2 encodeHost ++ ']' :: colonPort) ['[']
                    = true := by
                  rw [hh0, hbz] at hpre
                  cases h1 with
                  | nil =>
                    rw [hz2] at hpre
                    simp [HasPrefix, List.isPrefixOf] at hpre
                  | cons c t =>
                    simp only [HasPrefix, List.cons_append, List.isPrefixOf, Bool.and_true]
                      at hpre ⊢
                    exact hpre
                rw [← h, escape_append, escape_append, he1, he3]
                unfold parseHost
                rw [if_pos hpre2, cutLast_append ']' _ colonPort hnc]
                simp only []
                rw [if_neg hvp, cutZone_append h1 _ hnp hE2]
                simp only [hh1, hh3]
                have hu2 : unescape (escape host2 encodeHost) encodeZone = .ok host2 := by
                  unfold unescape
                  rw [hzc, hzd]
                rw [hu2]
        · rw [key h]; exact hcopy
  · split at h
    · split at h
      · cases h
      · rw [key h]; exact hcopy
    · rw [key h]; exact hcopy

/-! ## Parsing again what was rendered -/

/-- The function `New` depends on its text through the normalised parsed URL only. -/
theorem New_congr (L : Lib) (s1 s2 : String) (u1 u2 : URL) (h1 : L.urlParse s1 = .ok u1)
    (h2 : L.urlParse s2 = .ok u2) (hn : L.normalizeURL u1 = L.normalizeURL u2) :
    New L s1 = New L s2 := by
  unfold New Ref.parse
  rw [h1, h2]
  simp only [hn]

/-- The URL of a canonical reference that `New` returns has a scheme, and a host or
a path. -/
theorem canonical_fields (L : Lib) (s : String) (r : Ref) (h : New L s = (r, none))
    (hc : r.IsCanonical = true) :
    ∃ parsed, L.urlParse s = .ok parsed ∧ r.ReferenceURL = some (L.normalizeURL parsed) ∧
      (L.normalizeURL parsed).Scheme ≠ "" ∧
      ((L.normalizeURL parsed).Host ≠ "" ∨ (L.normalizeURL parsed).Path ≠ "") := by
  obtain ⟨parsed, hp, hu, -, hfull, -, -, hfile, hpath⟩ := New_ok_fields L s r h
  refine ⟨parsed, hp, hu, ?_⟩
  unfold Ref.IsCanonical at hc
  rw [Bool.or_eq_true, Bool.and_eq_true, Bool.and_eq_true] at hc
  rcases hc with ⟨h1, h2⟩ | ⟨-, h2⟩
  · rw [hfile, decide_eq_true_eq] at h1
    rw [hpath] at h2
    constructor
    · rw [h1]; decide
    · right
      intro hp0
      rw [hp0] at h2
      exact absurd h2 (by decide)
  · rw [hfull, decide_eq_true_eq] at h2
    exact ⟨h2.1, Or.inl h2.2⟩

/-- What `url.Parse` returned for a canonical reference, when the normaliser leaves
it unchanged and its host has ASCII bytes only, is read back from its `String`. -/
theorem Parse_String_normalized (s : String) (u : URL) (r : Ref) (hb : IsBytes s.data)
    (hp : NetURL.Parse s = .ok u) (hn : Internal.NormalizeURL u = u)
    (h : New goLib s = (r, none)) (hc : r.IsCanonical = true) (hh : IsASCII u.Host.data) :
    r.ReferenceURL = some u ∧ NetURL.Parse (URL.String u) = .ok u := by
  obtain ⟨parsed, hp2, hu, hs, hhp⟩ := canonical_fields goLib s r h hc
  have hpe : parsed = u := by
    have : NetURL.Parse s = .ok parsed := hp2
    rw [hp] at this
    exact (Except.ok.inj this).symm
  subst hpe
  have hn2 : goLib.normalizeURL parsed = parsed := hn
  rw [hn2] at hu hs hhp
  obtain ⟨hw, h0, hh0⟩ := Parse_wellFormed s parsed hp hb hs hhp
  obtain ⟨hrp, hrf, hpp⟩ := NormalizeURL_fixed parsed hn
  exact ⟨hu, Parse_String parsed hw hrp hrf hhp (parseHost_escape_ascii h0 _ hh0 hh)
    (fun _ => hpp)⟩

/-- The normalised URL of a canonical reference that `New` returns for a text of
bytes is well formed. -/
theorem New_wellFormed (s : String) (parent : Ref) (u : URL) (hb : IsBytes s.data)
    (h : New goLib s = (parent, none)) (hc : parent.IsCanonical = true)
    (hu : parent.ReferenceURL = some u) :
    WellFormed u ∧ (u.Host ≠ "" ∨ u.Path ≠ "") ∧
      ∃ u0, NetURL.Parse s = .ok u0 ∧ Internal.NormalizeURL u0 = u := by
  obtain ⟨parsed, hp, hu2, hs, hhp⟩ := canonical_fields goLib s parent h hc
  have hue : goLib.normalizeURL parsed = u := by
    rw [hu] at hu2
    exact (Option.some.inj hu2).symm
  have hue2 : Internal.NormalizeURL parsed = u := hue
  rw [hue] at hs hhp
  obtain ⟨hsch, -, -, hho, hpa, -, -, -, -, -, -⟩ := NormalizeURL_fields parsed
  rw [hue2] at hsch hho hpa
  have hs0 : parsed.Scheme ≠ "" := by
    intro h0
    rw [h0] at hsch
    exact hs hsch
  have hhp0 : parsed.Host ≠ "" ∨ parsed.Path ≠ "" := by
    rcases hhp with h1 | h1
    · left
      intro h0
      exact h1 (hho h0)
    · right
      intro h0
      rw [h0] at hpa
      exact h1 hpa
  obtain ⟨hw, -⟩ := Parse_wellFormed s parsed hp hb hs0 hhp0
  have hw2 := NormalizeURL_wellFormed parsed hw
  rw [hue2] at hw2
  exact ⟨hw2, hhp, parsed, hp, hue2⟩

/-- A canonical reference, made by `New` from a text of bytes, whose URL has no `.`
and `..` segments, is left unchanged by the normaliser and has a host that is
read back from its escaped text: resolved against itself it is returned again. -/
theorem Inherits_self_eq (s : String) (parent : Ref) (u : URL) (hb : IsBytes s.data)
    (h : New goLib s = (parent, none)) (hc : parent.IsCanonical = true)
    (hu : parent.ReferenceURL = some u) (hdot : noDotSegments u.Path.data)
    (hn : Internal.NormalizeURL u = u)
    (hh : NetURL.parseHost (NetURL.escape u.Host.data encodeHost) = .ok u.Host.data) :
    parent.Inherits goLib parent = (some parent, none) := by
  obtain ⟨hw, hhp, u0, hp0, hn0⟩ := New_wellFormed s parent u hb h hc hu
  obtain ⟨hrp, hrf, hpp⟩ := NormalizeURL_fixed u hn
  have hres : goLib.resolveReference u u = u := ResolveReference_self u hw hrp hdot
  have hps : goLib.urlParse (goLib.urlString u) = .ok u :=
    Parse_String u hw hrp hrf hhp hh (fun _ => hpp)
  have hnew : New goLib (goLib.urlString u) = New goLib s := by
    apply New_congr goLib _ _ u u0 hps hp0
    show Internal.NormalizeURL u = Internal.NormalizeURL u0
    rw [hn, hn0]
  unfold Ref.Inherits Ref.GetURL
  rw [hu]
  simp only []
  rw [hres, hnew, h]

end RoundTrip

/-! ## The claims, continued -/

/-- C11: when `New` succeeds, the pointer of the `Ref` is the one `jsonpointer.New`
returns for the fragment of the normalised URL.  With `jsonpointer` as modelled:
if the fragment is empty or begins with `/`, there is no pointer error and the
pointer renders as the fragment; if it is non-empty and does not begin with `/`,
the pointer is the empty pointer and renders as the empty string. -/
theorem New_pointer_of_fragment (L : Lib) (s : String) (r : Ref)
    (hN : L.pointerNew = JsonPointer.New) (hS : L.pointerString = JsonPointer.String)
    (h : New L s = (r, none)) :
    ∃ parsed, L.urlParse s = .ok parsed ∧ r.ReferenceURL = some (L.normalizeURL parsed) ∧
      r.GetPointer = (L.pointerNew (L.normalizeURL parsed).Fragment).1 ∧
      (((L.normalizeURL parsed).Fragment = "" ∨
          stringsHasPrefix (L.normalizeURL parsed).Fragment "/" = true) →
        (L.pointerNew (L.normalizeURL parsed).Fragment).2 = none ∧
          L.pointerString r.GetPointer = (L.normalizeURL parsed).Fragment) ∧
      (((L.normalizeURL parsed).Fragment ≠ "" ∧
          stringsHasPrefix (L.normalizeURL parsed).Fragment "/" = false) →
        r.GetPointer = { referenceTokens := [] } ∧ L.pointerString r.GetPointer = "") := by
  obtain ⟨parsed, hp, hu, hptr, -⟩ := New_ok_fields L s r h
  refine ⟨parsed, hp, hu, hptr, ?_, ?_⟩
  · intro hvalid
    unfold Ref.GetPointer
    rw [hptr, hN, hS]
    rcases hvalid with hempty | hslash
    · rw [hempty, JsonPointer_New_empty]
      exact ⟨rfl, rfl⟩
    · exact JsonPointer_New_slash _ hslash
  · intro hinvalid
    unfold Ref.GetPointer
    rw [hptr, hN, hS]
    exact (JsonPointer_New_invalid _ hinvalid.1 hinvalid.2).2

/-- C11, at `#/definitions/Pet`. -/
theorem New_pointer_of_fragment_witness :
    goLib.pointerNew = JsonPointer.New ∧ goLib.pointerString = JsonPointer.String ∧
    New goLib "#/definitions/Pet" = (petRef, none) ∧
    petRef.GetPointer = { referenceTokens := ["definitions", "Pet"] } ∧
    goLib.pointerString petRef.GetPointer = "/definitions/Pet" ∧
    ∃ parsed, goLib.urlParse "#/definitions/Pet" = .ok parsed ∧
      petRef.ReferenceURL = some (goLib.normalizeURL parsed) ∧
      petRef.GetPointer = (goLib.pointerNew (goLib.normalizeURL parsed).Fragment).1 ∧
      (((goLib.normalizeURL parsed).Fragment = "" ∨
          stringsHasPrefix (goLib.normalizeURL parsed).Fragment "/" = true) →
        (goLib.pointerNew (goLib.normalizeURL parsed).Fragment).2 = none ∧
          goLib.pointerString petRef.GetPointer = (goLib.normalizeURL parsed).Fragment) ∧
      (((goLib.normalizeURL parsed).Fragment ≠ "" ∧
          stringsHasPrefix (goLib.normalizeURL parsed).Fragment "/" = false) →
        petRef.GetPointer = { referenceTokens := [] } ∧
          goLib.pointerString petRef.GetPointer = "") :=
  ⟨rfl, rfl, by decide, rfl, by decide,
    New_pointer_of_fragment goLib "#/definitions/Pet" petRef rfl rfl (by decide)⟩

/-- C12: for every `Ref`, `IsRoot` is true iff the `Ref` has a URL, `IsCanonical`
is false, `HasURLPathOnly` is false and the fragment of the URL is empty; a `Ref`
that `New` returns for a URL whose scheme, host, path, query and fragment are all
empty is a root. -/
theorem IsRoot_iff (L : Lib) (r : Ref) (s : String) (r0 : Ref) :
    (r.IsRoot = true ↔
      (∃ u, r.ReferenceURL = some u ∧ u.Fragment = "") ∧ r.IsCanonical = false ∧
        r.HasURLPathOnly = false) ∧
    (New L s = (r0, none) →
      (∀ u, r0.ReferenceURL = some u →
        u.Scheme = "" ∧ u.Host = "" ∧ u.Path = "" ∧ u.RawQuery = "" ∧ u.Fragment = "") →
      r0.IsRoot = true) := by
  constructor
  · unfold Ref.IsRoot
    cases hu : r.ReferenceURL with
    | none => simp
    | some u =>
      simp only [Bool.and_eq_true, Bool.not_eq_true', decide_eq_true_eq, Option.some.injEq,
        exists_eq_left']
      tauto
  · intro h hall
    obtain ⟨parsed, -, hu, -, hfull, hpath, -, hfile, hffp⟩ := New_ok_fields L s r0 h
    obtain ⟨hs, -, hp, -, hf⟩ := hall _ hu
    unfold Ref.IsRoot Ref.IsCanonical
    rw [hu, hfull, hpath, hfile, hffp]
    simp [hs, hp, hf]

/-- C12, at the empty string. -/
theorem IsRoot_iff_witness :
    New goLib "" = (emptyRef, none) ∧ emptyRef.IsRoot = true ∧
    (fooRef.IsRoot = true ↔
      (∃ u, fooRef.ReferenceURL = some u ∧ u.Fragment = "") ∧ fooRef.IsCanonical = false ∧
        fooRef.HasURLPathOnly = false) :=
  ⟨by decide,
    (IsRoot_iff goLib fooRef "" emptyRef).2 (by decide) (by
      intro u hu
      have hz : u = NetURL.zeroURL := by
        have h2 : some NetURL.zeroURL = some u := hu
        exact (Option.some.inj h2).symm
      subst hz
      decide),
    (IsRoot_iff goLib fooRef "" emptyRef).1⟩

/-- C13: for every `Ref`, `HasOnlyFragment` is true iff the `Ref` has a URL whose
host and path are both empty; it is false without a URL, and it is the same for
two `Ref`s whose URLs agree on host and path, whatever the fragment, scheme,
query and flags are. -/
theorem HasOnlyFragment_iff (r r2 : Ref) :
    (r.HasOnlyFragment = true ↔ ∃ u, r.ReferenceURL = some u ∧ u.Host = "" ∧ u.Path = "") ∧
    (r.ReferenceURL = none → r.HasOnlyFragment = false) ∧
    (∀ u u2, r.ReferenceURL = some u → r2.ReferenceURL = some u2 →
      u.Host = u2.Host → u.Path = u2.Path → r.HasOnlyFragment = r2.HasOnlyFragment) := by
  refine ⟨?_, ?_, ?_⟩
  · unfold Ref.HasOnlyFragment
    cases hu : r.ReferenceURL with
    | none => simp
    | some u =>
      by_cases hh : u.Host = ""
      · by_cases hp : u.Path = ""
        · simp [hh, hp]
        · simp [hh, hp]
      · simp [hh]
  · intro hn
    unfold Ref.HasOnlyFragment
    rw [hn]
  · intro u u2 hu hu2 hh hp
    unfold Ref.HasOnlyFragment
    rw [hu, hu2]
    simp only [hh, hp]

/-- C13, at `#/definitions/Pet`, `//host#frag` and the zero value. -/
theorem HasOnlyFragment_iff_witness :
    petRef.HasOnlyFragment = true ∧ hostFragRef.HasOnlyFragment = false ∧
    (Ref.zero.ReferenceURL = none ∧ Ref.zero.HasOnlyFragment = false) ∧
    (petRef.HasOnlyFragment = true ↔
      ∃ u, petRef.ReferenceURL = some u ∧ u.Host = "" ∧ u.Path = "") :=
  ⟨by decide, by decide, ⟨rfl, (HasOnlyFragment_iff Ref.zero petRef).2.1 rfl⟩,
    (HasOnlyFragment_iff petRef hostFragRef).1⟩

/-- C14 as stated fails: `http://[fe80::1%25\xc3\xa9]/`, a text of bytes whose IPv6
zone holds the bytes `0xC3 0xA9`, is parsed into a URL that the normaliser leaves
unchanged, and `New` returns a canonical `Ref` for it.  `String` writes the two
bytes as `%C3%A9`, and `url.Parse` rejects `%C3` in a zone, so `New(r.String())`
fails. -/
theorem New_String_roundtrip_counterexample :
    IsBytes "http://[fe80::1%25\xc3\xa9]/".data ∧
    goLib.urlParse "http://[fe80::1%25\xc3\xa9]/" = .ok zoneURL ∧
    goLib.normalizeURL zoneURL = zoneURL ∧
    New goLib "http://[fe80::1%25\xc3\xa9]/" = (zoneRef, none) ∧
    zoneRef.IsCanonical = true ∧
    zoneRef.String goLib = "http://[fe80::1%25%C3%A9]/" ∧
    New goLib (zoneRef.String goLib) = (Ref.zero, some zoneError) ∧
    ¬ (∀ (s : String) (u : URL) (r : Ref), IsBytes s.data → goLib.urlParse s = .ok u →
        goLib.normalizeURL u = u → New goLib s = (r, none) → r.IsCanonical = true →
        ∃ r2, New goLib (r.String goLib) = (r2, none) ∧
          r2.HasFullURL = r.HasFullURL ∧ r2.HasURLPathOnly = r.HasURLPathOnly ∧
          r2.HasFragmentOnly = r.HasFragmentOnly ∧ r2.HasFileScheme = r.HasFileScheme ∧
          r2.HasFullFilePath = r.HasFullFilePath ∧
          r2.ReferenceURL = r.ReferenceURL ∧ r2.ReferencePointer = r.ReferencePointer) := by
  refine ⟨by decide, rfl, by decide, by decide, by decide, by decide, by decide, ?_⟩
  intro hall
  obtain ⟨r2, hr2, -⟩ := hall "http://[fe80::1%25\xc3\xa9]/" zoneURL zoneRef (by decide)
    rfl (by decide) (by decide) (by decide)
  have hn : New goLib (zoneRef.String goLib) = (Ref.zero, some zoneError) := by decide
  rw [hn] at hr2
  cases hr2

/-- C14, amended: let `s` be a text of bytes on which `New` succeeds with the `Ref`
`r`, let `s` be already normalised, which is to say that the normaliser leaves
the URL that `url.Parse` returns for `s` unchanged, let `r` be canonical, and
let the host of that URL have no byte above `0x7F`.  Then `New(r.String())`
succeeds with a `Ref` that has the same five flags, the same URL and the same
pointer as `r`.  The text that `String` writes need not be `s`: the proof parses
what `(*URL).String` writes and finds the URL of `r` again. -/
theorem New_String_roundtrip (s : String) (u : URL) (r : Ref) (hbytes : IsBytes s.data)
    (hparse : goLib.urlParse s = .ok u) (hnorm : goLib.normalizeURL u = u)
    (h : New goLib s = (r, none)) (hcanon : r.IsCanonical = true)
    (hhost : IsASCII u.Host.data) :
    ∃ r2, New goLib (r.String goLib) = (r2, none) ∧
      r2.HasFullURL = r.HasFullURL ∧ r2.HasURLPathOnly = r.HasURLPathOnly ∧
      r2.HasFragmentOnly = r.HasFragmentOnly ∧ r2.HasFileScheme = r.HasFileScheme ∧
      r2.HasFullFilePath = r.HasFullFilePath ∧
      r2.ReferenceURL = r.ReferenceURL ∧ r2.ReferencePointer = r.ReferencePointer := by
  obtain ⟨hu, hps⟩ := Parse_String_normalized s u r hbytes hparse hnorm h hcanon hhost
  refine ⟨r, ?_, rfl, rfl, rfl, rfl, rfl, rfl, rfl⟩
  have hstr : r.String goLib = NetURL.URL.String u := by
    unfold Ref.String
    rw [hu]
    rfl
  rw [hstr, New_congr goLib (NetURL.URL.String u) s u u hps hparse rfl]
  exact h

/-- C14 amended, at `http://example.com/schema.json#`, which is rendered without
its `#`. -/
theorem New_String_roundtrip_witness :
    IsBytes "http://example.com/schema.json#".data ∧
    goLib.urlParse "http://example.com/schema.json#" = .ok schemaURL ∧
    goLib.normalizeURL schemaURL = schemaURL ∧
    New goLib "http://example.com/schema.json#" = (fullSchemaRef, none) ∧
    fullSchemaRef.IsCanonical = true ∧
    IsASCII schemaURL.Host.data ∧
    fullSchemaRef.String goLib = "http://example.com/schema.json" ∧
    ∃ r2, New goLib (fullSchemaRef.String goLib) = (r2, none) ∧
      r2.HasFullURL = fullSchemaRef.HasFullURL ∧
      r2.HasURLPathOnly = fullSchemaRef.HasURLPathOnly ∧
      r2.HasFragmentOnly = fullSchemaRef.HasFragmentOnly ∧
      r2.HasFileScheme = fullSchemaRef.HasFileScheme ∧
      r2.HasFullFilePath = fullSchemaRef.HasFullFilePath ∧
      r2.ReferenceURL = fullSchemaRef.ReferenceURL ∧
      r2.ReferencePointer = fullSchemaRef.ReferencePointer :=
  ⟨by decide, rfl, by decide, by decide, by decide, by decide, by decide,
    New_String_roundtrip "http://example.com/schema.json#" schemaURL fullSchemaRef
      (by decide) rfl (by decide) (by decide) (by decide) (by decide)⟩

/-- C15 as stated fails: `http://h/a/./b` is parsed successfully into a canonical
`Ref` that renders as `http://h/a/./b`; resolving it against itself removes the
dot segment, so `Inherits` returns the `Ref` of `http://h/a/b`, which renders
differently. -/
theorem Inherits_self_counterexample :
    New goLib "http://h/a/./b" = (dotRef, none) ∧
    dotRef.IsCanonical = true ∧
    dotRef.Inherits goLib dotRef = (some dotResolvedRef, none) ∧
    dotRef.String goLib = "http://h/a/./b" ∧
    dotResolvedRef.String goLib = "http://h/a/b" ∧
    ¬ (∀ (s : String) (parent : Ref), New goLib s = (parent, none) →
        parent.IsCanonical = true →
        ∃ res, parent.Inherits goLib parent = (some res, none) ∧
          res.String goLib = parent.String goLib) := by
  refine ⟨by decide, by decide, by decide, by decide, by decide, ?_⟩
  intro hall
  obtain ⟨res, hres, hstr⟩ := hall "http://h/a/./b" dotRef (by decide) (by decide)
  have hi : dotRef.Inherits goLib dotRef = (some dotResolvedRef, none) := by decide
  rw [hi] at hres
  have hr : res = dotResolvedRef := by
    have h1 := congrArg Prod.fst hres
    exact (Option.some.inj h1).symm
  subst hr
  revert hstr
  decide

/-- The second hypothesis of the amended C15 is needed.  The default port is
stripped once for each parse: `http://h:80:80/` gives a canonical `Ref` with the
host `h:80` and a path without dot segments, whose host is read back from its
escaped text; the normaliser changes its URL once more, and `Inherits` returns
the `Ref` of `http://h/`, which renders differently. -/
theorem Inherits_self_port :
    New goLib "http://h:80:80/" = (portRef, none) ∧
    portRef.IsCanonical = true ∧
    noDotSegments "/".data ∧
    NetURL.parseHost (NetURL.escape "h:80".data NetURL.encoding.encodeHost) = .ok "h:80".data ∧
    (∀ u, portRef.ReferenceURL = some u → goLib.normalizeURL u ≠ u) ∧
    portRef.Inherits goLib portRef = (some portResolvedRef, none) ∧
    portRef.String goLib = "http://h:80/" ∧
    portResolvedRef.String goLib = "http://h/" := by
  refine ⟨by decide, by decide, by decide, rfl, ?_, by decide, by decide, by decide⟩
  intro u hu
  have : u = { NetURL.zeroURL with Scheme := "http", Host := "h:80", Path := "/" } :=
    (Option.some.inj hu).symm
  subst this
  decide

/-- The third hypothesis of the amended C15 is needed.  The host that is left when
the default port is stripped need not be a host: `http://a:b:80/` gives a
canonical `Ref` with the host `a:b`, which the normaliser leaves unchanged and
whose path has no dot segments; `parseHost` rejects `a:b`, so `url.Parse` rejects
`http://a:b/` and `Inherits` fails. -/
theorem Inherits_self_host :
    New goLib "http://a:b:80/" = (colonRef, none) ∧
    colonRef.IsCanonical = true ∧
    noDotSegments "/".data ∧
    (∀ u, colonRef.ReferenceURL = some u → goLib.normalizeURL u = u) ∧
    NetURL.parseHost (NetURL.escape "a:b".data NetURL.encoding.encodeHost) =
      .error (Error.invalidPort ":b") ∧
    colonRef.Inherits goLib colonRef = (none, some colonError) := by
  refine ⟨by decide, by decide, by decide, ?_, rfl, by decide⟩
  intro u hu
  have : u = { NetURL.zeroURL with Scheme := "http", Host := "a:b", Path := "/" } :=
    (Option.some.inj hu).symm
  subst this
  decide

/-- The first hypothesis of the amended C15 is needed: the URL of `http://h/a/./b`
is left unchanged by the normaliser and its host is read back from its escaped
text, but its path has the segment `.`, and `Inherits` returns the `Ref` of
`http://h/a/b`. -/
theorem Inherits_self_dot :
    New goLib "http://h/a/./b" = (dotRef, none) ∧
    dotRef.IsCanonical = true ∧
    ¬ noDotSegments "/a/./b".data ∧
    (∀ u, dotRef.ReferenceURL = some u → goLib.normalizeURL u = u) ∧
    NetURL.parseHost (NetURL.escape "h".data NetURL.encoding.encodeHost) = .ok "h".data ∧
    dotRef.Inherits goLib dotRef = (some dotResolvedRef, none) := by
  refine ⟨by decide, by decide, by decide, ?_, rfl, by decide⟩
  intro u hu
  have : u = { NetURL.zeroURL with Scheme := "http", Host := "h", Path := "/a/./b" } :=
    (Option.some.inj hu).symm
  subst this
  decide

/-- C15, amended: let `New` succeed on a text of bytes `s` with a canonical `Ref`
`parent` whose URL `u` has a path without `.` and `..` segments, is left
unchanged when the normaliser is applied to it once more, and has a host that
`url.Parse` reads back from the text `String` writes for it.  Then
`parent.Inherits(parent)` succeeds and the result renders as `parent.String()`.
The three hypotheses exclude the dot segment of `http://h/a/./b`, the second
port of `http://h:80:80/` and the host `a:b` of `http://a:b:80/`, at each of
which `Inherits` does not return a `Ref` that renders as the parent. -/
theorem Inherits_self (s : String) (parent : Ref) (u : URL) (hbytes : IsBytes s.data)
    (h : New goLib s = (parent, none)) (hcanon : parent.IsCanonical = true)
    (hu : parent.ReferenceURL = some u) (hdot : noDotSegments u.Path.data)
    (hnorm : goLib.normalizeURL u = u)
    (hhost : NetURL.parseHost (NetURL.escape u.Host.data NetURL.encoding.encodeHost) =
      .ok u.Host.data) :
    ∃ res, parent.Inherits goLib parent = (some res, none) ∧
      res.String goLib = parent.String goLib :=
  ⟨parent, Inherits_self_eq s parent u hbytes h hcanon hu hdot hnorm hhost, rfl⟩

/-- C15 amended, at `HTTP://EXAMPLE.COM/a`, which is rendered in lower case. -/
theorem Inherits_self_witness :
    IsBytes "HTTP://EXAMPLE.COM/a".data ∧
    New goLib "HTTP://EXAMPLE.COM/a" = (lowerRef, none) ∧
    lowerRef.IsCanonical = true ∧
    lowerRef.ReferenceURL = some lowerURL ∧
    noDotSegments lowerURL.Path.data ∧
    goLib.normalizeURL lowerURL = lowerURL ∧
    NetURL.parseHost (NetURL.escape lowerURL.Host.data NetURL.encoding.encodeHost) =
      .ok lowerURL.Host.data ∧
    lowerRef.String goLib = "http://example.com/a" ∧
    ∃ res, lowerRef.Inherits goLib lowerRef = (some res, none) ∧
      res.String goLib = lowerRef.String goLib :=
  ⟨by decide, by decide, by decide, rfl, by decide, by decide, rfl, by decide,
    Inherits_self "HTTP://EXAMPLE.COM/a" lowerRef lowerURL
      (by decide) (by decide) (by decide) rfl (by decide) (by decide) rfl⟩

/-- C16: `MustCreateRef` panics iff `New` returns an error, and the panic value is
that error; otherwise it returns the `Ref` that `New` returns. -/
theorem MustCreateRef_eq_New (L : Lib) (s : String) :
    ((∃ e, MustCreateRef L s = .error e) ↔ (∃ e, (New L s).2 = some e)) ∧
    (∀ e, (New L s).2 = some e → MustCreateRef L s = .error e) ∧
    ((New L s).2 = none → MustCreateRef L s = .ok (New L s).1) := by
  unfold MustCreateRef
  rcases hN : New L s with ⟨r, e⟩
  cases e with
  | none => simp
  | some e => simp

/-- C16, at `://bad uri` and at `schema.json`. -/
theorem MustCreateRef_eq_New_witness :
    (New goLib "://bad uri").2 = some badURIError ∧
    MustCreateRef goLib "://bad uri" = .error badURIError ∧
    (New goLib "schema.json").2 = none ∧
    MustCreateRef goLib "schema.json" = .ok (New goLib "schema.json").1 :=
  ⟨by decide, (MustCreateRef_eq_New goLib "://bad uri").2.1 badURIError (by decide),
    by decide, (MustCreateRef_eq_New goLib "schema.json").2.2 (by decide)⟩

/-- C17: when `New` succeeds with `HasFragmentOnly` true, `IsCanonical` is false and
`IsRoot` is false. -/
theorem New_fragmentOnly_not_canonical_not_root (L : Lib) (s : String) (r : Ref)
    (h : New L s = (r, none)) (hf : r.HasFragmentOnly = true) :
    r.IsCanonical = false ∧ r.IsRoot = false := by
  obtain ⟨parsed, -, hu, -, hfull, hpath, hfrag, hfile, hffp⟩ := New_ok_fields L s r h
  rw [hfrag] at hf
  simp only [decide_eq_true_eq] at hf
  obtain ⟨hnf, hp, -, hfr⟩ := hf
  have hcan : r.IsCanonical = false := by
    unfold Ref.IsCanonical
    rw [hfull, hfile, hffp, hp]
    have hpre : stringsHasPrefix "" "/" = false := by decide
    rw [hpre]
    simp [hnf]
  refine ⟨hcan, ?_⟩
  unfold Ref.IsRoot
  rw [hu]
  simp [hfr]

/-- C17, at `#/definitions/Pet`. -/
theorem New_fragmentOnly_not_canonical_not_root_witness :
    New goLib "#/definitions/Pet" = (petRef, none) ∧ petRef.HasFragmentOnly = true ∧
    petRef.IsCanonical = false ∧ petRef.IsRoot = false :=
  ⟨by decide, rfl,
    New_fragmentOnly_not_canonical_not_root goLib "#/definitions/Pet" petRef (by decide) rfl⟩

/-- C18: when `New` succeeds and `HasOnlyFragment` is true on the result, the flags
`HasFullURL`, `HasURLPathOnly` and `HasFullFilePath` are false and `IsCanonical`
is false. -/
theorem New_HasOnlyFragment_flags (L : Lib) (s : String) (r : Ref)
    (h : New L s = (r, none)) (ho : r.HasOnlyFragment = true) :
    r.HasFullURL = false ∧ r.HasURLPathOnly = false ∧ r.HasFullFilePath = false ∧
      r.IsCanonical = false := by
  obtain ⟨parsed, -, hu, -, hfull, hpath, -, hfile, hffp⟩ := New_ok_fields L s r h
  have hhp : (L.normalizeURL parsed).Host = "" ∧ (L.normalizeURL parsed).Path = "" := by
    unfold Ref.HasOnlyFragment at ho
    rw [hu] at ho
    by_cases hh : (L.normalizeURL parsed).Host = ""
    · by_cases hp : (L.normalizeURL parsed).Path = ""
      · exact ⟨hh, hp⟩
      · simp [hh, hp] at ho
    · simp [hh] at ho
  have hpre : stringsHasPrefix "" "/" = false := by decide
  have h1 : r.HasFullURL = false := by rw [hfull]; simp [hhp.1]
  have h2 : r.HasURLPathOnly = false := by rw [hpath]; simp [hhp.2]
  have h3 : r.HasFullFilePath = false := by rw [hffp, hhp.2, hpre]
  refine ⟨h1, h2, h3, ?_⟩
  unfold Ref.IsCanonical
  rw [h1, h3]
  simp

/-- C18, at `#/definitions/Pet`. -/
theorem New_HasOnlyFragment_flags_witness :
    New goLib "#/definitions/Pet" = (petRef, none) ∧ petRef.HasOnlyFragment = true ∧
    petRef.HasFullURL = false ∧ petRef.HasURLPathOnly = false ∧
    petRef.HasFullFilePath = false ∧ petRef.IsCanonical = false :=
  ⟨by decide, by decide,
    New_HasOnlyFragment_flags goLib "#/definitions/Pet" petRef (by decide) (by decide)⟩

/-- C19: the flag `HasFragmentOnly` and the predicate `HasOnlyFragment` can
disagree: `//host#frag` is parsed into a `Ref` with `HasFragmentOnly` true and
`HasOnlyFragment` false, as is every parsed URL with empty scheme, non-empty
host, empty path, empty query and non-empty fragment; when the host is empty,
`HasFragmentOnly` true implies `HasOnlyFragment` true. -/
theorem HasFragmentOnly_vs_HasOnlyFragment (L : Lib) (s : String) (r : Ref)
    (h : New L s = (r, none)) :
    (∃ s0 r0, New goLib s0 = (r0, none) ∧ r0.HasFragmentOnly = true ∧
      r0.HasOnlyFragment = false) ∧
    ∃ parsed, L.urlParse s = .ok parsed ∧ r.ReferenceURL = some (L.normalizeURL parsed) ∧
      ((L.normalizeURL parsed).Scheme = "" → (L.normalizeURL parsed).Host ≠ "" →
        (L.normalizeURL parsed).Path = "" → (L.normalizeURL parsed).RawQuery = "" →
        (L.normalizeURL parsed).Fragment ≠ "" →
        r.HasFragmentOnly = true ∧ r.HasOnlyFragment = false) ∧
      ((L.normalizeURL parsed).Host = "" → r.HasFragmentOnly = true →
        r.HasOnlyFragment = true) := by
  refine ⟨⟨"//host#frag", hostFragRef, by decide, by decide, by decide⟩, ?_⟩
  obtain ⟨parsed, hp, hu, -, -, -, hfrag, -, -⟩ := New_ok_fields L s r h
  refine ⟨parsed, hp, hu, ?_, ?_⟩
  · intro hs hh hpa hq hf
    refine ⟨?_, ?_⟩
    · rw [hfrag]
      simp [hs, hpa, hq, hf]
    · unfold Ref.HasOnlyFragment
      rw [hu]
      simp [hh]
  · intro hh hfo
    rw [hfrag] at hfo
    simp only [decide_eq_true_eq] at hfo
    unfold Ref.HasOnlyFragment
    rw [hu]
    simp [hh, hfo.2.1]

/-- C19, at `//host#frag`. -/
theorem HasFragmentOnly_vs_HasOnlyFragment_witness :
    New goLib "//host#frag" = (hostFragRef, none) ∧
    hostFragRef.HasFragmentOnly = true ∧ hostFragRef.HasOnlyFragment = false ∧
    ∃ s0 r0, New goLib s0 = (r0, none) ∧ r0.HasFragmentOnly = true ∧
      r0.HasOnlyFragment = false :=
  ⟨by decide, rfl, by decide,
    (HasFragmentOnly_vs_HasOnlyFragment goLib "//host#frag" hostFragRef (by decide)).1⟩

/-- C20: for every `Ref` without a URL, `HasOnlyFragment` is false and `String()` is
the string form of the pointer, with no `#` in front. -/
theorem String_without_URL (L : Lib) (r : Ref) (hn : r.ReferenceURL = none) :
    r.HasOnlyFragment = false ∧ r.String L = L.pointerString r.ReferencePointer := by
  have ho : r.HasOnlyFragment = false := by
    unfold Ref.HasOnlyFragment
    rw [hn]
  refine ⟨ho, ?_⟩
  unfold Ref.String
  rw [hn]
  simp [ho]

/-- C20, at a hand-made `Ref` without a URL whose pointer is `/definitions/Pet`. -/
theorem String_without_URL_witness :
    ({ petRef with ReferenceURL := none } : Ref).ReferenceURL = none ∧
    ({ petRef with ReferenceURL := none } : Ref).String goLib = "/definitions/Pet" ∧
    ({ petRef with ReferenceURL := none } : Ref).HasOnlyFragment = false ∧
    ({ petRef with ReferenceURL := none } : Ref).String goLib =
      goLib.pointerString ({ petRef with ReferenceURL := none } : Ref).ReferencePointer :=
  ⟨rfl, by decide, String_without_URL goLib { petRef with ReferenceURL := none } rfl⟩

end JsonReference
